import Mathlib

/-!
Verification development for the DNS configuration generator of
`webui/backend/app/services/dns.py` (class `DNSService`).

Strings are modelled as lists of characters (`Str`).  Python dictionaries are
modelled as association lists with insertion-order semantics (key position is
the first insertion, value is the last write), matching CPython dicts.
Filesystem writes are modelled as an explicit trace of operations (`Op`), and
exceptions raised by the runtime are modelled by a budget counter: the run
fails at the n-th effectful operation, after which nothing further executes,
exactly as an exception unwinding to the `except` block of
`generate_dns_config` would behave.
-/

namespace Fauxnet

/-- Python strings, modelled as lists of characters. -/
abbrev Str := List Char

/-- The single-quote character (used by the delegations file syntax). -/
def sq : Char := Char.ofNat 39

/-- Whitespace characters recognised by Python `str.strip()` / `str.split()`
(the ASCII ones; exotic unicode whitespace is not modelled). -/
def isPyWs (c : Char) : Bool :=
  c = ' ' || c = '\t' || c = '\n' || c = '\x0d' || c = Char.ofNat 11 || c = Char.ofNat 12

/-- Python `str.strip()`. -/
def pyStrip (s : Str) : Str :=
  ((s.dropWhile isPyWs).reverse.dropWhile isPyWs).reverse

/-- Worker for `splitWs`; `acc` holds the current token reversed. -/
def splitWsGo (acc : Str) : Str → List Str
  | [] => if acc.isEmpty then [] else [acc.reverse]
  | c :: cs =>
    if isPyWs c then
      if acc.isEmpty then splitWsGo [] cs else acc.reverse :: splitWsGo [] cs
    else
      splitWsGo (c :: acc) cs

/-- Python `str.split()` with no argument: maximal runs of non-whitespace. -/
def splitWs (s : Str) : List Str := splitWsGo [] s

/-- Worker for `splitOnChar`; `acc` holds the current piece reversed. -/
def splitOnCharGo (sep : Char) (acc : Str) : Str → List Str
  | [] => [acc.reverse]
  | c :: cs =>
    if c = sep then acc.reverse :: splitOnCharGo sep [] cs
    else splitOnCharGo sep (c :: acc) cs

/-- Python `str.split(sep)` for a single-character separator: splits at every
occurrence, keeping empty pieces. -/
def splitOnChar (sep : Char) (s : Str) : List Str := splitOnCharGo sep [] s

/-- Python `sep.join(parts)` for a single-character separator. -/
def joinChar (sep : Char) (parts : List Str) : Str :=
  List.intercalate [sep] parts

/-- `DNSService._get_tld`: the last dot-separated label, provided the name has
at least two labels; `None` otherwise. -/
def getTld (fqdn : Str) : Option Str :=
  match (splitOnChar '.' fqdn).reverse with
  | t :: _ :: _ => some t
  | _ => none

/-- `DNSService._get_sld`: the second-to-last dot-separated label, provided the
name has at least two labels; `None` otherwise. -/
def getSld (fqdn : Str) : Option Str :=
  match (splitOnChar '.' fqdn).reverse with
  | _ :: s :: _ => some s
  | _ => none

/-- Python truthiness of an optional string: `None` and the empty string are
falsy. -/
def pyTruthy (o : Option Str) : Bool :=
  match o with
  | none => false
  | some s => !s.isEmpty

/-- Decimal digit test. -/
def isDigitCh (c : Char) : Bool := '0' ≤ c && c ≤ '9'

/-- Parses a non-empty all-digit string into a natural number. -/
def parseDigits (s : Str) : Option Nat :=
  if s.isEmpty then none
  else if s.all isDigitCh then
    some (s.foldl (fun acc c => acc * 10 + (c.toNat - 48)) 0)
  else none

/-- Python `int(s)` restricted to the forms relevant here: optional whitespace,
an optional sign, then decimal digits (numeric underscores and unicode digits
are not modelled). -/
def pyInt? (s : Str) : Option Int :=
  match pyStrip s with
  | '+' :: ds => (parseDigits ds).map (fun n => (n : Int))
  | '-' :: ds => (parseDigits ds).map (fun n => -(n : Int))
  | ds => (parseDigits ds).map (fun n => (n : Int))

/-- `DNSService._validate_ip`: exactly four dot-separated parts, each parsing
as an integer in `[0, 255]`. -/
def validateIp (ip : Str) : Bool :=
  let parts := splitOnChar '.' ip
  if parts.length ≠ 4 then false
  else parts.all (fun p =>
    match pyInt? p with
    | none => false
    | some n => decide (0 ≤ n) && decide (n ≤ 255))

/-- ASCII alphanumeric test (the character class `[a-zA-Z0-9]`). -/
def isAlnumAscii (c : Char) : Bool :=
  ('a' ≤ c && c ≤ 'z') || ('A' ≤ c && c ≤ 'Z') || ('0' ≤ c && c ≤ '9')

/-- One label of `DNSService._validate_fqdn`: non-empty, at most 63 characters,
matching `[a-zA-Z0-9]([a-zA-Z0-9-]*[a-zA-Z0-9])?`. -/
def validLabel (l : Str) : Bool :=
  !l.isEmpty && l.length ≤ 63 &&
  l.all (fun c => isAlnumAscii c || c = '-') &&
  (match l.head? with | none => false | some c => isAlnumAscii c) &&
  (match l.getLast? with | none => false | some c => isAlnumAscii c)

/-- `DNSService._validate_fqdn`. -/
def validateFqdn (fqdn : Str) : Bool :=
  if fqdn.isEmpty || 253 < fqdn.length then false
  else if !(fqdn.contains '.') then false
  else (splitOnChar '.' fqdn).all validLabel


/-! ## Python dictionaries as insertion-ordered association lists -/

/-- Dictionary lookup (`d[k]` / `k in d`). -/
def alGet {α : Type} (m : List (Str × α)) (k : Str) : Option α :=
  match m with
  | [] => none
  | (k0, v0) :: rest => if k0 = k then some v0 else alGet rest k

/-- Dictionary write `d[k] = v`: keeps the key at its first-insertion position
and updates the value, else appends, as CPython dicts do. -/
def alSet {α : Type} (m : List (Str × α)) (k : Str) (v : α) : List (Str × α) :=
  match m with
  | [] => [(k, v)]
  | (k0, v0) :: rest => if k0 = k then (k0, v) :: rest else (k0, v0) :: alSet rest k v

/-- `if k not in d: d[k] = []` followed by `d[k].append(v)`. -/
def alAppend (m : List (Str × List Str)) (k : Str) (v : Str) : List (Str × List Str) :=
  match m with
  | [] => [(k, [v])]
  | (k0, v0) :: rest => if k0 = k then (k0, v0 ++ [v]) :: rest else (k0, v0) :: alAppend rest k v

/-- Builds a dict from an entry list (`{e.key: e.value for e in entries}`):
later duplicates overwrite in place. -/
def alOfList {α : Type} (es : List (Str × α)) : List (Str × α) :=
  es.foldl (fun m p => alSet m p.1 p.2) []

/-! ## Warning messages of the collector and the nameserver merge -/

/-- Warning `Skipping host {fqdn} in delegated domain {domain}`. -/
def skipFwdMsg (fqdn domain : Str) : Str :=
  "Skipping host ".toList ++ fqdn ++ " in delegated domain ".toList ++ domain

/-- Warning `Skipping host {fqdn}: IP {ipaddr} in delegated network {network}`. -/
def skipRevMsg (fqdn ipaddr network : Str) : Str :=
  "Skipping host ".toList ++ fqdn ++ ": IP ".toList ++ ipaddr
    ++ " in delegated network ".toList ++ network

/-- Warning `Delegation nameserver {ns} already in hosts (old: {old}, new: {new})`. -/
def nsConflictMsg (ns oldIp newIp : Str) : Str :=
  "Delegation nameserver ".toList ++ ns ++ " already in hosts (old: ".toList
    ++ oldIp ++ ", new: ".toList ++ newIp ++ ")".toList

/-! ## Host collector (`DNSService._add_hosts_to_list`) -/

/-- Mutable state threaded through the collection phase of
`generate_dns_config`: the shared `hosts_list` and `domain_mx` dicts, the
`warnings` list and the accumulated `hosts_skipped` count. -/
structure CollectSt where
  hosts : List (Str × Str)
  mx : List (Str × List Str)
  warnings : List Str
  skipped : Nat
deriving Repr, DecidableEq

/-- The empty collection state at the start of a generation run. -/
def CollectSt.init : CollectSt := ⟨[], [], [], 0⟩

/-- One iteration of the line loop of `_add_hosts_to_list`. -/
def processHostLine (fwdMap revMap : List (Str × List Str)) (isMx quiet : Bool)
    (st : CollectSt) (rawLine : Str) : CollectSt :=
  let line := pyStrip rawLine
  if line.isEmpty then st
  else if line.head? = some '#' then st
  else
    match splitWs line with
    | ipaddr :: fqdn :: _ =>
      let tld := getTld fqdn
      let sld := getSld fqdn
      if !pyTruthy tld || !pyTruthy sld then st
      else
        let domain := sld.getD [] ++ '.' :: tld.getD []
        if (alGet fwdMap domain).isSome then
          { st with
            warnings := if quiet then st.warnings else st.warnings ++ [skipFwdMsg fqdn domain],
            skipped := st.skipped + 1 }
        else
          let ipNetwork := joinChar '.' ((splitOnChar '.' ipaddr).take 3)
          if (alGet revMap ipNetwork).isSome then
            { st with
              warnings :=
                if quiet then st.warnings else st.warnings ++ [skipRevMsg fqdn ipaddr ipNetwork],
              skipped := st.skipped + 1 }
          else
            let st := { st with hosts := alSet st.hosts fqdn ipaddr }
            if isMx then { st with mx := alAppend st.mx domain fqdn } else st
    | _ => st

/-- `_add_hosts_to_list` over the lines of one inventory file (the skip count
it returns is accumulated in the state). -/
def addHostsFile (fwdMap revMap : List (Str × List Str)) (isMx quiet : Bool)
    (st : CollectSt) (lines : List Str) : CollectSt :=
  lines.foldl (processHostLine fwdMap revMap isMx quiet) st

/-- `DNSService.parse_hosts_file`: validated `(ip, fqdn)` entries of a hosts
file (used by `get_vhost_hosts_files` to decide which vhost files count). -/
def parseHostsFile (lines : List Str) : List (Str × Str) :=
  lines.foldl (fun acc rawLine =>
    let line := pyStrip rawLine
    if line.isEmpty then acc
    else if line.head? = some '#' then acc
    else
      match splitWs line with
      | ip :: fqdn :: _ =>
        if validateIp ip && validateFqdn fqdn then acc ++ [(ip, fqdn)] else acc
      | _ => acc) []


/-! ## Delegation store (`parse_delegations_file` / `update_delegations_file`) -/

/-- One forward or reverse delegation (`DNSDelegationEntry` of `schemas.py`). -/
structure DNSDelegationEntry where
  domainOrNetwork : Str
  nameservers : List Str
deriving Repr, DecidableEq

/-- One nameserver-IP assignment (`DNSNameserverEntry` of `schemas.py`). -/
structure DNSNameserverEntry where
  hostname : Str
  ipAddress : Str
deriving Repr, DecidableEq

/-- The three delegation maps (`DNSDelegationsConfig` of `schemas.py`). -/
structure DNSDelegationsConfig where
  forward : List DNSDelegationEntry
  reverse : List DNSDelegationEntry
  nameservers : List DNSNameserverEntry
deriving Repr, DecidableEq

/-- The literal head of the `DELEGATIONS_FWD` array in the delegations file. -/
def litFwd : Str := "declare -A DELEGATIONS_FWD=(".toList

/-- The literal head of the `DELEGATIONS_REV` array. -/
def litRev : Str := "declare -A DELEGATIONS_REV=(".toList

/-- The literal head of the `DELEGATIONS_NS` array. -/
def litNs : Str := "declare -A DELEGATIONS_NS=(".toList

/-- The fixed banner `update_delegations_file` writes before the arrays. -/
def serializeHeader : Str :=
  "#!/bin/bash\n\n# DNS Delegations Configuration\n# Generated by Fauxnet WebUI\n\n".toList

/-- One serialized array entry: two spaces, `[`, quote, key, quote, `]=`,
quote, value, quote, newline. -/
def entryLine (k v : Str) : Str :=
  ' ' :: ' ' :: '[' :: sq :: (k ++ sq :: ']' :: '=' :: sq :: (v ++ [sq, '\n']))

/-- `DNSService.update_delegations_file`: the full serialized file content. -/
def updateDelegationsContent (cfg : DNSDelegationsConfig) : Str :=
  serializeHeader
  ++ litFwd ++ '\n' ::
    ((cfg.forward.map (fun e => entryLine e.domainOrNetwork (joinChar ' ' e.nameservers))).flatten
  ++ ")\n\n".toList
  ++ litRev ++ '\n' ::
    ((cfg.reverse.map (fun e => entryLine e.domainOrNetwork (joinChar ' ' e.nameservers))).flatten
  ++ ")\n\n".toList
  ++ litNs ++ '\n' ::
    ((cfg.nameservers.map (fun e => entryLine e.hostname e.ipAddress)).flatten
  ++ ")\n".toList)))

/-- Boolean prefix test. -/
def isPreB : Str → Str → Bool
  | [], _ => true
  | _ :: _, [] => false
  | a :: as, b :: bs => a == b && isPreB as bs

/-- Leftmost occurrence of the (non-empty) literal `lit`: returns the text
before the occurrence and the text after it.  This models
`re.search(lit + "(...)", content)` finding where the literal starts. -/
def findLit (lit : Str) : Str → Option (Str × Str)
  | [] => none
  | c :: cs =>
    if isPreB lit (c :: cs) then some ([], (c :: cs).drop lit.length)
    else (findLit lit cs).map (fun p => (c :: p.1, p.2))

/-- Splits at the first `)`: models the lazy capture `(.*?)\)` of the section
regex (with `re.DOTALL`). -/
def takeToParen : Str → Option (Str × Str)
  | [] => none
  | c :: cs =>
    if c = ')' then some ([], cs)
    else (takeToParen cs).map (fun p => (c :: p.1, p.2))

/-- Splits at the first single quote: models the forced extent of the `[^']+`
groups of the entry regex. -/
def takeToQuote : Str → Option (Str × Str)
  | [] => none
  | c :: cs =>
    if c = sq then some ([], cs)
    else (takeToQuote cs).map (fun p => (c :: p.1, p.2))


/-- The tail of an entry-regex match after the key: expects `]='`, then the
value up to the next quote. -/
def tryEntryTail (k r1 : Str) : Option (Str × Str × Str) :=
  match r1 with
  | ']' :: '=' :: c3 :: u =>
    if c3 = sq then
      (takeToQuote u).bind (fun p => if p.1.isEmpty then none else some (k, p.1, p.2))
    else none
  | _ => none

/-- One attempted match of the entry regex at the head of `s`: on success,
returns the key, the value and the rest of the input after the match. -/
def tryEntry (s : Str) : Option (Str × Str × Str) :=
  match s with
  | '[' :: c2 :: t =>
    if c2 = sq then
      (takeToQuote t).bind (fun p => if p.1.isEmpty then none else tryEntryTail p.1 p.2)
    else none
  | _ => none

/-- Fuel-driven worker for `parseEntries` (the fuel is an upper bound on the
input length, so the zero-fuel branch is unreachable from `parseEntries`). -/
def parseEntriesGo : Nat → Str → List (Str × Str)
  | _, [] => []
  | 0, _ :: _ => []
  | fuel + 1, c :: cs =>
    match tryEntry (c :: cs) with
    | some (k, v, rest) => (k, v) :: parseEntriesGo fuel rest
    | none => parseEntriesGo fuel cs

/-- All non-overlapping matches of the entry regex, scanned left to right:
models `re.finditer` over an extracted array body. -/
def parseEntries (s : Str) : List (Str × Str) := parseEntriesGo s.length s

/-- Extracts the body of one declared array: the text between the literal head
and the first following `)`. -/
def extractArray (lit : Str) (content : Str) : Option Str :=
  match findLit lit content with
  | none => none
  | some (_, rest) =>
    match takeToParen rest with
    | none => none
    | some (body, _) => some body

/-- The `(key, value)` pairs parsed out of one array section (empty when the
section is missing), as `parse_delegations_file` does per array. -/
def parseSection (lit : Str) (content : Str) : List (Str × Str) :=
  match extractArray lit content with
  | none => []
  | some body => parseEntries body

/-- `DNSService.parse_delegations_file` on the file's content. -/
def parseDelegationsContent (content : Str) : DNSDelegationsConfig :=
  { forward := (parseSection litFwd content).map (fun p => ⟨p.1, splitWs p.2⟩),
    reverse := (parseSection litRev content).map (fun p => ⟨p.1, splitWs p.2⟩),
    nameservers := (parseSection litNs content).map (fun p => ⟨p.1, p.2⟩) }

/-! ## Hardcoded DNS infrastructure (`CACHING_NS`, `TOPLEVEL_NS`, `ROOT_NS`) -/

/-- The fixed caching resolvers, hostname to list of addresses. -/
def cachingNs : List (Str × List Str) := [
  ("one.one.one.one".toList, ["1.1.1.1".toList, "1.0.0.1".toList]),
  ("dns.google".toList, ["8.8.8.8".toList, "8.8.4.4".toList]),
  ("dns.quad9.net".toList, ["9.9.9.9".toList, "149.112.112.112".toList]),
  ("a.resolvers.level3.net".toList, ["4.2.2.1".toList]),
  ("b.resolvers.level3.net".toList, ["4.2.2.2".toList]),
  ("c.resolvers.level3.net".toList, ["4.2.2.3".toList]),
  ("d.resolvers.level3.net".toList, ["4.2.2.4".toList]),
  ("e.resolvers.level3.net".toList, ["4.2.2.5".toList]),
  ("f.resolvers.level3.net".toList, ["4.2.2.6".toList]),
  ("resolver1.opendns.com".toList, ["208.67.222.222".toList]),
  ("resolver2.opendns.com".toList, ["208.67.220.220".toList])]

/-- The fixed TLD authority servers. -/
def toplevelNs : List (Str × List Str) := [
  ("ns.level3.net".toList, ["4.4.4.8".toList]),
  ("ns.att.net".toList, ["12.12.12.24".toList]),
  ("ns.verisign.com".toList, ["69.58.181.181".toList])]

/-- The fixed root authority servers. -/
def rootNs : List (Str × List Str) := [
  ("a.root-servers.net".toList, ["198.41.0.4".toList]),
  ("b.root-servers.net".toList, ["192.228.79.201".toList]),
  ("c.root-servers.net".toList, ["192.33.4.12".toList]),
  ("d.root-servers.net".toList, ["199.7.91.13".toList]),
  ("e.root-servers.net".toList, ["192.203.230.10".toList]),
  ("f.root-servers.net".toList, ["192.5.5.241".toList]),
  ("g.root-servers.net".toList, ["192.112.36.4".toList]),
  ("h.root-servers.net".toList, ["128.63.2.53".toList]),
  ("i.root-servers.net".toList, ["192.36.148.17".toList]),
  ("j.root-servers.net".toList, ["192.58.128.30".toList]),
  ("k.root-servers.net".toList, ["193.0.14.129".toList]),
  ("l.root-servers.net".toList, ["199.7.83.42".toList]),
  ("m.root-servers.net".toList, ["202.12.27.33".toList])]

/-! ## Generation run model (`DNSService.generate_dns_config`)

Filesystem effects are recorded as a trace of `Op` values.  A run may be given
a failure budget: `budget = some n` makes the n-th effectful operation raise
(modelling an I/O error such as an unwritable output path), after which every
remaining step of the run is skipped, as the exception unwinds to the
`except` block.  `budget = none` is a run in which no operation fails. -/

/-- One effectful filesystem operation of a generation run.  Zone-record
operations carry the data written, so the trace determines the zone files'
contents; header/stanza/glue blocks are single operations. -/
inductive Op where
  | removeFile (path : Str)
  | rmtree (path : Str)
  | makedirs (path : Str)
  | readFile (path : Str)
  | writeDnsHosts
  | writeNamedConfBase
  | writeRootZone
  | fwdZoneHeader (tld : Str)
  | namedConfFwdStanza (tld : Str)
  | rootZoneNsDelegation (tld : Str)
  | revZoneHeader (oct : Str)
  | namedConfRevStanza (oct : Str)
  | aRecord (tld name ip : Str)
  | ptrRecord (oct name fqdn : Str)
  | nsRecordFwd (tld name ns : Str)
  | nsRecordRev (oct name ns : Str)
  | mxRecord (tld name server : Str)
  | closeNamedConf
deriving DecidableEq, Repr

/-- The full mutable state of one generation run: failure budget, failure
flag, the operation trace, and the Python locals `warnings`, `hosts_skipped`,
`hosts_processed`, `hosts_list`, `domain_mx` and `created_zones`. -/
structure GenSt where
  budget : Option Nat
  failed : Bool
  ops : List Op
  warnings : List Str
  skipped : Nat
  processed : Nat
  hosts : List (Str × Str)
  mx : List (Str × List Str)
  zones : List Str
deriving Repr, DecidableEq

/-- Performs one effectful operation: appends it to the trace, unless the
budget says this operation raises or the run has already failed. -/
def runOp (o : Op) (st : GenSt) : GenSt :=
  if st.failed then st
  else
    match st.budget with
    | some 0 => { st with failed := true }
    | some (n + 1) => { st with budget := some n, ops := st.ops ++ [o] }
    | none => { st with ops := st.ops ++ [o] }

/-- A pure state update, skipped once the run has failed. -/
def pureG (f : GenSt → GenSt) (st : GenSt) : GenSt := if st.failed then st else f st

/-- The Python `fqdn[:-len(tld)-1]`: the name with its `.tld` suffix removed. -/
def stripTldSuffix (fqdn tld : Str) : Str :=
  fqdn.take (fqdn.length - (tld.length + 1))

/-- `_create_forward_zone` on a fresh output directory (zone file absent, as
guaranteed by the overwrite contract), plus the caller's addition of the key
to `created_zones`: header, named.conf stanza, root-zone NS delegation. -/
def createForwardZoneG (tld : Str) (st : GenSt) : GenSt :=
  let st := runOp (.fwdZoneHeader tld) st
  let st := runOp (.namedConfFwdStanza tld) st
  let st := runOp (.rootZoneNsDelegation tld) st
  pureG (fun s => { s with zones := s.zones ++ [tld] }) st

/-- `_create_reverse_zone` on a fresh output directory, plus the caller's
addition of the key to `created_zones`. -/
def createReverseZoneG (oct : Str) (st : GenSt) : GenSt :=
  let st := runOp (.revZoneHeader oct) st
  let st := runOp (.namedConfRevStanza oct) st
  pureG (fun s => { s with zones := s.zones ++ [oct] }) st

/-- The PTR half of `add_dns_records`: when the address has exactly four
parts, lazily create the reverse zone keyed by the first octet and append the
PTR record named by the reversed remaining octets. -/
def addPtrRecord (st : GenSt) (fqdn ipaddr : Str) : GenSt :=
  match splitOnChar '.' ipaddr with
  | [p1, p2, p3, p4] =>
    let st := if p1 ∈ st.zones then st else createReverseZoneG p1 st
    runOp (.ptrRecord p1 (p4 ++ '.' :: (p3 ++ '.' :: p2)) fqdn) st
  | _ => st

/-- The inner helper `add_dns_records(fqdn, ipaddr)` of `generate_dns_config`:
lazily creates the forward zone keyed by the TLD and the reverse zone keyed by
the first octet, then appends the A and PTR records. -/
def addDnsRecords (st : GenSt) (fqdn ipaddr : Str) : GenSt :=
  if st.failed then st
  else
    match getTld fqdn with
    | none => st
    | some tld =>
      if tld.isEmpty then st
      else
        let st := if tld ∈ st.zones then st else createForwardZoneG tld st
        let st := runOp (.aRecord tld (stripTldSuffix fqdn tld) ipaddr) st
        addPtrRecord st fqdn ipaddr

/-- Record emission over a list of `(fqdn, ip)` pairs. -/
def emitHostRecords (st : GenSt) (entries : List (Str × Str)) : GenSt :=
  entries.foldl (fun st p => addDnsRecords st p.1 p.2) st

/-- Flattens an infrastructure map into `(hostname, ip)` pairs, in the order
the nested `for ns, ips / for ip in ips` loops visit them. -/
def infraPairs (m : List (Str × List Str)) : List (Str × Str) :=
  (m.map (fun p => p.2.map (fun ip => (p.1, ip)))).flatten

/-- The delegation NS record loop for forward delegations. -/
def addFwdNsRecords (fwdDict : List (Str × List Str)) (st : GenSt) : GenSt :=
  fwdDict.foldl (fun st p =>
    if st.failed then st
    else
      match getTld p.1 with
      | none => st
      | some tld =>
        if tld.isEmpty then st
        else if tld ∈ st.zones then
          p.2.foldl (fun st ns => runOp (.nsRecordFwd tld (stripTldSuffix p.1 tld) ns) st) st
        else st) st

/-- The delegation NS record loop for reverse delegations. -/
def addRevNsRecords (revDict : List (Str × List Str)) (st : GenSt) : GenSt :=
  revDict.foldl (fun st p =>
    if st.failed then st
    else
      match splitOnChar '.' p.1 with
      | p1 :: p2 :: p3 :: _ =>
        if p1 ∈ st.zones then
          p.2.foldl (fun st ns => runOp (.nsRecordRev p1 (p3 ++ '.' :: p2) ns) st) st
        else st
      | _ => st) st

/-- The MX record loop over `domain_mx`. -/
def addMxRecords (mxDict : List (Str × List Str)) (st : GenSt) : GenSt :=
  mxDict.foldl (fun st p =>
    if st.failed then st
    else
      match getTld p.1 with
      | none => st
      | some tld =>
        if tld.isEmpty then st
        else if tld ∈ st.zones then
          p.2.foldl (fun st mx => runOp (.mxRecord tld (stripTldSuffix p.1 tld) mx) st) st
        else st) st

/-- Merging one delegation nameserver into `hosts_list`, with a conflict
warning when it overwrites a different address (unless quiet). -/
def mergeNsEntry (quiet : Bool) (st : GenSt) (p : Str × Str) : GenSt :=
  if st.failed then st
  else
    let st :=
      match alGet st.hosts p.1 with
      | some oldIp =>
        if oldIp ≠ p.2 then
          if quiet then st else { st with warnings := st.warnings ++ [nsConflictMsg p.1 oldIp p.2] }
        else st
      | none => st
    { st with hosts := alSet st.hosts p.1 p.2 }

/-- The `for ns, ip in delegations_ns_dict.items()` merge loop. -/
def mergeNsPhase (nsDict : List (Str × Str)) (quiet : Bool) (st : GenSt) : GenSt :=
  nsDict.foldl (mergeNsEntry quiet) st

/-- One inventory file: its path and its lines (without trailing newlines). -/
structure SourceFile where
  path : Str
  lines : List Str
deriving Repr, DecidableEq

/-- The input files of one generation run; `none` models a missing file (or
an unset optional path). -/
structure GenInput where
  vhostFiles : List SourceFile
  backboneFile : Option SourceFile
  customFile : Option SourceFile
  extraFiles : List SourceFile
  mailFile : Option SourceFile
  delegationsText : Option Str
deriving Repr, DecidableEq

/-- The pre-existing output state (`os.path.exists` on the four outputs). -/
structure FsState where
  dnsHostsExists : Bool
  namedConfExists : Bool
  rootZdExists : Bool
  tldZdExists : Bool
deriving Repr, DecidableEq

/-- The path fields of `DNSConfiguration` that `generate_dns_config` uses. -/
structure DNSConfigModel where
  delegationsPath : Str
  outputDnsHostsPath : Str
  outputNamedConfPath : Str
  outputZoneFolder : Str
deriving Repr, DecidableEq

/-- `DNSGenerationOptions` of `schemas.py`. -/
structure DNSGenerationOptions where
  forceOverwrite : Bool
  quietMode : Bool
deriving Repr, DecidableEq

/-- `DNSGenerationResult` of `schemas.py`. -/
structure DNSGenerationResult where
  success : Bool
  zonesCreated : Nat
  hostsProcessed : Nat
  hostsSkipped : Nat
  warnings : List Str
  errors : List Str
  outputFiles : List Str
  message : Option Str
deriving Repr, DecidableEq

/-- `os.path.dirname` for ordinary absolute paths without trailing slashes. -/
def pyDirname (p : Str) : Str := joinChar '/' ((splitOnChar '/' p).dropLast)

/-- The refusal message when the output already exists. -/
def configExistsMsg (path : Str) : Str :=
  "Configuration already exists at ".toList ++ path
    ++ ". Use force_overwrite=True to replace.".toList

/-- Abstract stand-in for `str(e)` of a caught exception: its text depends on
the runtime error and is not modelled further. -/
def exceptionText : Str := "I/O error".toList

/-- The success message, with the zone and host counts rendered in decimal. -/
def successMsg (zones hosts : Nat) : Str :=
  "Successfully generated DNS configuration with ".toList ++ Nat.toDigits 10 zones
    ++ " zones and ".toList ++ Nat.toDigits 10 hosts ++ " hosts".toList

/-- Reading and collecting one inventory file (the read is the effectful,
failure-prone part; the line loop is pure state). -/
def collectFileG (fwdMap revMap : List (Str × List Str)) (isMx quiet : Bool)
    (f : SourceFile) (st : GenSt) : GenSt :=
  let st := runOp (.readFile f.path) st
  if st.failed then st
  else
    let c := addHostsFile fwdMap revMap isMx quiet ⟨st.hosts, st.mx, st.warnings, st.skipped⟩ f.lines
    { st with hosts := c.hosts, mx := c.mx, warnings := c.warnings, skipped := c.skipped }

/-- The total number of fixed infrastructure hosts
(`len(CACHING_NS) + len(TOPLEVEL_NS) + len(ROOT_NS)`). -/
def dnsInfraCount : Nat := cachingNs.length + toplevelNs.length + rootNs.length

/-- Setting `hosts_processed = len(hosts_list) + dns_infra_count`. -/
def countHostsPhase (st : GenSt) : GenSt :=
  pureG (fun s => { s with processed := s.hosts.length + dnsInfraCount }) st

/-- The delegations config loaded at the start of the run (empty when the
delegations file does not exist). -/
def loadedDelegations (inp : GenInput) : DNSDelegationsConfig :=
  match inp.delegationsText with
  | some text => parseDelegationsContent text
  | none => ⟨[], [], []⟩

/-- The `delegations_fwd_dict` of the run. -/
def fwdDictOf (inp : GenInput) : List (Str × List Str) :=
  alOfList ((loadedDelegations inp).forward.map (fun d => (d.domainOrNetwork, d.nameservers)))

/-- The `delegations_rev_dict` of the run. -/
def revDictOf (inp : GenInput) : List (Str × List Str) :=
  alOfList ((loadedDelegations inp).reverse.map (fun d => (d.domainOrNetwork, d.nameservers)))

/-- The `delegations_ns_dict` of the run. -/
def nsDictOf (inp : GenInput) : List (Str × Str) :=
  alOfList ((loadedDelegations inp).nameservers.map (fun d => (d.hostname, d.ipAddress)))

/-- The vhost hosts files that `get_vhost_hosts_files` reports: those with at
least one validated entry. -/
def contributingVhosts (inp : GenInput) : List SourceFile :=
  inp.vhostFiles.filter (fun f => !(parseHostsFile f.lines).isEmpty)

/-- The collection phase of a run: every inventory source in the fixed order
(vhosts, backbone, custom, extras, mail), then the nameserver merge. -/
def collectionPhase (inp : GenInput) (quiet : Bool) (st : GenSt) : GenSt :=
  let fwdDict := fwdDictOf inp
  let revDict := revDictOf inp
  let st := (contributingVhosts inp).foldl
    (fun st f => collectFileG fwdDict revDict false quiet f st) st
  let st :=
    match inp.backboneFile with
    | some f => collectFileG fwdDict revDict false quiet f st
    | none => st
  let st :=
    match inp.customFile with
    | some f => collectFileG fwdDict revDict false quiet f st
    | none => st
  let st := inp.extraFiles.foldl
    (fun st f => collectFileG fwdDict revDict false quiet f st) st
  let st :=
    match inp.mailFile with
    | some f => collectFileG fwdDict revDict true quiet f st
    | none => st
  mergeNsPhase (nsDictOf inp) quiet st

/-- The steps before the collection phase: the optional force-overwrite
removals, the output directory creation, and the delegations file read.  None
of these depends on quiet mode. -/
def prepPhase (cfg : DNSConfigModel) (fs : FsState) (inp : GenInput)
    (force : Bool) (budget : Option Nat) : GenSt :=
  let rootZd := cfg.outputZoneFolder ++ "/rootsrv".toList
  let tldZd := cfg.outputZoneFolder ++ "/tldsrv".toList
  let st : GenSt := ⟨budget, false, [], [], 0, 0, [], [], []⟩
  let st :=
    if force then
      let st := if fs.dnsHostsExists then runOp (.removeFile cfg.outputDnsHostsPath) st else st
      let st := if fs.namedConfExists then runOp (.removeFile cfg.outputNamedConfPath) st else st
      let st := if fs.rootZdExists then runOp (.rmtree rootZd) st else st
      if fs.tldZdExists then runOp (.rmtree tldZd) st else st
    else st
  let st := runOp (.makedirs (pyDirname cfg.outputDnsHostsPath)) st
  let st := runOp (.makedirs (pyDirname cfg.outputNamedConfPath)) st
  let st := runOp (.makedirs rootZd) st
  let st := runOp (.makedirs tldZd) st
  match inp.delegationsText with
  | some _ => runOp (.readFile cfg.delegationsPath) st
  | none => st

/-- The record-emission and record-append steps after the host count: the
three output file writes, A/PTR emission for the host table and the
infrastructure tiers, the delegation NS loops, the MX loop, and the closing
named.conf write. -/
def emitPhase (inp : GenInput) (st : GenSt) : GenSt :=
  let st := runOp .writeDnsHosts st
  let st := runOp .writeNamedConfBase st
  let st := runOp .writeRootZone st
  let st := emitHostRecords st st.hosts
  let st := emitHostRecords st (infraPairs cachingNs)
  let st := emitHostRecords st (infraPairs toplevelNs)
  let st := emitHostRecords st (infraPairs rootNs)
  let st := addFwdNsRecords (fwdDictOf inp) st
  let st := addRevNsRecords (revDictOf inp) st
  let st := addMxRecords st.mx st
  runOp .closeNamedConf st

/-- Everything `generate_dns_config` does between the refusal check and the
result assembly, returning the final run state. -/
def generatePipeline (cfg : DNSConfigModel) (fs : FsState) (inp : GenInput)
    (opts : DNSGenerationOptions) (budget : Option Nat) : GenSt :=
  let st := prepPhase cfg fs inp opts.forceOverwrite budget
  let st := collectionPhase inp opts.quietMode st
  let st := countHostsPhase st
  emitPhase inp st

/-- The refusal result returned when the output exists and overwrite is off. -/
def refuseResult (cfg : DNSConfigModel) : DNSGenerationResult :=
  { success := false, zonesCreated := 0, hostsProcessed := 0, hostsSkipped := 0,
    warnings := [], errors := [configExistsMsg cfg.outputNamedConfPath],
    outputFiles := [], message := none }

/-- The result built by the `except` block: zero zones, counters and message
lists as they stood when the exception was raised. -/
def failureResult (st : GenSt) : DNSGenerationResult :=
  { success := false, zonesCreated := 0, hostsProcessed := st.processed,
    hostsSkipped := st.skipped, warnings := st.warnings,
    errors := [exceptionText], outputFiles := [],
    message := some ("DNS generation failed: ".toList ++ exceptionText) }

/-- The result of a run that completed without an exception. -/
def completedResult (cfg : DNSConfigModel) (st : GenSt) : DNSGenerationResult :=
  { success := true, zonesCreated := st.zones.length, hostsProcessed := st.processed,
    hostsSkipped := st.skipped, warnings := st.warnings, errors := [],
    outputFiles := [cfg.outputDnsHostsPath, cfg.outputNamedConfPath,
                    cfg.outputZoneFolder ++ "/rootsrv/root.zone".toList],
    message := some (successMsg st.zones.length st.processed) }

/-- `DNSService.generate_dns_config`: returns the result and the trace of
filesystem operations the run performed. -/
def generateDnsConfig (cfg : DNSConfigModel) (fs : FsState) (inp : GenInput)
    (opts : DNSGenerationOptions) (budget : Option Nat) :
    DNSGenerationResult × List Op :=
  if !opts.forceOverwrite && fs.namedConfExists then
    (refuseResult cfg, [])
  else
    let st := generatePipeline cfg fs inp opts budget
    if st.failed then (failureResult st, st.ops)
    else (completedResult cfg st, st.ops)

/-! ## Staleness detector (`DNSService._check_needs_regeneration`) -/

/-- Modification-time inputs of `_check_needs_regeneration`: `none` models a
missing file (or an unset optional path). -/
structure RegenInput where
  namedConfMtime : Option Int
  vhostMtimes : List (Option Int)
  backboneMtime : Option Int
  customMtime : Option Int
  mailMtime : Option Int
  delegationsMtime : Option Int
  extraMtimes : List (Option Int)
deriving Repr, DecidableEq

/-- Whether an input file exists and is strictly newer than time `t0`. -/
def newerThan (t0 : Int) (m : Option Int) : Bool :=
  match m with
  | none => false
  | some t => t0 < t

/-- `DNSService._check_needs_regeneration`. -/
def checkNeedsRegeneration (inp : RegenInput) : Bool :=
  match inp.namedConfMtime with
  | none => false
  | some t0 =>
    inp.vhostMtimes.any (newerThan t0) || newerThan t0 inp.backboneMtime
      || newerThan t0 inp.customMtime || newerThan t0 inp.mailMtime
      || newerThan t0 inp.delegationsMtime || inp.extraMtimes.any (newerThan t0)

/-! ## Derived definitions used in statements -/

/-- All contributing input files of `_check_needs_regeneration`, in the order
the code checks them. -/
def regenInputMtimes (inp : RegenInput) : List (Option Int) :=
  inp.vhostMtimes
    ++ [inp.backboneMtime, inp.customMtime, inp.mailMtime, inp.delegationsMtime]
    ++ inp.extraMtimes

/-- How many zone-creation headers (forward or reverse) a trace holds for the
zone key `k`. -/
def hdrCount (k : Str) (ops : List Op) : Nat :=
  ops.count (.fwdZoneHeader k) + ops.count (.revZoneHeader k)

/-- The zone keys referenced by a list of `(fqdn, ip)` pairs, in reference
order with duplicates: the TLD of each name that has one, then the first
octet of its address when the address has four parts (an address is only
looked at when the name's TLD exists, as in `add_dns_records`). -/
def refKeys : List (Str × Str) → List Str
  | [] => []
  | p :: rest =>
    match getTld p.1 with
    | none => refKeys rest
    | some tld =>
      if tld.isEmpty then refKeys rest
      else
        tld ::
          (match splitOnChar '.' p.2 with
           | [p1, _, _, _] => p1 :: refKeys rest
           | _ => refKeys rest)

/-- How one `(fqdn, ip)` pair extends the `created_zones` accumulator. -/
def emitKeyStep (zs : List Str) (p : Str × Str) : List Str :=
  match getTld p.1 with
  | none => zs
  | some tld =>
    if tld.isEmpty then zs
    else
      let zs1 := if tld ∈ zs then zs else zs ++ [tld]
      match splitOnChar '.' p.2 with
      | [p1, _, _, _] => if p1 ∈ zs1 then zs1 else zs1 ++ [p1]
      | _ => zs1

/-- The `created_zones` accumulator computed purely: the distinct referenced
keys in first-reference order, starting from `zones`. -/
def emitKeysAcc (zones : List Str) : List (Str × Str) → List Str
  | [] => zones
  | p :: rest => emitKeysAcc (emitKeyStep zones p) rest

/-- Extracts from a trace operation the nameserver of a forward NS record
written at owner name `n` in zone `td`, if it is one. -/
def nsFwdTarget (td n : Str) (o : Op) : Option Str :=
  match o with
  | .nsRecordFwd t n0 ns => if t = td ∧ n0 = n then some ns else none
  | _ => none

/-- Extracts from a trace operation the nameserver of a reverse NS record
written at owner name `n` in the reverse zone keyed by octet `oc`, if it is
one. -/
def nsRevTarget (oc n : Str) (o : Op) : Option Str :=
  match o with
  | .nsRecordRev t n0 ns => if t = oc ∧ n0 = n then some ns else none
  | _ => none

/-- The hostnames of the fixed DNS infrastructure. -/
def infraHostnames : List Str :=
  (cachingNs ++ toplevelNs ++ rootNs).map Prod.fst

/-- The addresses of the fixed DNS infrastructure. -/
def infraAddresses : List Str :=
  ((cachingNs ++ toplevelNs ++ rootNs).map Prod.snd).flatten

/-- A generation state with its warnings list cleared (all other fields are
the quiet-mode-independent core of the state). -/
def stripW (st : GenSt) : GenSt := { st with warnings := [] }

/-- A collection state with its warnings list cleared. -/
def stripWc (c : CollectSt) : CollectSt := { c with warnings := [] }

/-- Whether `lit` occurs as a contiguous substring. -/
def occursB (lit : Str) : Str → Bool
  | [] => isPreB lit []
  | c :: cs => isPreB lit (c :: cs) || occursB lit cs

/-- A run state that has not failed and cannot fail (no failure budget):
every effectful operation simply appends to the trace. -/
def Clean (st : GenSt) : Prop := st.budget = none ∧ st.failed = false

/-- The operations that participate in zone creation: zone headers, named.conf
stanzas, and root-zone NS delegations. -/
def Op.isZoneMarker : Op → Bool
  | .fwdZoneHeader _ => true
  | .revZoneHeader _ => true
  | .rootZoneNsDelegation _ => true
  | .namedConfFwdStanza _ => true
  | .namedConfRevStanza _ => true
  | _ => false

/-- The zone-creation invariant of a run state: the trace holds exactly one
creation header per key in `created_zones` and none for other keys, and each
forward header comes with exactly one named.conf stanza and one root-zone NS
delegation, each reverse header with exactly one stanza. -/
def ZoneInv (st : GenSt) : Prop :=
  (∀ k, hdrCount k st.ops = if k ∈ st.zones then 1 else 0) ∧
  (∀ t, st.ops.count (.rootZoneNsDelegation t) = st.ops.count (.fwdZoneHeader t)) ∧
  (∀ t, st.ops.count (.namedConfFwdStanza t) = st.ops.count (.fwdZoneHeader t)) ∧
  (∀ t, st.ops.count (.namedConfRevStanza t) = st.ops.count (.revZoneHeader t))

/-- A delegations-file key or value that survives the declarative-array
syntax: non-empty and free of quotes and parentheses. -/
def goodKey (s : Str) : Prop := s ≠ [] ∧ sq ∉ s ∧ '(' ∉ s ∧ ')' ∉ s

/-- A nameserver word: a good key with no whitespace, so that joining with
spaces and re-splitting is the identity. -/
def goodWord (s : Str) : Prop := goodKey s ∧ ∀ c ∈ s, isPyWs c = false

/-- Delegations configurations on which the declarative-array syntax is
faithful: all keys good, all nameserver lists non-empty lists of words. -/
def wfDelegations (cfg : DNSDelegationsConfig) : Prop :=
  (∀ e ∈ cfg.forward,
    goodKey e.domainOrNetwork ∧ e.nameservers ≠ [] ∧ ∀ ns ∈ e.nameservers, goodWord ns) ∧
  (∀ e ∈ cfg.reverse,
    goodKey e.domainOrNetwork ∧ e.nameservers ≠ [] ∧ ∀ ns ∈ e.nameservers, goodWord ns) ∧
  (∀ e ∈ cfg.nameservers, goodKey e.hostname ∧ goodKey e.ipAddress)

/-- The delegation-lookup domain of a name: `{sld}.{tld}` as the collector
builds it. -/
def domainOf (f : Str) : Str :=
  (getSld f).getD [] ++ '.' :: (getTld f).getD []

/-- The delegation-skip decision of the collector for a parsed `(ip, fqdn)`
line: `some msg` when the line is skipped (with the warning text), `none` when
it is accepted. -/
def skipDecision (fwdMap revMap : List (Str × List Str)) (ip f : Str) : Option Str :=
  let domain := domainOf f
  if (alGet fwdMap domain).isSome then some (skipFwdMsg f domain)
  else
    let ipNetwork := joinChar '.' ((splitOnChar '.' ip).take 3)
    if (alGet revMap ipNetwork).isSome then some (skipRevMsg f ip ipNetwork)
    else none

/-- Whether a name's two-label domain matches a forward-delegation key (the
name must actually have a truthy TLD and SLD for the collector to look). -/
def fwdDelegated (fwdMap : List (Str × List Str)) (f : Str) : Bool :=
  pyTruthy (getTld f) && pyTruthy (getSld f) && (alGet fwdMap (domainOf f)).isSome

/-- One step of the forward-delegation NS loop (the loop body of
`addFwdNsRecords`, named so it can be reasoned about). -/
def stepFwdNs (st : GenSt) (p : Str × List Str) : GenSt :=
  if st.failed then st
  else
    match getTld p.1 with
    | none => st
    | some tld =>
      if tld.isEmpty then st
      else if tld ∈ st.zones then
        p.2.foldl (fun st ns => runOp (.nsRecordFwd tld (stripTldSuffix p.1 tld) ns) st) st
      else st

/-- Whether `lit` provably fails to be a prefix of `C ++ anything`: some
position within `C` already disagrees with `lit`. -/
def mismatchB : Str → Str → Bool
  | [], _ => false
  | _ :: _, [] => false
  | a :: as, b :: bs => a ≠ b || mismatchB as bs

/-- Whether every start position inside `A` refutes an occurrence of `lit`
within `A` itself (so no occurrence of `lit` can start inside `A`, whatever
follows `A`). -/
def noSpan (lit : Str) : Str → Bool
  | [] => true
  | c :: tl => mismatchB lit (c :: tl) && noSpan lit tl

/-- Whether no character of `lit` after the first equals the first (so a
partial match of `lit` can never resume at a text position holding `lit`'s
first character). -/
def noBorderB : Str → Bool
  | [] => true
  | c :: cs => cs.all (fun x => x ≠ c)

/-- One step of the reverse-delegation NS loop (the loop body of
`addRevNsRecords`, named so it can be reasoned about). -/
def stepRevNs (st : GenSt) (p : Str × List Str) : GenSt :=
  if st.failed then st
  else
    match splitOnChar '.' p.1 with
    | p1 :: p2 :: p3 :: _ =>
      if p1 ∈ st.zones then
        p.2.foldl (fun st ns => runOp (.nsRecordRev p1 (p3 ++ '.' :: p2) ns) st) st
      else st
    | _ => st

/-! ## Lemmas about the parser components -/

theorem takeToQuote_eq {s p r : Str} (h : takeToQuote s = some (p, r)) :
    s = p ++ sq :: r := by
  induction s generalizing p r with
  | nil => simp [takeToQuote] at h
  | cons c cs ih =>
    simp only [takeToQuote] at h
    split at h
    · rename_i hc
      simp only [Option.some.injEq, Prod.mk.injEq] at h
      obtain ⟨h1, h2⟩ := h
      subst h1
      subst h2
      simp [hc]
    · cases hq : takeToQuote cs with
      | none => simp [hq] at h
      | some pr =>
        obtain ⟨p1, r1⟩ := pr
        simp only [hq, Option.map_some', Option.some.injEq, Prod.mk.injEq] at h
        obtain ⟨h1, h2⟩ := h
        subst h1
        subst h2
        simp [ih hq]

theorem tryEntryTail_eq {k0 r1 k v r : Str} (h : tryEntryTail k0 r1 = some (k, v, r)) :
    k = k0 ∧ v ≠ [] ∧ r1 = ']' :: '=' :: sq :: (v ++ sq :: r) := by
  unfold tryEntryTail at h
  split at h
  · rename_i c3 u
    split at h
    · rename_i hc3
      subst hc3
      cases hq : takeToQuote u with
      | none => simp [hq] at h
      | some pr =>
        obtain ⟨v2, r2⟩ := pr
        simp only [hq, Option.some_bind] at h
        split at h
        · exact absurd h (by simp)
        · rename_i hvne
          simp only [Option.some.injEq, Prod.mk.injEq] at h
          obtain ⟨h1, h2, h3⟩ := h
          subst h1
          subst h2
          subst h3
          refine ⟨rfl, by simpa using hvne, ?_⟩
          simp [takeToQuote_eq hq]
    · exact absurd h (by simp)
  · exact absurd h (by simp)

theorem tryEntry_eq {s k v r : Str} (h : tryEntry s = some (k, v, r)) :
    k ≠ [] ∧ v ≠ [] ∧
      s = '[' :: sq :: (k ++ sq :: ']' :: '=' :: sq :: (v ++ sq :: r)) := by
  unfold tryEntry at h
  split at h
  · rename_i c2 t
    split at h
    · rename_i hc2
      subst hc2
      cases hq : takeToQuote t with
      | none => simp [hq] at h
      | some pr =>
        obtain ⟨k1, r1⟩ := pr
        simp only [hq, Option.some_bind] at h
        split at h
        · exact absurd h (by simp)
        · rename_i hkne
          obtain ⟨h1, h2, h3⟩ := tryEntryTail_eq h
          subst h1
          refine ⟨by simpa using hkne, h2, ?_⟩
          rw [takeToQuote_eq hq, h3]
    · exact absurd h (by simp)
  · exact absurd h (by simp)

theorem tryEntry_length {s : Str} {k v r : Str} (h : tryEntry s = some (k, v, r)) :
    r.length < s.length := by
  obtain ⟨-, -, h3⟩ := tryEntry_eq h
  subst h3
  simp
  omega

theorem parseEntriesGo_fuel {fuel₁ fuel₂ : Nat} {s : Str}
    (h₁ : s.length ≤ fuel₁) (h₂ : s.length ≤ fuel₂) :
    parseEntriesGo fuel₁ s = parseEntriesGo fuel₂ s := by
  induction fuel₁ generalizing fuel₂ s with
  | zero =>
    cases s with
    | nil => cases fuel₂ <;> rfl
    | cons c cs => simp at h₁
  | succ f ih =>
    cases s with
    | nil => cases fuel₂ <;> rfl
    | cons c cs =>
      cases fuel₂ with
      | zero => simp at h₂
      | succ f2 =>
        simp only [parseEntriesGo]
        cases he : tryEntry (c :: cs) with
        | none =>
          exact ih (by simpa using Nat.le_of_succ_le_succ h₁)
            (by simpa using Nat.le_of_succ_le_succ h₂)
        | some kvr =>
          obtain ⟨k, v, rest⟩ := kvr
          have hl := tryEntry_length he
          simp only [List.cons.injEq, true_and]
          exact ih (by omega) (by omega)

theorem parseEntries_cons_none {c : Char} {cs : Str} (h : tryEntry (c :: cs) = none) :
    parseEntries (c :: cs) = parseEntries cs := by
  simp only [parseEntries, List.length_cons, parseEntriesGo, h]

theorem parseEntries_cons_some {c : Char} {cs : Str} {k v rest : Str}
    (h : tryEntry (c :: cs) = some (k, v, rest)) :
    parseEntries (c :: cs) = (k, v) :: parseEntries rest := by
  have hl := tryEntry_length h
  simp only [parseEntries, List.length_cons, parseEntriesGo, h]
  simp only [List.cons.injEq, true_and]
  exact parseEntriesGo_fuel (by simp at hl ⊢; omega) le_rfl

/-! ## Sanity checks on concrete inputs -/

example : validateIp "10.0.0.1".toList = true := by decide
example : validateIp "999".toList = false := by decide
example : validateIp "1.2.3.256".toList = false := by decide
example : validateFqdn "shop.biz".toList = true := by decide
example : validateFqdn "shop".toList = false := by decide
example : getTld "a.b.c".toList = some "c".toList := by decide
example : getTld "abc".toList = none := by decide
example : getSld "a.b.c".toList = some "b".toList := by decide
example : splitWs "  10.0.0.5   shop.biz  ".toList = ["10.0.0.5".toList, "shop.biz".toList] := by decide
example : pyStrip "  x ".toList = "x".toList := by decide

example :
    (addHostsFile [] [] false false CollectSt.init
      ["10.0.0.5 shop.biz".toList, "# comment".toList, "10.0.0.9 mail.biz".toList]).hosts
    = [("shop.biz".toList, "10.0.0.5".toList), ("mail.biz".toList, "10.0.0.9".toList)] := by
  decide

example :
    (addHostsFile [("ex.com".toList, ["ns1.out".toList])] [] false false CollectSt.init
      ["1.2.3.4 www.ex.com".toList]).skipped = 1 := by decide

set_option maxRecDepth 8000 in
example :
    parseDelegationsContent (updateDelegationsContent
      ⟨[⟨"ex.com".toList, ["ns1.out".toList, "ns2.out".toList]⟩],
       [⟨"10.20.30".toList, ["ns1.out".toList]⟩],
       [⟨"ns1.out".toList, "5.6.7.8".toList⟩]⟩)
    = ⟨[⟨"ex.com".toList, ["ns1.out".toList, "ns2.out".toList]⟩],
       [⟨"10.20.30".toList, ["ns1.out".toList]⟩],
       [⟨"ns1.out".toList, "5.6.7.8".toList⟩]⟩ := by decide

/-! ## Basic lemmas about the dictionary and string models -/

theorem alGet_alSet_self {α : Type} (m : List (Str × α)) (k : Str) (v : α) :
    alGet (alSet m k v) k = some v := by
  induction m with
  | nil => simp [alSet, alGet]
  | cons p rest ih =>
    obtain ⟨k0, v0⟩ := p
    by_cases h : k0 = k
    · simp [alSet, alGet, h]
    · simp [alSet, alGet, h, ih]

theorem alGet_alSet_ne {α : Type} (m : List (Str × α)) {k j : Str} (v : α) (hne : k ≠ j) :
    alGet (alSet m k v) j = alGet m j := by
  induction m with
  | nil => simp [alSet, alGet, hne]
  | cons p rest ih =>
    obtain ⟨k0, v0⟩ := p
    by_cases h : k0 = k
    · subst h
      simp [alSet, alGet, hne]
    · simp [alSet, alGet, h, ih]

theorem splitOnCharGo_no_sep {sep : Char} {s : Str} (h : sep ∉ s) (acc : Str) :
    splitOnCharGo sep acc s = [acc.reverse ++ s] := by
  induction s generalizing acc with
  | nil => simp [splitOnCharGo]
  | cons c cs ih =>
    have hc : ¬(c = sep) := by
      rintro rfl
      exact h (List.mem_cons_self _ _)
    have h' : sep ∉ cs := fun hm => h (List.mem_cons_of_mem _ hm)
    simp [splitOnCharGo, hc, ih h']

theorem getTld_of_no_dot {fqdn : Str} (h : '.' ∉ fqdn) : getTld fqdn = none := by
  have hs : splitOnChar '.' fqdn = [fqdn] := by
    simpa using splitOnCharGo_no_sep h []
  simp [getTld, hs]

theorem newerThan_true {t0 : Int} {m : Option Int} :
    newerThan t0 m = true ↔ ∃ t, m = some t ∧ t0 < t := by
  cases m <;> simp [newerThan]

/-! ## Claim C7: staleness detection -/

/-- C7: `needs_regeneration` reports false whenever the generated named.conf
does not exist; otherwise it reports true exactly when at least one
contributing input file (vhost, backbone, custom, mail, delegations, extra)
has a strictly newer modification time. -/
theorem claim_C7 (inp : RegenInput) :
    (inp.namedConfMtime = none → checkNeedsRegeneration inp = false) ∧
    (∀ t0, inp.namedConfMtime = some t0 →
      (checkNeedsRegeneration inp = true ↔
        ∃ m ∈ regenInputMtimes inp, ∃ t, m = some t ∧ t0 < t)) := by
  constructor
  · intro h
    simp [checkNeedsRegeneration, h]
  · intro t0 h
    have he : checkNeedsRegeneration inp = (regenInputMtimes inp).any (newerThan t0) := by
      simp [checkNeedsRegeneration, h, regenInputMtimes, List.any_append, List.any_cons,
        List.any_nil, Bool.or_assoc]
    rw [he]
    simp [List.any_eq_true, newerThan_true]

/-- C7 witness: a vhost inventory newer than the generated output makes the
check report true. -/
theorem claim_C7_witness :
    checkNeedsRegeneration ⟨some 10, [some 20], none, none, none, none, []⟩ = true :=
  ((claim_C7 ⟨some 10, [some 20], none, none, none, none, []⟩).2 10 rfl).mpr
    ⟨some 20, by simp [regenInputMtimes], 20, rfl, by norm_num⟩

/-! ## Claim C5: refusal on pre-existing output -/

/-- C5: when the output named.conf already exists and force_overwrite is off,
the run refuses immediately: success false, zero zones and counts, exactly
one error naming the existing path, no warnings, and an empty operation trace
(no file or directory is created, deleted or modified). -/
theorem claim_C5 (cfg : DNSConfigModel) (fs : FsState) (inp : GenInput)
    (opts : DNSGenerationOptions) (budget : Option Nat)
    (hex : fs.namedConfExists = true) (hforce : opts.forceOverwrite = false) :
    generateDnsConfig cfg fs inp opts budget = (refuseResult cfg, []) ∧
    (generateDnsConfig cfg fs inp opts budget).1.success = false ∧
    (generateDnsConfig cfg fs inp opts budget).1.zonesCreated = 0 ∧
    (generateDnsConfig cfg fs inp opts budget).1.hostsProcessed = 0 ∧
    (generateDnsConfig cfg fs inp opts budget).1.hostsSkipped = 0 ∧
    (generateDnsConfig cfg fs inp opts budget).1.errors
      = [configExistsMsg cfg.outputNamedConfPath] ∧
    (generateDnsConfig cfg fs inp opts budget).1.warnings = [] ∧
    (generateDnsConfig cfg fs inp opts budget).2 = [] := by
  have hg : generateDnsConfig cfg fs inp opts budget = (refuseResult cfg, []) := by
    simp [generateDnsConfig, hex, hforce]
  refine ⟨hg, ?_, ?_, ?_, ?_, ?_, ?_, ?_⟩ <;> rw [hg] <;> rfl

/-- C5 witness at a concrete configuration with pre-existing output. -/
theorem claim_C5_witness :
    generateDnsConfig ⟨"d".toList, "h".toList, "n".toList, "z".toList⟩
        ⟨false, true, false, false⟩ ⟨[], none, none, [], none, none⟩ ⟨false, false⟩ none
      = (refuseResult ⟨"d".toList, "h".toList, "n".toList, "z".toList⟩, []) :=
  (claim_C5 ⟨"d".toList, "h".toList, "n".toList, "z".toList⟩
    ⟨false, true, false, false⟩ ⟨[], none, none, [], none, none⟩ ⟨false, false⟩ none
    rfl rfl).1

/-! ## Claim C10: dot-less host names -/

/-- C10: a host-table entry whose name contains no dot is counted by the
host-count phase (which counts every table entry plus the fixed
infrastructure), but `add_dns_records` does nothing for it — no A record, no
PTR record, no zone creation, no state change at all — because TLD extraction
returns nothing for single-label names. -/
theorem claim_C10 (st : GenSt) (fqdn ip : Str) (hnd : '.' ∉ fqdn) :
    addDnsRecords st fqdn ip = st ∧
    (st.failed = false →
      (countHostsPhase st).processed = st.hosts.length + dnsInfraCount) := by
  constructor
  · simp [addDnsRecords, getTld_of_no_dot hnd]
  · intro hf
    simp [countHostsPhase, pureG, hf]

/-- C10 witness: a single-label name in the host table is processed but emits
nothing. -/
theorem claim_C10_witness :
    ('.' ∉ "srv".toList) ∧
    (addDnsRecords ⟨none, false, [], [], 0, 0, [("srv".toList, "1.2.3.4".toList)], [], []⟩
        "srv".toList "1.2.3.4".toList
      = ⟨none, false, [], [], 0, 0, [("srv".toList, "1.2.3.4".toList)], [], []⟩ ∧
     ((⟨none, false, [], [], 0, 0, [("srv".toList, "1.2.3.4".toList)], [], []⟩ : GenSt).failed
         = false →
      (countHostsPhase
          ⟨none, false, [], [], 0, 0, [("srv".toList, "1.2.3.4".toList)], [], []⟩).processed
        = (⟨none, false, [], [], 0, 0, [("srv".toList, "1.2.3.4".toList)], [], []⟩
            : GenSt).hosts.length + dnsInfraCount)) :=
  ⟨by decide,
   claim_C10 ⟨none, false, [], [], 0, 0, [("srv".toList, "1.2.3.4".toList)], [], []⟩
     "srv".toList "1.2.3.4".toList (by decide)⟩

/-! ## Claim C4: malformed input lines -/

/-- C4 counterexample: the collector does not apply IP syntax validation.
The line `999 a.b` has an IP that `_validate_ip` rejects, yet collection
accepts it into the host table with no warning and no skip count (the claim
says such a line is dropped). -/
theorem claim_C4_counterexample :
    validateIp "999".toList = false ∧
    addHostsFile [] [] false false CollectSt.init ["999 a.b".toList]
      = ⟨[("a.b".toList, "999".toList)], [], [], 0⟩ := by
  decide

/-- C4 (amended): a non-empty, non-comment inventory line is silently dropped
(no table entry, no skip count, no warning, no error — the state is exactly
unchanged) when it fails to tokenize into at least two tokens, or when its
fqdn does not end in two non-empty dot-separated labels.  IP and FQDN syntax
validation is not applied during collection. -/
theorem claim_C4_amended (fwdMap revMap : List (Str × List Str)) (isMx quiet : Bool)
    (st : CollectSt) (rawLine : Str)
    (hne : pyStrip rawLine ≠ [])
    (hnc : (pyStrip rawLine).head? ≠ some '#')
    (hdrop : ∀ ip f rest, splitWs (pyStrip rawLine) = ip :: f :: rest →
      pyTruthy (getTld f) = false ∨ pyTruthy (getSld f) = false) :
    processHostLine fwdMap revMap isMx quiet st rawLine = st := by
  have h1 : (pyStrip rawLine).isEmpty = false := by
    cases hps : pyStrip rawLine with
    | nil => exact absurd hps hne
    | cons a as => simp
  cases hsp : splitWs (pyStrip rawLine) with
  | nil => simp [processHostLine, h1, hnc, hsp]
  | cons ip rest =>
    cases rest with
    | nil => simp [processHostLine, h1, hnc, hsp]
    | cons f rest2 =>
      rcases hdrop ip f rest2 hsp with h | h <;>
        simp [processHostLine, h1, hnc, hsp, h]

/-- C4 witness: a line whose fqdn has a single label is silently dropped. -/
theorem claim_C4_witness :
    processHostLine [] [] false false CollectSt.init "1.2.3.4 foo".toList
      = CollectSt.init :=
  claim_C4_amended [] [] false false CollectSt.init "1.2.3.4 foo".toList
    (by decide) (by decide)
    (by
      intro ip f rest h
      have hs : splitWs (pyStrip "1.2.3.4 foo".toList)
          = ["1.2.3.4".toList, "foo".toList] := by decide
      rw [hs] at h
      injection h with h1 h2
      injection h2 with h3 h4
      subst h3
      left
      decide)

/-! ## Claim C3: conflicting redefinition -/

/-- C3 counterexample: two inventory lines define `a.b` with different
addresses, quiet mode is off, and yet the collector records no warning at all
(the claim says a conflict warning is recorded); the later line's address
silently overwrites the earlier one. -/
theorem claim_C3_counterexample :
    addHostsFile [] [] false false CollectSt.init
        ["1.1.1.1 a.b".toList, "2.2.2.2 a.b".toList]
      = ⟨[("a.b".toList, "2.2.2.2".toList)], [], [], 0⟩ := by
  decide

/-- C3 (amended): when an accepted inventory host's fqdn already exists in the
table with a different ip, the new value overwrites the old one (last write
wins) — but no conflict warning is recorded and nothing else changes,
regardless of quiet mode.  A conflict warning (suppressed by quiet mode) is
recorded only by the delegation-nameserver merge when it overwrites a
differing address. -/
theorem claim_C3_amended (fwdMap revMap : List (Str × List Str)) (isMx quiet : Bool)
    (st : CollectSt) (rawLine ipaddr fqdn oldIp : Str) (rest : List Str)
    (hne : pyStrip rawLine ≠ [])
    (hnc : (pyStrip rawLine).head? ≠ some '#')
    (hsp : splitWs (pyStrip rawLine) = ipaddr :: fqdn :: rest)
    (htld : pyTruthy (getTld fqdn) = true)
    (hsld : pyTruthy (getSld fqdn) = true)
    (hfw : alGet fwdMap ((getSld fqdn).getD [] ++ '.' :: (getTld fqdn).getD []) = none)
    (hrv : alGet revMap (joinChar '.' ((splitOnChar '.' ipaddr).take 3)) = none)
    (hold : alGet st.hosts fqdn = some oldIp) (hdiff : oldIp ≠ ipaddr) :
    (processHostLine fwdMap revMap isMx quiet st rawLine).warnings = st.warnings ∧
    (processHostLine fwdMap revMap isMx quiet st rawLine).skipped = st.skipped ∧
    alGet (processHostLine fwdMap revMap isMx quiet st rawLine).hosts fqdn = some ipaddr ∧
    (∀ st2 : GenSt, ∀ ns newIp old2 : Str,
      st2.failed = false → alGet st2.hosts ns = some old2 → old2 ≠ newIp →
      (mergeNsEntry false st2 (ns, newIp)).warnings
          = st2.warnings ++ [nsConflictMsg ns old2 newIp] ∧
      alGet (mergeNsEntry false st2 (ns, newIp)).hosts ns = some newIp) := by
  have h1 : (pyStrip rawLine).isEmpty = false := by
    cases hps : pyStrip rawLine with
    | nil => exact absurd hps hne
    | cons a as => simp
  refine ⟨?_, ?_, ?_, ?_⟩
  · cases isMx <;>
      simp [processHostLine, h1, hnc, hsp, htld, hsld, hfw, hrv]
  · cases isMx <;>
      simp [processHostLine, h1, hnc, hsp, htld, hsld, hfw, hrv]
  · cases isMx <;>
      simp [processHostLine, h1, hnc, hsp, htld, hsld, hfw, hrv, alGet_alSet_self]
  · intro st2 ns newIp old2 hf2 hold2 hdiff2
    constructor
    · simp [mergeNsEntry, hf2, hold2, hdiff2]
    · simp [mergeNsEntry, hf2, hold2, hdiff2, alGet_alSet_self]

/-- C3 witness: overwriting `a.b` from `1.1.1.1` to `2.2.2.2` records no
warning and updates the table, while the nameserver merge does warn. -/
theorem claim_C3_witness :
    (processHostLine [] [] false false ⟨[("a.b".toList, "1.1.1.1".toList)], [], [], 0⟩
        "2.2.2.2 a.b".toList).warnings = [] ∧
    alGet (processHostLine [] [] false false ⟨[("a.b".toList, "1.1.1.1".toList)], [], [], 0⟩
        "2.2.2.2 a.b".toList).hosts "a.b".toList = some "2.2.2.2".toList := by
  have h := claim_C3_amended [] [] false false
    ⟨[("a.b".toList, "1.1.1.1".toList)], [], [], 0⟩
    "2.2.2.2 a.b".toList "2.2.2.2".toList "a.b".toList "1.1.1.1".toList []
    (by decide) (by decide) (by decide) (by decide) (by decide) (by decide) (by decide)
    (by decide) (by decide)
  exact ⟨h.1, h.2.2.1⟩

/-! ## Claim C6: structural failure mid-run -/

/-- C6 counterexample: with empty inputs and an I/O failure at the
dns-hosts-file write (the fifth operation, after the host count has been set),
the failure result reports 27 hosts processed — not zero as the claim states
— while success is false and zones are zero. -/
theorem claim_C6_counterexample :
    (generateDnsConfig ⟨"d".toList, "h".toList, "n".toList, "z".toList⟩
        ⟨false, false, false, false⟩ ⟨[], none, none, [], none, none⟩
        ⟨false, false⟩ (some 4)).1.success = false ∧
    (generateDnsConfig ⟨"d".toList, "h".toList, "n".toList, "z".toList⟩
        ⟨false, false, false, false⟩ ⟨[], none, none, [], none, none⟩
        ⟨false, false⟩ (some 4)).1.zonesCreated = 0 ∧
    (generateDnsConfig ⟨"d".toList, "h".toList, "n".toList, "z".toList⟩
        ⟨false, false, false, false⟩ ⟨[], none, none, [], none, none⟩
        ⟨false, false⟩ (some 4)).1.hostsProcessed = 27 := by
  decide

/-- C6 (amended): whenever an operation of a non-refused run raises, the
caller still receives a structured result — never a propagated exception —
with success false, zero zones created, and exactly the single caught error;
the host counters report the values accumulated up to the failure point
(which need not be zero), and the trace holds exactly the operations that
completed before the failure. -/
theorem claim_C6_amended (cfg : DNSConfigModel) (fs : FsState) (inp : GenInput)
    (opts : DNSGenerationOptions) (budget : Option Nat)
    (hng : (!opts.forceOverwrite && fs.namedConfExists) = false)
    (hfail : (generatePipeline cfg fs inp opts budget).failed = true) :
    generateDnsConfig cfg fs inp opts budget
      = (failureResult (generatePipeline cfg fs inp opts budget),
         (generatePipeline cfg fs inp opts budget).ops) ∧
    (generateDnsConfig cfg fs inp opts budget).1.success = false ∧
    (generateDnsConfig cfg fs inp opts budget).1.zonesCreated = 0 ∧
    (generateDnsConfig cfg fs inp opts budget).1.errors = [exceptionText] ∧
    (generateDnsConfig cfg fs inp opts budget).1.hostsProcessed
      = (generatePipeline cfg fs inp opts budget).processed ∧
    (generateDnsConfig cfg fs inp opts budget).1.hostsSkipped
      = (generatePipeline cfg fs inp opts budget).skipped := by
  have hg : generateDnsConfig cfg fs inp opts budget
      = (failureResult (generatePipeline cfg fs inp opts budget),
         (generatePipeline cfg fs inp opts budget).ops) := by
    simp [generateDnsConfig, hng, hfail]
  refine ⟨hg, ?_, ?_, ?_, ?_, ?_⟩ <;> rw [hg] <;> rfl

/-- C6 witness: a failure at the very first operation yields the structured
failure result. -/
theorem claim_C6_witness :
    generateDnsConfig ⟨"d".toList, "h".toList, "n".toList, "z".toList⟩
        ⟨false, false, false, false⟩ ⟨[], none, none, [], none, none⟩
        ⟨false, false⟩ (some 0)
      = (failureResult (generatePipeline ⟨"d".toList, "h".toList, "n".toList, "z".toList⟩
           ⟨false, false, false, false⟩ ⟨[], none, none, [], none, none⟩
           ⟨false, false⟩ (some 0)),
         (generatePipeline ⟨"d".toList, "h".toList, "n".toList, "z".toList⟩
           ⟨false, false, false, false⟩ ⟨[], none, none, [], none, none⟩
           ⟨false, false⟩ (some 0)).ops) :=
  (claim_C6_amended ⟨"d".toList, "h".toList, "n".toList, "z".toList⟩
    ⟨false, false, false, false⟩ ⟨[], none, none, [], none, none⟩
    ⟨false, false⟩ (some 0) rfl (by decide)).1

/-! ## Quiet-mode independence machinery (claim C9) -/

theorem stripW_fields {st1 st2 : GenSt} (h : stripW st1 = stripW st2) :
    st1.budget = st2.budget ∧ st1.failed = st2.failed ∧ st1.ops = st2.ops ∧
    st1.skipped = st2.skipped ∧ st1.processed = st2.processed ∧
    st1.hosts = st2.hosts ∧ st1.mx = st2.mx ∧ st1.zones = st2.zones := by
  obtain ⟨b1, f1, o1, w1, s1, p1, h1, m1, z1⟩ := st1
  obtain ⟨b2, f2, o2, w2, s2, p2, h2, m2, z2⟩ := st2
  simp only [stripW, GenSt.mk.injEq] at h
  simp_all

theorem runOp_eqW (o : Op) {st1 st2 : GenSt} (h : stripW st1 = stripW st2) :
    stripW (runOp o st1) = stripW (runOp o st2) := by
  obtain ⟨b1, f1, o1, w1, s1, p1, h1, m1, z1⟩ := st1
  obtain ⟨b2, f2, o2, w2, s2, p2, h2, m2, z2⟩ := st2
  simp only [stripW, GenSt.mk.injEq] at h
  obtain ⟨hb, hf, ho, -, hs, hp, hh, hm, hz⟩ := h
  subst hb hf ho hs hp hh hm hz
  cases f1 with
  | true => simp [runOp, stripW]
  | false =>
    cases b1 with
    | none => simp [runOp, stripW]
    | some n =>
      cases n with
      | zero => simp [runOp, stripW]
      | succ k => simp [runOp, stripW]

theorem zonesAppend_eqW (t : Str) {st1 st2 : GenSt} (h : stripW st1 = stripW st2) :
    stripW (pureG (fun s => { s with zones := s.zones ++ [t] }) st1)
      = stripW (pureG (fun s => { s with zones := s.zones ++ [t] }) st2) := by
  obtain ⟨b1, f1, o1, w1, s1, p1, h1, m1, z1⟩ := st1
  obtain ⟨b2, f2, o2, w2, s2, p2, h2, m2, z2⟩ := st2
  simp only [stripW, GenSt.mk.injEq] at h
  obtain ⟨hb, hf, ho, -, hs, hp, hh, hm, hz⟩ := h
  subst hb hf ho hs hp hh hm hz
  cases f1 <;> simp [pureG, stripW]

theorem createForwardZoneG_eqW (t : Str) {st1 st2 : GenSt}
    (h : stripW st1 = stripW st2) :
    stripW (createForwardZoneG t st1) = stripW (createForwardZoneG t st2) := by
  unfold createForwardZoneG
  exact zonesAppend_eqW t (runOp_eqW _ (runOp_eqW _ (runOp_eqW _ h)))

theorem createReverseZoneG_eqW (t : Str) {st1 st2 : GenSt}
    (h : stripW st1 = stripW st2) :
    stripW (createReverseZoneG t st1) = stripW (createReverseZoneG t st2) := by
  unfold createReverseZoneG
  exact zonesAppend_eqW t (runOp_eqW _ (runOp_eqW _ h))

theorem addPtrRecord_eqW (f i : Str) {st1 st2 : GenSt} (h : stripW st1 = stripW st2) :
    stripW (addPtrRecord st1 f i) = stripW (addPtrRecord st2 f i) := by
  unfold addPtrRecord
  rcases splitOnChar '.' i with _ | ⟨a, _ | ⟨b, _ | ⟨c, _ | ⟨d, _ | ⟨e, t⟩⟩⟩⟩⟩ <;>
    try exact h
  have hz : st1.zones = st2.zones := (stripW_fields h).2.2.2.2.2.2.2
  rw [hz]
  by_cases hmem : a ∈ st2.zones
  · simp only [if_pos hmem]
    exact runOp_eqW _ h
  · simp only [if_neg hmem]
    exact runOp_eqW _ (createReverseZoneG_eqW a h)

theorem addDnsRecords_eqW (f i : Str) {st1 st2 : GenSt} (h : stripW st1 = stripW st2) :
    stripW (addDnsRecords st1 f i) = stripW (addDnsRecords st2 f i) := by
  have hf : st1.failed = st2.failed := (stripW_fields h).2.1
  have hz : st1.zones = st2.zones := (stripW_fields h).2.2.2.2.2.2.2
  unfold addDnsRecords
  rw [hf, hz]
  cases hfe : st2.failed
  · cases hgt : getTld f with
    | none => exact h
    | some tld =>
      by_cases hte : tld.isEmpty
      · simp only [if_pos hte]
        exact h
      · simp only [if_neg hte]
        by_cases hmem : tld ∈ st2.zones
        · simp only [if_pos hmem]
          exact addPtrRecord_eqW f i (runOp_eqW _ h)
        · simp only [if_neg hmem]
          exact addPtrRecord_eqW f i (runOp_eqW _ (createForwardZoneG_eqW tld h))
  · exact h

theorem foldl_eqW {α : Type} (g1 g2 : GenSt → α → GenSt)
    (hstep : ∀ (a : α) (st1 st2 : GenSt), stripW st1 = stripW st2 →
      stripW (g1 st1 a) = stripW (g2 st2 a)) :
    ∀ (l : List α) (st1 st2 : GenSt), stripW st1 = stripW st2 →
      stripW (l.foldl g1 st1) = stripW (l.foldl g2 st2) := by
  intro l
  induction l with
  | nil => intro st1 st2 h; exact h
  | cons a as ih =>
    intro st1 st2 h
    exact ih _ _ (hstep a _ _ h)

theorem emitHostRecords_eqW (entries : List (Str × Str)) {st1 st2 : GenSt}
    (h : stripW st1 = stripW st2) :
    stripW (emitHostRecords st1 entries) = stripW (emitHostRecords st2 entries) :=
  foldl_eqW _ _ (fun p s1 s2 hs => addDnsRecords_eqW p.1 p.2 hs) entries st1 st2 h

theorem addFwdNsRecords_eqW (d : List (Str × List Str)) {st1 st2 : GenSt}
    (h : stripW st1 = stripW st2) :
    stripW (addFwdNsRecords d st1) = stripW (addFwdNsRecords d st2) := by
  unfold addFwdNsRecords
  refine foldl_eqW _ _ ?_ d st1 st2 h
  intro p s1 s2 hs
  have hf : s1.failed = s2.failed := (stripW_fields hs).2.1
  have hz : s1.zones = s2.zones := (stripW_fields hs).2.2.2.2.2.2.2
  rw [hf, hz]
  cases s2.failed
  · cases getTld p.1 with
    | none => exact hs
    | some tld =>
      by_cases hte : tld.isEmpty
      · simp only [if_pos hte]; exact hs
      · simp only [if_neg hte]
        by_cases hmem : tld ∈ s2.zones
        · simp only [if_pos hmem]
          show stripW (List.foldl
              (fun st ns => runOp (Op.nsRecordFwd tld (stripTldSuffix p.1 tld) ns) st) s1 p.2)
            = stripW (List.foldl
              (fun st ns => runOp (Op.nsRecordFwd tld (stripTldSuffix p.1 tld) ns) st) s2 p.2)
          exact foldl_eqW _ _
            (fun ns a1 a2 ha => runOp_eqW (Op.nsRecordFwd tld (stripTldSuffix p.1 tld) ns) ha)
            p.2 s1 s2 hs
        · simp only [if_neg hmem]; exact hs
  · exact hs

theorem addRevNsRecords_eqW (d : List (Str × List Str)) {st1 st2 : GenSt}
    (h : stripW st1 = stripW st2) :
    stripW (addRevNsRecords d st1) = stripW (addRevNsRecords d st2) := by
  unfold addRevNsRecords
  refine foldl_eqW _ _ ?_ d st1 st2 h
  intro p s1 s2 hs
  have hf : s1.failed = s2.failed := (stripW_fields hs).2.1
  have hz : s1.zones = s2.zones := (stripW_fields hs).2.2.2.2.2.2.2
  rw [hf, hz]
  cases s2.failed
  · rcases splitOnChar '.' p.1 with _ | ⟨a, _ | ⟨b, _ | ⟨c, t⟩⟩⟩ <;> try exact hs
    by_cases hmem : a ∈ s2.zones
    · simp only [if_pos hmem]
      show stripW (List.foldl
          (fun st ns => runOp (Op.nsRecordRev a (c ++ '.' :: b) ns) st) s1 p.2)
        = stripW (List.foldl
          (fun st ns => runOp (Op.nsRecordRev a (c ++ '.' :: b) ns) st) s2 p.2)
      exact foldl_eqW _ _
        (fun ns a1 a2 ha => runOp_eqW (Op.nsRecordRev a (c ++ '.' :: b) ns) ha)
        p.2 s1 s2 hs
    · simp only [if_neg hmem]; exact hs
  · exact hs

theorem addMxRecords_eqW (d : List (Str × List Str)) {st1 st2 : GenSt}
    (h : stripW st1 = stripW st2) :
    stripW (addMxRecords d st1) = stripW (addMxRecords d st2) := by
  unfold addMxRecords
  refine foldl_eqW _ _ ?_ d st1 st2 h
  intro p s1 s2 hs
  have hf : s1.failed = s2.failed := (stripW_fields hs).2.1
  have hz : s1.zones = s2.zones := (stripW_fields hs).2.2.2.2.2.2.2
  rw [hf, hz]
  cases s2.failed
  · cases getTld p.1 with
    | none => exact hs
    | some tld =>
      by_cases hte : tld.isEmpty
      · simp only [if_pos hte]; exact hs
      · simp only [if_neg hte]
        by_cases hmem : tld ∈ s2.zones
        · simp only [if_pos hmem]
          show stripW (List.foldl
              (fun st mx => runOp (Op.mxRecord tld (stripTldSuffix p.1 tld) mx) st) s1 p.2)
            = stripW (List.foldl
              (fun st mx => runOp (Op.mxRecord tld (stripTldSuffix p.1 tld) mx) st) s2 p.2)
          exact foldl_eqW _ _
            (fun mx a1 a2 ha => runOp_eqW (Op.mxRecord tld (stripTldSuffix p.1 tld) mx) ha)
            p.2 s1 s2 hs
        · simp only [if_neg hmem]; exact hs
  · exact hs

theorem stripWc_fields {c1 c2 : CollectSt} (h : stripWc c1 = stripWc c2) :
    c1.hosts = c2.hosts ∧ c1.mx = c2.mx ∧ c1.skipped = c2.skipped := by
  obtain ⟨h1, m1, w1, s1⟩ := c1
  obtain ⟨h2, m2, w2, s2⟩ := c2
  simp only [stripWc, CollectSt.mk.injEq] at h
  simp_all

theorem processHostLine_eqW (fwdMap revMap : List (Str × List Str)) (isMx q1 q2 : Bool)
    {c1 c2 : CollectSt} (line : Str) (h : stripWc c1 = stripWc c2) :
    stripWc (processHostLine fwdMap revMap isMx q1 c1 line)
      = stripWc (processHostLine fwdMap revMap isMx q2 c2 line) := by
  obtain ⟨h1, m1, w1, s1⟩ := c1
  obtain ⟨h2, m2, w2, s2⟩ := c2
  simp only [stripWc, CollectSt.mk.injEq] at h
  obtain ⟨hh, hm, -, hs⟩ := h
  subst hh hm hs
  by_cases he : (pyStrip line).isEmpty
  · simp [processHostLine, he, stripWc]
  · by_cases hc : (pyStrip line).head? = some '#'
    · simp [processHostLine, he, hc, stripWc]
    · cases hsp : splitWs (pyStrip line) with
      | nil => simp [processHostLine, he, hc, hsp, stripWc]
      | cons ip rest =>
        cases rest with
        | nil => simp [processHostLine, he, hc, hsp, stripWc]
        | cons fq rest2 =>
          by_cases ht : (!pyTruthy (getTld fq) || !pyTruthy (getSld fq)) = true
          · simp [processHostLine, he, hc, hsp, ht, stripWc]
          · by_cases hf2 :
              (alGet fwdMap ((getSld fq).getD [] ++ '.' :: (getTld fq).getD [])).isSome
            · simp [processHostLine, he, hc, hsp, ht, hf2, stripWc]
            · by_cases hr2 :
                (alGet revMap (joinChar '.' ((splitOnChar '.' ip).take 3))).isSome
              · simp [processHostLine, he, hc, hsp, ht, hf2, hr2, stripWc]
              · cases isMx <;> simp [processHostLine, he, hc, hsp, ht, hf2, hr2, stripWc]

theorem stripW_ext {st1 st2 : GenSt}
    (hb : st1.budget = st2.budget) (hf : st1.failed = st2.failed)
    (ho : st1.ops = st2.ops) (hs : st1.skipped = st2.skipped)
    (hp : st1.processed = st2.processed) (hh : st1.hosts = st2.hosts)
    (hm : st1.mx = st2.mx) (hz : st1.zones = st2.zones) :
    stripW st1 = stripW st2 := by
  obtain ⟨b1, f1, o1, w1, s1, p1, h1, m1, z1⟩ := st1
  obtain ⟨b2, f2, o2, w2, s2, p2, h2, m2, z2⟩ := st2
  simp_all [stripW]

theorem addHostsFile_eqW (fwdMap revMap : List (Str × List Str)) (isMx q1 q2 : Bool)
    (lines : List Str) {c1 c2 : CollectSt} (h : stripWc c1 = stripWc c2) :
    stripWc (addHostsFile fwdMap revMap isMx q1 c1 lines)
      = stripWc (addHostsFile fwdMap revMap isMx q2 c2 lines) := by
  unfold addHostsFile
  induction lines generalizing c1 c2 with
  | nil => exact h
  | cons l ls ih => exact ih (processHostLine_eqW fwdMap revMap isMx q1 q2 l h)

theorem collectFileG_eqW (fwdMap revMap : List (Str × List Str)) (isMx q1 q2 : Bool)
    (f : SourceFile) {st1 st2 : GenSt} (h : stripW st1 = stripW st2) :
    stripW (collectFileG fwdMap revMap isMx q1 f st1)
      = stripW (collectFileG fwdMap revMap isMx q2 f st2) := by
  simp only [collectFileG]
  have h' := runOp_eqW (.readFile f.path) h
  obtain ⟨hb, hf, ho, hs, hp, hh, hm, hz⟩ := stripW_fields h'
  rw [hf]
  cases hfe : (runOp (.readFile f.path) st2).failed
  · have hcol := @addHostsFile_eqW fwdMap revMap isMx q1 q2 f.lines
      ⟨(runOp (.readFile f.path) st1).hosts, (runOp (.readFile f.path) st1).mx,
        (runOp (.readFile f.path) st1).warnings,
        (runOp (.readFile f.path) st1).skipped⟩
      ⟨(runOp (.readFile f.path) st2).hosts, (runOp (.readFile f.path) st2).mx,
        (runOp (.readFile f.path) st2).warnings,
        (runOp (.readFile f.path) st2).skipped⟩
      (by simp [stripWc, hh, hm, hs])
    obtain ⟨hch, hcm, hcs⟩ := stripWc_fields hcol
    simp only [hfe, Bool.false_eq_true, if_false]
    exact stripW_ext (by simpa using hb) (by simp [hfe, hf]) (by simpa using ho)
      (by simpa using hcs) (by simpa using hp) (by simpa using hch)
      (by simpa using hcm) (by simpa using hz)
  · simp only [hfe, if_true]
    exact h'

theorem mergeNsEntry_eqW (q1 q2 : Bool) (p : Str × Str) {st1 st2 : GenSt}
    (h : stripW st1 = stripW st2) :
    stripW (mergeNsEntry q1 st1 p) = stripW (mergeNsEntry q2 st2 p) := by
  obtain ⟨b1, f1, o1, w1, s1, p1, h1, m1, z1⟩ := st1
  obtain ⟨b2, f2, o2, w2, s2, p2, h2, m2, z2⟩ := st2
  simp only [stripW, GenSt.mk.injEq] at h
  obtain ⟨hb, hf, ho, -, hs, hp, hh, hm, hz⟩ := h
  subst hb hf ho hs hp hh hm hz
  cases f1 with
  | false =>
    cases halg : alGet h1 p.1 with
    | none => simp [mergeNsEntry, halg, stripW]
    | some old =>
      by_cases hne : old = p.2
      · simp [mergeNsEntry, halg, hne, stripW]
      · cases q1 <;> cases q2 <;> simp [mergeNsEntry, halg, hne, stripW]
  | true => simp [mergeNsEntry, stripW]

theorem mergeNsPhase_eqW (d : List (Str × Str)) (q1 q2 : Bool) {st1 st2 : GenSt}
    (h : stripW st1 = stripW st2) :
    stripW (mergeNsPhase d q1 st1) = stripW (mergeNsPhase d q2 st2) := by
  unfold mergeNsPhase
  exact foldl_eqW (mergeNsEntry q1) (mergeNsEntry q2)
    (fun p a1 a2 ha => mergeNsEntry_eqW q1 q2 p ha) d st1 st2 h

theorem countHostsPhase_eqW {st1 st2 : GenSt} (h : stripW st1 = stripW st2) :
    stripW (countHostsPhase st1) = stripW (countHostsPhase st2) := by
  obtain ⟨b1, f1, o1, w1, s1, p1, h1, m1, z1⟩ := st1
  obtain ⟨b2, f2, o2, w2, s2, p2, h2, m2, z2⟩ := st2
  simp only [stripW, GenSt.mk.injEq] at h
  obtain ⟨hb, hf, ho, -, hs, hp, hh, hm, hz⟩ := h
  subst hb hf ho hs hp hh hm hz
  cases f1 <;> simp [countHostsPhase, pureG, stripW]

theorem collectionPhase_eqW (inp : GenInput) (q1 q2 : Bool) {st1 st2 : GenSt}
    (h : stripW st1 = stripW st2) :
    stripW (collectionPhase inp q1 st1) = stripW (collectionPhase inp q2 st2) := by
  simp only [collectionPhase]
  have hv := foldl_eqW
    (fun st f => collectFileG (fwdDictOf inp) (revDictOf inp) false q1 f st)
    (fun st f => collectFileG (fwdDictOf inp) (revDictOf inp) false q2 f st)
    (fun f a1 a2 ha => collectFileG_eqW (fwdDictOf inp) (revDictOf inp) false q1 q2 f ha)
    (contributingVhosts inp) st1 st2 h
  have hbk : ∀ {a1 a2 : GenSt}, stripW a1 = stripW a2 → ∀ o : Option SourceFile,
      ∀ m : Bool,
      stripW (match o with
              | some f => collectFileG (fwdDictOf inp) (revDictOf inp) m q1 f a1
              | none => a1)
        = stripW (match o with
              | some f => collectFileG (fwdDictOf inp) (revDictOf inp) m q2 f a2
              | none => a2) := by
    intro a1 a2 ha o m
    cases o with
    | none => exact ha
    | some f => exact collectFileG_eqW (fwdDictOf inp) (revDictOf inp) m q1 q2 f ha
  have he := foldl_eqW
    (fun st f => collectFileG (fwdDictOf inp) (revDictOf inp) false q1 f st)
    (fun st f => collectFileG (fwdDictOf inp) (revDictOf inp) false q2 f st)
    (fun f a1 a2 ha => collectFileG_eqW (fwdDictOf inp) (revDictOf inp) false q1 q2 f ha)
    inp.extraFiles _ _ (hbk (hbk hv inp.backboneFile false) inp.customFile false)
  exact mergeNsPhase_eqW (nsDictOf inp) q1 q2 (hbk he inp.mailFile true)

theorem emitPhase_eqW (inp : GenInput) {st1 st2 : GenSt}
    (h : stripW st1 = stripW st2) :
    stripW (emitPhase inp st1) = stripW (emitPhase inp st2) := by
  simp only [emitPhase]
  have e1 := runOp_eqW .writeDnsHosts h
  have e2 := runOp_eqW .writeNamedConfBase e1
  have e3 := runOp_eqW .writeRootZone e2
  have hh := (stripW_fields e3).2.2.2.2.2.1
  have e4 : stripW (emitHostRecords
        (runOp .writeRootZone (runOp .writeNamedConfBase (runOp .writeDnsHosts st1)))
        (runOp .writeRootZone (runOp .writeNamedConfBase (runOp .writeDnsHosts st1))).hosts)
      = stripW (emitHostRecords
        (runOp .writeRootZone (runOp .writeNamedConfBase (runOp .writeDnsHosts st2)))
        (runOp .writeRootZone (runOp .writeNamedConfBase (runOp .writeDnsHosts st2))).hosts) := by
    rw [hh]
    exact emitHostRecords_eqW _ e3
  have e5 := emitHostRecords_eqW (infraPairs cachingNs) e4
  have e6 := emitHostRecords_eqW (infraPairs toplevelNs) e5
  have e7 := emitHostRecords_eqW (infraPairs rootNs) e6
  have e8 := addFwdNsRecords_eqW (fwdDictOf inp) e7
  have e9 := addRevNsRecords_eqW (revDictOf inp) e8
  have hm := (stripW_fields e9).2.2.2.2.2.2.1
  have e10 : stripW (addMxRecords
        (addRevNsRecords (revDictOf inp) (addFwdNsRecords (fwdDictOf inp)
          (emitHostRecords (emitHostRecords (emitHostRecords (emitHostRecords
            (runOp .writeRootZone (runOp .writeNamedConfBase (runOp .writeDnsHosts st1)))
            (runOp .writeRootZone (runOp .writeNamedConfBase (runOp .writeDnsHosts st1))).hosts)
            (infraPairs cachingNs)) (infraPairs toplevelNs)) (infraPairs rootNs)))).mx
        (addRevNsRecords (revDictOf inp) (addFwdNsRecords (fwdDictOf inp)
          (emitHostRecords (emitHostRecords (emitHostRecords (emitHostRecords
            (runOp .writeRootZone (runOp .writeNamedConfBase (runOp .writeDnsHosts st1)))
            (runOp .writeRootZone (runOp .writeNamedConfBase (runOp .writeDnsHosts st1))).hosts)
            (infraPairs cachingNs)) (infraPairs toplevelNs)) (infraPairs rootNs)))))
      = stripW (addMxRecords
        (addRevNsRecords (revDictOf inp) (addFwdNsRecords (fwdDictOf inp)
          (emitHostRecords (emitHostRecords (emitHostRecords (emitHostRecords
            (runOp .writeRootZone (runOp .writeNamedConfBase (runOp .writeDnsHosts st2)))
            (runOp .writeRootZone (runOp .writeNamedConfBase (runOp .writeDnsHosts st2))).hosts)
            (infraPairs cachingNs)) (infraPairs toplevelNs)) (infraPairs rootNs)))).mx
        (addRevNsRecords (revDictOf inp) (addFwdNsRecords (fwdDictOf inp)
          (emitHostRecords (emitHostRecords (emitHostRecords (emitHostRecords
            (runOp .writeRootZone (runOp .writeNamedConfBase (runOp .writeDnsHosts st2)))
            (runOp .writeRootZone (runOp .writeNamedConfBase (runOp .writeDnsHosts st2))).hosts)
            (infraPairs cachingNs)) (infraPairs toplevelNs)) (infraPairs rootNs))))) := by
    rw [hm]
    exact addMxRecords_eqW _ e9
  exact runOp_eqW .closeNamedConf e10

theorem generatePipeline_quiet (cfg : DNSConfigModel) (fs : FsState) (inp : GenInput)
    (force q1 q2 : Bool) (budget : Option Nat) :
    stripW (generatePipeline cfg fs inp ⟨force, q1⟩ budget)
      = stripW (generatePipeline cfg fs inp ⟨force, q2⟩ budget) := by
  simp only [generatePipeline]
  exact emitPhase_eqW inp (countHostsPhase_eqW (collectionPhase_eqW inp q1 q2 rfl))

/-! ## Claim C9: quiet mode influences only the warnings list -/

/-- C9: running `generate` with quiet_mode on and off (same configuration,
filesystem, inputs, force flag and failure pattern) produces the same success
flag, zone and host counts, errors, output-file list, and the identical trace
of filesystem operations (hence identical output file contents); only the
warnings list may differ. -/
theorem claim_C9 (cfg : DNSConfigModel) (fs : FsState) (inp : GenInput)
    (force : Bool) (budget : Option Nat) :
    (generateDnsConfig cfg fs inp ⟨force, true⟩ budget).1.success
      = (generateDnsConfig cfg fs inp ⟨force, false⟩ budget).1.success ∧
    (generateDnsConfig cfg fs inp ⟨force, true⟩ budget).1.zonesCreated
      = (generateDnsConfig cfg fs inp ⟨force, false⟩ budget).1.zonesCreated ∧
    (generateDnsConfig cfg fs inp ⟨force, true⟩ budget).1.hostsProcessed
      = (generateDnsConfig cfg fs inp ⟨force, false⟩ budget).1.hostsProcessed ∧
    (generateDnsConfig cfg fs inp ⟨force, true⟩ budget).1.hostsSkipped
      = (generateDnsConfig cfg fs inp ⟨force, false⟩ budget).1.hostsSkipped ∧
    (generateDnsConfig cfg fs inp ⟨force, true⟩ budget).1.errors
      = (generateDnsConfig cfg fs inp ⟨force, false⟩ budget).1.errors ∧
    (generateDnsConfig cfg fs inp ⟨force, true⟩ budget).1.outputFiles
      = (generateDnsConfig cfg fs inp ⟨force, false⟩ budget).1.outputFiles ∧
    (generateDnsConfig cfg fs inp ⟨force, true⟩ budget).2
      = (generateDnsConfig cfg fs inp ⟨force, false⟩ budget).2 := by
  have hp := generatePipeline_quiet cfg fs inp force true false budget
  obtain ⟨hb, hf, ho, hs, hpr, hh, hm, hz⟩ := stripW_fields hp
  by_cases hr : (!force && fs.namedConfExists) = true
  · have e1 : generateDnsConfig cfg fs inp ⟨force, true⟩ budget = (refuseResult cfg, []) := by
      simp [generateDnsConfig, hr]
    have e2 : generateDnsConfig cfg fs inp ⟨force, false⟩ budget = (refuseResult cfg, []) := by
      simp [generateDnsConfig, hr]
    rw [e1, e2]
    exact ⟨rfl, rfl, rfl, rfl, rfl, rfl, rfl⟩
  · cases hfe : (generatePipeline cfg fs inp ⟨force, false⟩ budget).failed with
    | false =>
      have e1 : generateDnsConfig cfg fs inp ⟨force, true⟩ budget
          = (completedResult cfg (generatePipeline cfg fs inp ⟨force, true⟩ budget),
             (generatePipeline cfg fs inp ⟨force, true⟩ budget).ops) := by
        simp [generateDnsConfig, hr, hf, hfe]
      have e2 : generateDnsConfig cfg fs inp ⟨force, false⟩ budget
          = (completedResult cfg (generatePipeline cfg fs inp ⟨force, false⟩ budget),
             (generatePipeline cfg fs inp ⟨force, false⟩ budget).ops) := by
        simp [generateDnsConfig, hr, hfe]
      rw [e1, e2]
      dsimp only [completedResult]
      exact ⟨rfl, by rw [hz], by rw [hpr], by rw [hs], rfl, rfl, ho⟩
    | true =>
      have e1 : generateDnsConfig cfg fs inp ⟨force, true⟩ budget
          = (failureResult (generatePipeline cfg fs inp ⟨force, true⟩ budget),
             (generatePipeline cfg fs inp ⟨force, true⟩ budget).ops) := by
        simp [generateDnsConfig, hr, hf, hfe]
      have e2 : generateDnsConfig cfg fs inp ⟨force, false⟩ budget
          = (failureResult (generatePipeline cfg fs inp ⟨force, false⟩ budget),
             (generatePipeline cfg fs inp ⟨force, false⟩ budget).ops) := by
        simp [generateDnsConfig, hr, hfe]
      rw [e1, e2]
      dsimp only [failureResult]
      exact ⟨rfl, rfl, by rw [hpr], by rw [hs], rfl, rfl, ho⟩

/-! ## Zone-creation invariant machinery (claim C1) -/

theorem runOp_clean {st : GenSt} (o : Op) (hb : st.budget = none) (hf : st.failed = false) :
    runOp o st = { st with ops := st.ops ++ [o] } := by
  simp [runOp, hb, hf]

theorem hdrCount_append (k : Str) (a b : List Op) :
    hdrCount k (a ++ b) = hdrCount k a + hdrCount k b := by
  simp [hdrCount, List.count_append]
  omega

theorem marker_free_counts {o : Op} (h : Op.isZoneMarker o = false) (k : Str) :
    [o].count (Op.fwdZoneHeader k) = 0 ∧ [o].count (Op.revZoneHeader k) = 0 ∧
    [o].count (Op.rootZoneNsDelegation k) = 0 ∧ [o].count (Op.namedConfFwdStanza k) = 0 ∧
    [o].count (Op.namedConfRevStanza k) = 0 := by
  cases o <;> simp_all [Op.isZoneMarker, List.count_cons, List.count_nil]

theorem inv_append_neutral {st : GenSt} (H : Clean st ∧ ZoneInv st) (o : Op)
    (h : Op.isZoneMarker o = false) :
    Clean (runOp o st) ∧ ZoneInv (runOp o st) := by
  obtain ⟨⟨hb, hf⟩, hi⟩ := H
  rw [runOp_clean o hb hf]
  have hc := fun k => marker_free_counts h k
  refine ⟨⟨hb, hf⟩, ?_, ?_, ?_, ?_⟩
  · intro k
    rw [show ({ st with ops := st.ops ++ [o] } : GenSt).ops = st.ops ++ [o] from rfl,
        hdrCount_append,
        show hdrCount k [o] = 0 from by simp [hdrCount, (hc k).1, (hc k).2.1]]
    simpa using hi.1 k
  · intro t
    simp only [List.count_append]
    rw [(hc t).2.2.1, (hc t).1]
    simpa using hi.2.1 t
  · intro t
    simp only [List.count_append]
    rw [(hc t).2.2.2.1, (hc t).1]
    simpa using hi.2.2.1 t
  · intro t
    simp only [List.count_append]
    rw [(hc t).2.2.2.2, (hc t).2.1]
    simpa using hi.2.2.2 t

theorem foldl_inv {α : Type} (P : GenSt → Prop) (g : GenSt → α → GenSt)
    (hstep : ∀ (st : GenSt) (a : α), P st → P (g st a)) :
    ∀ (l : List α) (st : GenSt), P st → P (l.foldl g st) := by
  intro l
  induction l with
  | nil => intro st h; exact h
  | cons a as ih => intro st h; exact ih _ (hstep st a h)

theorem inv_prepPhase (cfg : DNSConfigModel) (fs : FsState) (inp : GenInput) (force : Bool) :
    Clean (prepPhase cfg fs inp force none) ∧ ZoneInv (prepPhase cfg fs inp force none) := by
  have hbase : Clean (⟨none, false, [], [], 0, 0, [], [], []⟩ : GenSt) ∧
      ZoneInv ⟨none, false, [], [], 0, 0, [], [], []⟩ := by
    exact ⟨⟨rfl, rfl⟩, fun k => by simp [hdrCount], fun t => by simp, fun t => by simp,
      fun t => by simp⟩
  simp only [prepPhase]
  cases inp.delegationsText <;>
    repeat' first
      | exact hbase
      | exact inv_append_neutral (by assumption) _ rfl
      | apply inv_append_neutral (o := Op.readFile cfg.delegationsPath) ?_ rfl
      | apply inv_append_neutral (o := Op.makedirs (pyDirname cfg.outputDnsHostsPath)) ?_ rfl
      | apply inv_append_neutral (o := Op.makedirs (pyDirname cfg.outputNamedConfPath)) ?_ rfl
      | apply inv_append_neutral (o := Op.makedirs (cfg.outputZoneFolder ++ "/rootsrv".toList)) ?_ rfl
      | apply inv_append_neutral (o := Op.makedirs (cfg.outputZoneFolder ++ "/tldsrv".toList)) ?_ rfl
      | apply inv_append_neutral (o := Op.rmtree (cfg.outputZoneFolder ++ "/tldsrv".toList)) ?_ rfl
      | apply inv_append_neutral (o := Op.rmtree (cfg.outputZoneFolder ++ "/rootsrv".toList)) ?_ rfl
      | apply inv_append_neutral (o := Op.removeFile cfg.outputNamedConfPath) ?_ rfl
      | apply inv_append_neutral (o := Op.removeFile cfg.outputDnsHostsPath) ?_ rfl
      | split

theorem inv_collectFileG (fwdMap revMap : List (Str × List Str)) (isMx quiet : Bool)
    (f : SourceFile) {st : GenSt} (H : Clean st ∧ ZoneInv st) :
    Clean (collectFileG fwdMap revMap isMx quiet f st)
      ∧ ZoneInv (collectFileG fwdMap revMap isMx quiet f st) := by
  simp only [collectFileG]
  have H2 := inv_append_neutral H (.readFile f.path) rfl
  simp only [H2.1.2, Bool.false_eq_true, if_false]
  exact ⟨⟨H2.1.1, rfl⟩, H2.2⟩

theorem inv_mergeNsEntry (q : Bool) (p : Str × Str) {st : GenSt}
    (H : Clean st ∧ ZoneInv st) :
    Clean (mergeNsEntry q st p) ∧ ZoneInv (mergeNsEntry q st p) := by
  obtain ⟨⟨hb, hf⟩, hi⟩ := H
  simp only [mergeNsEntry, hf, Bool.false_eq_true, if_false]
  repeat' split
  all_goals exact ⟨⟨hb, by simp [hf]⟩, hi⟩

theorem inv_countHostsPhase {st : GenSt} (H : Clean st ∧ ZoneInv st) :
    Clean (countHostsPhase st) ∧ ZoneInv (countHostsPhase st) := by
  obtain ⟨⟨hb, hf⟩, hi⟩ := H
  simp only [countHostsPhase, pureG, hf, Bool.false_eq_true, if_false]
  exact ⟨⟨hb, rfl⟩, hi⟩

theorem inv_collectionPhase (inp : GenInput) (q : Bool) {st : GenSt}
    (H : Clean st ∧ ZoneInv st) :
    Clean (collectionPhase inp q st) ∧ ZoneInv (collectionPhase inp q st) := by
  have hopt : ∀ (o : Option SourceFile) (m : Bool) (st' : GenSt),
      Clean st' ∧ ZoneInv st' →
      Clean (match o with
             | some f => collectFileG (fwdDictOf inp) (revDictOf inp) m q f st'
             | none => st')
        ∧ ZoneInv (match o with
             | some f => collectFileG (fwdDictOf inp) (revDictOf inp) m q f st'
             | none => st') := by
    intro o m st' h
    cases o with
    | none => exact h
    | some f => exact inv_collectFileG (fwdDictOf inp) (revDictOf inp) m q f h
  simp only [collectionPhase, mergeNsPhase]
  refine foldl_inv (fun s => Clean s ∧ ZoneInv s) (mergeNsEntry q)
    (fun s a h => inv_mergeNsEntry q a h) (nsDictOf inp) _ ?_
  refine hopt inp.mailFile true _ ?_
  refine foldl_inv (fun s => Clean s ∧ ZoneInv s) _
    (fun s f h => inv_collectFileG (fwdDictOf inp) (revDictOf inp) false q f h)
    inp.extraFiles _ ?_
  refine hopt inp.customFile false _ ?_
  refine hopt inp.backboneFile false _ ?_
  exact foldl_inv (fun s => Clean s ∧ ZoneInv s) _
    (fun s f h => inv_collectFileG (fwdDictOf inp) (revDictOf inp) false q f h)
    (contributingVhosts inp) _ H

theorem createForwardZoneG_clean_eq {st : GenSt} (hb : st.budget = none)
    (hf : st.failed = false) (t : Str) :
    createForwardZoneG t st = { st with
      ops := st.ops ++ [.fwdZoneHeader t, .namedConfFwdStanza t, .rootZoneNsDelegation t],
      zones := st.zones ++ [t] } := by
  simp [createForwardZoneG, runOp, pureG, hb, hf]

theorem createReverseZoneG_clean_eq {st : GenSt} (hb : st.budget = none)
    (hf : st.failed = false) (t : Str) :
    createReverseZoneG t st = { st with
      ops := st.ops ++ [.revZoneHeader t, .namedConfRevStanza t],
      zones := st.zones ++ [t] } := by
  simp [createReverseZoneG, runOp, pureG, hb, hf]

theorem inv_createForwardZoneG (t : Str) {st : GenSt} (H : Clean st ∧ ZoneInv st)
    (hmem : t ∉ st.zones) :
    Clean (createForwardZoneG t st) ∧ ZoneInv (createForwardZoneG t st) := by
  obtain ⟨⟨hb, hf⟩, hi⟩ := H
  rw [createForwardZoneG_clean_eq hb hf t]
  refine ⟨⟨hb, hf⟩, ?_, ?_, ?_, ?_⟩
  · intro k
    have h0 := hi.1 k
    by_cases hk : k = t
    · subst hk
      rw [if_neg hmem] at h0
      simp only [hdrCount] at h0
      have h1 : List.count (Op.fwdZoneHeader k) st.ops = 0 := by omega
      have h2 : List.count (Op.revZoneHeader k) st.ops = 0 := by omega
      simp [hdrCount, List.count_append, List.count_cons, List.count_nil, h1, h2,
        List.mem_append]
    · simp [hdrCount, List.count_append, List.count_cons, List.count_nil, hk,
        List.mem_append] at h0 ⊢
      exact h0
  · intro k
    have h0 := hi.2.1 k
    by_cases hk : k = t <;>
      simp_all [List.count_append, List.count_cons]
  · intro k
    have h0 := hi.2.2.1 k
    by_cases hk : k = t <;>
      simp_all [List.count_append, List.count_cons]
  · intro k
    have h0 := hi.2.2.2 k
    by_cases hk : k = t <;>
      simp_all [List.count_append, List.count_cons]

theorem inv_createReverseZoneG (t : Str) {st : GenSt} (H : Clean st ∧ ZoneInv st)
    (hmem : t ∉ st.zones) :
    Clean (createReverseZoneG t st) ∧ ZoneInv (createReverseZoneG t st) := by
  obtain ⟨⟨hb, hf⟩, hi⟩ := H
  rw [createReverseZoneG_clean_eq hb hf t]
  refine ⟨⟨hb, hf⟩, ?_, ?_, ?_, ?_⟩
  · intro k
    have h0 := hi.1 k
    by_cases hk : k = t
    · subst hk
      rw [if_neg hmem] at h0
      simp only [hdrCount] at h0
      have h1 : List.count (Op.fwdZoneHeader k) st.ops = 0 := by omega
      have h2 : List.count (Op.revZoneHeader k) st.ops = 0 := by omega
      simp [hdrCount, List.count_append, List.count_cons, List.count_nil, h1, h2,
        List.mem_append]
    · simp [hdrCount, List.count_append, List.count_cons, List.count_nil, hk,
        List.mem_append] at h0 ⊢
      exact h0
  · intro k
    have h0 := hi.2.1 k
    by_cases hk : k = t <;>
      simp_all [List.count_append, List.count_cons]
  · intro k
    have h0 := hi.2.2.1 k
    by_cases hk : k = t <;>
      simp_all [List.count_append, List.count_cons]
  · intro k
    have h0 := hi.2.2.2 k
    by_cases hk : k = t <;>
      simp_all [List.count_append, List.count_cons]

theorem inv_addPtrRecord (f i : Str) {st : GenSt} (H : Clean st ∧ ZoneInv st) :
    Clean (addPtrRecord st f i) ∧ ZoneInv (addPtrRecord st f i) := by
  unfold addPtrRecord
  rcases splitOnChar '.' i with _ | ⟨a, _ | ⟨b, _ | ⟨c, _ | ⟨d, _ | ⟨e, t⟩⟩⟩⟩⟩ <;>
    try exact H
  by_cases hmem : a ∈ st.zones
  · simp only [if_pos hmem]
    exact inv_append_neutral H _ rfl
  · simp only [if_neg hmem]
    exact inv_append_neutral (inv_createReverseZoneG a H hmem) _ rfl

theorem inv_addDnsRecords (f i : Str) {st : GenSt} (H : Clean st ∧ ZoneInv st) :
    Clean (addDnsRecords st f i) ∧ ZoneInv (addDnsRecords st f i) := by
  unfold addDnsRecords
  simp only [H.1.2, Bool.false_eq_true, if_false]
  cases getTld f with
  | none => exact H
  | some tld =>
    by_cases hte : tld.isEmpty
    · simp only [if_pos hte]
      exact H
    · simp only [if_neg hte]
      by_cases hmem : tld ∈ st.zones
      · simp only [if_pos hmem]
        exact inv_addPtrRecord f i (inv_append_neutral H _ rfl)
      · simp only [if_neg hmem]
        exact inv_addPtrRecord f i
          (inv_append_neutral (inv_createForwardZoneG tld H hmem) _ rfl)

theorem inv_emitHostRecords (entries : List (Str × Str)) {st : GenSt}
    (H : Clean st ∧ ZoneInv st) :
    Clean (emitHostRecords st entries) ∧ ZoneInv (emitHostRecords st entries) := by
  unfold emitHostRecords
  exact foldl_inv (fun s => Clean s ∧ ZoneInv s) _
    (fun s p h => inv_addDnsRecords p.1 p.2 h) entries st H

theorem inv_addFwdNsRecords (d : List (Str × List Str)) {st : GenSt}
    (H : Clean st ∧ ZoneInv st) :
    Clean (addFwdNsRecords d st) ∧ ZoneInv (addFwdNsRecords d st) := by
  unfold addFwdNsRecords
  refine foldl_inv (fun s => Clean s ∧ ZoneInv s) _ ?_ d st H
  intro s p h
  simp only [h.1.2, Bool.false_eq_true, if_false]
  cases getTld p.1 with
  | none => exact h
  | some tld =>
    by_cases hte : tld.isEmpty
    · simp only [if_pos hte]; exact h
    · simp only [if_neg hte]
      by_cases hmem : tld ∈ s.zones
      · simp only [if_pos hmem]
        exact foldl_inv (fun x => Clean x ∧ ZoneInv x) _
          (fun x ns hx =>
            inv_append_neutral hx (Op.nsRecordFwd tld (stripTldSuffix p.1 tld) ns) rfl)
          p.2 s h
      · simp only [if_neg hmem]; exact h

theorem inv_addRevNsRecords (d : List (Str × List Str)) {st : GenSt}
    (H : Clean st ∧ ZoneInv st) :
    Clean (addRevNsRecords d st) ∧ ZoneInv (addRevNsRecords d st) := by
  unfold addRevNsRecords
  refine foldl_inv (fun s => Clean s ∧ ZoneInv s) _ ?_ d st H
  intro s p h
  simp only [h.1.2, Bool.false_eq_true, if_false]
  rcases splitOnChar '.' p.1 with _ | ⟨a, _ | ⟨b, _ | ⟨c, t⟩⟩⟩ <;> try exact h
  by_cases hmem : a ∈ s.zones
  · simp only [if_pos hmem]
    exact foldl_inv (fun x => Clean x ∧ ZoneInv x) _
      (fun x ns hx => inv_append_neutral hx (Op.nsRecordRev a (c ++ '.' :: b) ns) rfl)
      p.2 s h
  · simp only [if_neg hmem]; exact h

theorem inv_addMxRecords (d : List (Str × List Str)) {st : GenSt}
    (H : Clean st ∧ ZoneInv st) :
    Clean (addMxRecords d st) ∧ ZoneInv (addMxRecords d st) := by
  unfold addMxRecords
  refine foldl_inv (fun s => Clean s ∧ ZoneInv s) _ ?_ d st H
  intro s p h
  simp only [h.1.2, Bool.false_eq_true, if_false]
  cases getTld p.1 with
  | none => exact h
  | some tld =>
    by_cases hte : tld.isEmpty
    · simp only [if_pos hte]; exact h
    · simp only [if_neg hte]
      by_cases hmem : tld ∈ s.zones
      · simp only [if_pos hmem]
        exact foldl_inv (fun x => Clean x ∧ ZoneInv x) _
          (fun x ns hx =>
            inv_append_neutral hx (Op.mxRecord tld (stripTldSuffix p.1 tld) ns) rfl)
          p.2 s h
      · simp only [if_neg hmem]; exact h

theorem inv_emitPhase (inp : GenInput) {st : GenSt} (H : Clean st ∧ ZoneInv st) :
    Clean (emitPhase inp st) ∧ ZoneInv (emitPhase inp st) := by
  simp only [emitPhase]
  refine inv_append_neutral ?_ Op.closeNamedConf rfl
  refine inv_addMxRecords _ ?_
  refine inv_addRevNsRecords _ ?_
  refine inv_addFwdNsRecords _ ?_
  refine inv_emitHostRecords _ ?_
  refine inv_emitHostRecords _ ?_
  refine inv_emitHostRecords _ ?_
  refine inv_emitHostRecords _ ?_
  exact inv_append_neutral
    (inv_append_neutral (inv_append_neutral H Op.writeDnsHosts rfl) Op.writeNamedConfBase rfl)
    Op.writeRootZone rfl

theorem inv_pipeline (cfg : DNSConfigModel) (fs : FsState) (inp : GenInput)
    (opts : DNSGenerationOptions) :
    Clean (generatePipeline cfg fs inp opts none)
      ∧ ZoneInv (generatePipeline cfg fs inp opts none) := by
  simp only [generatePipeline]
  exact inv_emitPhase inp (inv_countHostsPhase (inv_collectionPhase inp opts.quietMode
    (inv_prepPhase cfg fs inp opts.forceOverwrite)))

theorem runOp_zones (o : Op) {st : GenSt} (hc : Clean st) :
    Clean (runOp o st) ∧ (runOp o st).zones = st.zones := by
  rw [runOp_clean o hc.1 hc.2]
  exact ⟨⟨hc.1, hc.2⟩, rfl⟩

theorem createForwardZoneG_zones (t : Str) {st : GenSt} (hc : Clean st) :
    Clean (createForwardZoneG t st) ∧ (createForwardZoneG t st).zones = st.zones ++ [t] := by
  rw [createForwardZoneG_clean_eq hc.1 hc.2]
  exact ⟨⟨hc.1, hc.2⟩, rfl⟩

theorem createReverseZoneG_zones (t : Str) {st : GenSt} (hc : Clean st) :
    Clean (createReverseZoneG t st) ∧ (createReverseZoneG t st).zones = st.zones ++ [t] := by
  rw [createReverseZoneG_clean_eq hc.1 hc.2]
  exact ⟨⟨hc.1, hc.2⟩, rfl⟩

theorem addPtrRecord_zones (f i : Str) {st : GenSt} (hc : Clean st) :
    Clean (addPtrRecord st f i) ∧ (addPtrRecord st f i).zones
      = (match splitOnChar '.' i with
         | [p1, _, _, _] => if p1 ∈ st.zones then st.zones else st.zones ++ [p1]
         | _ => st.zones) := by
  unfold addPtrRecord
  rcases splitOnChar '.' i with _ | ⟨a, _ | ⟨b, _ | ⟨c, _ | ⟨d, _ | ⟨e, t⟩⟩⟩⟩⟩ <;>
    try exact ⟨hc, rfl⟩
  by_cases hmem : a ∈ st.zones
  · simp only [if_pos hmem]
    exact runOp_zones _ hc
  · simp only [if_neg hmem]
    have h1 := createReverseZoneG_zones a hc
    have h2 := runOp_zones (Op.ptrRecord a (d ++ '.' :: (c ++ '.' :: b)) f) h1.1
    exact ⟨h2.1, by rw [h2.2, h1.2]⟩

theorem addDnsRecords_zones (f i : Str) {st : GenSt} (hc : Clean st) :
    Clean (addDnsRecords st f i)
      ∧ (addDnsRecords st f i).zones = emitKeyStep st.zones (f, i) := by
  unfold addDnsRecords emitKeyStep
  rw [if_neg (by simp [hc.2])]
  cases getTld f with
  | none => exact ⟨hc, rfl⟩
  | some tld =>
    by_cases hte : tld.isEmpty
    · simp only [if_pos hte]
      exact ⟨hc, trivial⟩
    · simp only [if_neg hte]
      by_cases hmem : tld ∈ st.zones
      · simp only [if_pos hmem]
        have h1 := runOp_zones (Op.aRecord tld (stripTldSuffix f tld) i) hc
        have h2 := addPtrRecord_zones f i h1.1
        refine ⟨h2.1, ?_⟩
        rw [h2.2, h1.2]
      · simp only [if_neg hmem]
        have h0 := createForwardZoneG_zones tld hc
        have h1 := runOp_zones (Op.aRecord tld (stripTldSuffix f tld) i) h0.1
        have h2 := addPtrRecord_zones f i h1.1
        refine ⟨h2.1, ?_⟩
        rw [h2.2, h1.2, h0.2]

theorem emitHostRecords_zones (entries : List (Str × Str)) {st : GenSt} (hc : Clean st) :
    Clean (emitHostRecords st entries)
      ∧ (emitHostRecords st entries).zones = emitKeysAcc st.zones entries := by
  induction entries generalizing st with
  | nil => exact ⟨hc, rfl⟩
  | cons p rest ih =>
    obtain ⟨f, i⟩ := p
    have h1 := addDnsRecords_zones f i hc
    have h2 := ih h1.1
    refine ⟨h2.1, ?_⟩
    show (emitHostRecords (addDnsRecords st f i) rest).zones = _
    rw [h2.2, h1.2]
    rfl

theorem mem_insert_absent {k x : Str} (zs : List Str) :
    k ∈ (if x ∈ zs then zs else zs ++ [x]) ↔ k ∈ zs ∨ k = x := by
  by_cases hx : x ∈ zs
  · simp only [if_pos hx]
    constructor
    · exact Or.inl
    · rintro (h | rfl)
      · exact h
      · exact hx
  · simp [if_neg hx, List.mem_append]

theorem mem_emitKeyStep (k : Str) (zs : List Str) (p : Str × Str) :
    k ∈ emitKeyStep zs p ↔ k ∈ zs ∨ k ∈ refKeys [p] := by
  unfold emitKeyStep
  cases hgt : getTld p.1 with
  | none => simp [refKeys, hgt]
  | some tld =>
    by_cases hte : tld.isEmpty
    · simp [refKeys, hgt, hte]
    · simp only [if_neg hte]
      rcases hsp : splitOnChar '.' p.2 with _ | ⟨a, _ | ⟨b, _ | ⟨c, _ | ⟨d, _ | ⟨e, t2⟩⟩⟩⟩⟩ <;>
        simp only [refKeys, hgt, hte, hsp, if_neg] <;>
        [skip; skip; skip; skip;
         (rw [mem_insert_absent, mem_insert_absent]; simp [or_assoc]); skip] <;>
        (rw [mem_insert_absent]; simp)

theorem mem_emitKeysAcc (k : Str) :
    ∀ (entries : List (Str × Str)) (zs : List Str),
      k ∈ emitKeysAcc zs entries ↔ k ∈ zs ∨ k ∈ refKeys entries := by
  intro entries
  induction entries with
  | nil => intro zs; simp [emitKeysAcc, refKeys]
  | cons p rest ih =>
    intro zs
    rw [show emitKeysAcc zs (p :: rest) = emitKeysAcc (emitKeyStep zs p) rest from rfl,
        ih, mem_emitKeyStep]
    have hsplit : k ∈ refKeys (p :: rest) ↔ k ∈ refKeys [p] ∨ k ∈ refKeys rest := by
      cases hgt : getTld p.1 with
      | none => simp [refKeys, hgt]
      | some tld =>
        by_cases hte : tld.isEmpty
        · simp [refKeys, hgt, hte]
        · rcases hsp : splitOnChar '.' p.2 with
            _ | ⟨a, _ | ⟨b, _ | ⟨c, _ | ⟨d, _ | ⟨e, t2⟩⟩⟩⟩⟩ <;>
            simp [refKeys, hgt, hte, hsp, or_assoc]
    rw [hsplit]
    tauto

/-! ## Claim C1: at-most-one zone creation per key -/

/-- C1 (amended): in every non-failing generation run, forward TLD keys and
reverse first-octet keys share one `created_zones` namespace, so each key is
created at most once in total (at most one forward or reverse header); every
forward header comes with exactly one named.conf stanza and exactly one
root-zone NS delegation, written at the key's first creation and never
repeated, and every reverse header with exactly one stanza.  For every host
table and infrastructure set, the record-emission phase creates exactly one
zone per distinct key it references (first-come kind wins); delegation maps
alone create none. -/
theorem claim_C1_amended :
    (∀ (cfg : DNSConfigModel) (fs : FsState) (inp : GenInput) (opts : DNSGenerationOptions),
      (∀ k, hdrCount k (generateDnsConfig cfg fs inp opts none).2 ≤ 1) ∧
      (∀ t, (generateDnsConfig cfg fs inp opts none).2.count (Op.rootZoneNsDelegation t)
          = (generateDnsConfig cfg fs inp opts none).2.count (Op.fwdZoneHeader t)) ∧
      (∀ t, (generateDnsConfig cfg fs inp opts none).2.count (Op.namedConfFwdStanza t)
          = (generateDnsConfig cfg fs inp opts none).2.count (Op.fwdZoneHeader t)) ∧
      (∀ t, (generateDnsConfig cfg fs inp opts none).2.count (Op.namedConfRevStanza t)
          = (generateDnsConfig cfg fs inp opts none).2.count (Op.revZoneHeader t))) ∧
    (∀ (entries : List (Str × Str)) (st : GenSt),
      Clean st → ZoneInv st → st.zones = [] →
      ∀ k, hdrCount k (emitHostRecords st entries).ops
        = if k ∈ refKeys entries then 1 else 0) := by
  constructor
  · intro cfg fs inp opts
    have hi := (inv_pipeline cfg fs inp opts).2
    by_cases hr : (!opts.forceOverwrite && fs.namedConfExists) = true
    · have hg : generateDnsConfig cfg fs inp opts none = (refuseResult cfg, []) := by
        simp [generateDnsConfig, hr]
      rw [hg]
      exact ⟨fun k => by simp [hdrCount], fun t => by simp, fun t => by simp,
        fun t => by simp⟩
    · have hg : (generateDnsConfig cfg fs inp opts none).2
          = (generatePipeline cfg fs inp opts none).ops := by
        simp only [generateDnsConfig, hr, Bool.false_eq_true, if_false]
        split <;> rfl
      rw [hg]
      exact ⟨fun k => by rw [hi.1 k]; split <;> omega, hi.2.1, hi.2.2.1, hi.2.2.2⟩
  · intro entries st hc hzi hz k
    have h1 := emitHostRecords_zones entries hc
    have h2 := (inv_emitHostRecords entries ⟨hc, hzi⟩).2
    rw [h2.1 k, h1.2, hz]
    by_cases hk : k ∈ refKeys entries
    · rw [if_pos ((mem_emitKeysAcc k entries []).mpr (Or.inr hk)), if_pos hk]
    · rw [if_neg (fun hmem =>
          hk (((mem_emitKeysAcc k entries []).mp hmem).resolve_left (by simp))),
        if_neg hk]

/-- C1 counterexample: the claim's per-kind wording fails.  With a custom
host `10.0.0.1 a.10`, the numeric TLD `10` creates a forward zone, and octet
`10`, although referenced (its PTR record is written), never gets a reverse
zone: the forward and reverse key namespaces are shared. -/
theorem claim_C1_counterexample :
    (generateDnsConfig ⟨"d".toList, "h".toList, "n".toList, "z".toList⟩
        ⟨false, false, false, false⟩
        ⟨[], none, some ⟨"c".toList, ["10.0.0.1 a.10".toList]⟩, [], none, none⟩
        ⟨false, false⟩ none).2.count (Op.fwdZoneHeader "10".toList) = 1 ∧
    (generateDnsConfig ⟨"d".toList, "h".toList, "n".toList, "z".toList⟩
        ⟨false, false, false, false⟩
        ⟨[], none, some ⟨"c".toList, ["10.0.0.1 a.10".toList]⟩, [], none, none⟩
        ⟨false, false⟩ none).2.count
      (Op.ptrRecord "10".toList "1.0.0".toList "a.10".toList) = 1 ∧
    (generateDnsConfig ⟨"d".toList, "h".toList, "n".toList, "z".toList⟩
        ⟨false, false, false, false⟩
        ⟨[], none, some ⟨"c".toList, ["10.0.0.1 a.10".toList]⟩, [], none, none⟩
        ⟨false, false⟩ none).2.count (Op.revZoneHeader "10".toList) = 0 := by
  set_option maxRecDepth 16000 in decide

/-- C1 witness: a single referenced key gets exactly one creation header. -/
theorem claim_C1_witness :
    hdrCount "biz".toList (emitHostRecords ⟨none, false, [], [], 0, 0, [], [], []⟩
        [("shop.biz".toList, "10.0.0.5".toList)]).ops
      = if "biz".toList ∈ refKeys [("shop.biz".toList, "10.0.0.5".toList)] then 1 else 0 :=
  claim_C1_amended.2 [("shop.biz".toList, "10.0.0.5".toList)]
    ⟨none, false, [], [], 0, 0, [], [], []⟩ ⟨rfl, rfl⟩
    ⟨fun k => by simp [hdrCount], fun t => by simp, fun t => by simp, fun t => by simp⟩
    rfl "biz".toList

/-! ## Machinery for the delegation-exclusion claim -/

theorem runOp_hosts (o : Op) (st : GenSt) : (runOp o st).hosts = st.hosts := by
  unfold runOp
  split
  · rfl
  · split <;> rfl

theorem runOp_zones_eq (o : Op) (st : GenSt) : (runOp o st).zones = st.zones := by
  unfold runOp
  split
  · rfl
  · split <;> rfl

theorem mem_runOp_ops {o2 : Op} {st : GenSt} (o : Op) (h : o ∈ (runOp o2 st).ops) :
    o ∈ st.ops ∨ o = o2 := by
  unfold runOp at h
  split at h
  · exact Or.inl h
  · split at h
    · exact Or.inl h
    · rcases List.mem_append.mp h with h1 | h1
      · exact Or.inl h1
      · exact Or.inr (List.mem_singleton.mp h1)
    · rcases List.mem_append.mp h with h1 | h1
      · exact Or.inl h1
      · exact Or.inr (List.mem_singleton.mp h1)

theorem countHostsPhase_ops (st : GenSt) : (countHostsPhase st).ops = st.ops := by
  unfold countHostsPhase pureG
  split <;> rfl

theorem countHostsPhase_hosts (st : GenSt) : (countHostsPhase st).hosts = st.hosts := by
  unfold countHostsPhase pureG
  split <;> rfl

theorem alGet_none_iff {α : Type} (m : List (Str × α)) (k : Str) :
    alGet m k = none ↔ k ∉ m.map Prod.fst := by
  induction m with
  | nil => simp [alGet]
  | cons p rest ih =>
    obtain ⟨k0, v0⟩ := p
    simp only [alGet, List.map_cons, List.mem_cons]
    by_cases hk : k0 = k
    · simp only [if_pos hk]
      constructor
      · intro h
        exact absurd h (by simp)
      · intro h
        exact absurd (Or.inl hk.symm) h
    · simp only [if_neg hk, ih]
      constructor
      · intro h
        rintro (h1 | h1)
        · exact hk h1.symm
        · exact h h1
      · intro h h1
        exact h (Or.inr h1)

theorem alGet_isSome_of_mem {α : Type} {m : List (Str × α)} {k : Str} {v : α}
    (h : (k, v) ∈ m) : (alGet m k).isSome = true := by
  cases hg : alGet m k with
  | some w => rfl
  | none =>
    have : k ∉ m.map Prod.fst := (alGet_none_iff m k).mp hg
    exact absurd (List.mem_map.mpr ⟨(k, v), h, rfl⟩) this

theorem foldl_pres {σ α β : Type} (g : σ → β) (step : σ → α → σ) (l : List α)
    (h : ∀ s a, a ∈ l → g (step s a) = g s) :
    ∀ s, g (List.foldl step s l) = g s := by
  induction l with
  | nil => intro s; rfl
  | cons a t ih =>
    intro s
    rw [List.foldl_cons, ih (fun s b hb => h s b (List.mem_cons_of_mem a hb)),
      h s a (List.mem_cons_self a t)]

theorem joinChar_single (c : Char) (x : Str) : joinChar c [x] = x := by
  simp [joinChar, List.intercalate]

theorem joinChar_cons_cons (c : Char) (a b : Str) (t : List Str) :
    joinChar c (a :: b :: t) = a ++ c :: joinChar c (b :: t) := by
  simp [joinChar, List.intercalate, List.intersperse]

theorem joinChar_cons_ne_nil (c : Char) (a : Str) {l : List Str} (h : l ≠ []) :
    joinChar c (a :: l) = a ++ c :: joinChar c l := by
  cases l with
  | nil => exact absurd rfl h
  | cons b t => exact joinChar_cons_cons c a b t

theorem splitOnCharGo_ne_nil (sep : Char) (s : Str) :
    ∀ acc, splitOnCharGo sep acc s ≠ [] := by
  induction s with
  | nil => intro acc; simp [splitOnCharGo]
  | cons c cs ih =>
    intro acc
    unfold splitOnCharGo
    split
    · simp
    · exact ih (c :: acc)

theorem joinChar_splitOnCharGo (sep : Char) (s : Str) :
    ∀ acc, joinChar sep (splitOnCharGo sep acc s) = acc.reverse ++ s := by
  induction s with
  | nil => intro acc; simp [splitOnCharGo, joinChar_single]
  | cons c cs ih =>
    intro acc
    unfold splitOnCharGo
    split
    · rename_i hc
      subst hc
      rw [joinChar_cons_ne_nil _ _ (splitOnCharGo_ne_nil c cs []), ih []]
      simp
    · rw [ih (c :: acc)]
      simp

theorem joinChar_splitOnChar (sep : Char) (s : Str) :
    joinChar sep (splitOnChar sep s) = s := by
  simpa using joinChar_splitOnCharGo sep s []

theorem joinChar_append_last (c : Char) (t : Str) :
    ∀ (xs : List Str), xs ≠ [] → joinChar c (xs ++ [t]) = joinChar c xs ++ c :: t := by
  intro xs
  induction xs with
  | nil => intro h; exact absurd rfl h
  | cons a l ih =>
    intro _
    cases l with
    | nil => simp [joinChar_cons_cons, joinChar_single]
    | cons b t2 =>
      rw [List.cons_append, joinChar_cons_ne_nil c a (by simp),
        joinChar_cons_cons c a b t2, ih (by simp)]
      simp

theorem getTld_reconstruct {f t : Str} (h : getTld f = some t) :
    f = stripTldSuffix f t ++ '.' :: t := by
  rcases hr : (splitOnChar '.' f).reverse with _ | ⟨t0, _ | ⟨s0, rest⟩⟩ <;>
    rw [getTld, hr] at h
  · exact absurd h (by simp)
  · exact absurd h (by simp)
  · have ht0 : t0 = t := by simpa using h
    subst ht0
    have hsp : splitOnChar '.' f = (rest.reverse ++ [s0]) ++ [t0] := by
      have := congrArg List.reverse hr
      simpa [List.reverse_cons, List.append_assoc] using this
    have hf : f = joinChar '.' ((rest.reverse ++ [s0]) ++ [t0]) := by
      rw [← hsp, joinChar_splitOnChar]
    have hjoin : f = joinChar '.' (rest.reverse ++ [s0]) ++ '.' :: t0 := by
      rw [hf, joinChar_append_last '.' t0 _ (by simp)]
    have hlen : f.length - (t0.length + 1) = (joinChar '.' (rest.reverse ++ [s0])).length := by
      rw [hjoin]
      simp
    rw [stripTldSuffix, hlen, hjoin, List.take_left]

theorem mem_infraPairs {p : Str × Str} {m : List (Str × List Str)}
    (h : p ∈ infraPairs m) : p.1 ∈ m.map Prod.fst := by
  unfold infraPairs at h
  rw [List.mem_flatten] at h
  obtain ⟨l, hl, hp⟩ := h
  rw [List.mem_map] at hl
  obtain ⟨q, hq, rfl⟩ := hl
  rw [List.mem_map] at hp
  obtain ⟨ip, _, rfl⟩ := hp
  exact List.mem_map.mpr ⟨q, hq, rfl⟩

theorem processHostLine_hosts_delegated {fwdMap revMap : List (Str × List Str)}
    {f : Str} (hdel : fwdDelegated fwdMap f = true)
    (isMx quiet : Bool) (st : CollectSt) (rawLine : Str) :
    alGet (processHostLine fwdMap revMap isMx quiet st rawLine).hosts f
      = alGet st.hosts f := by
  simp only [fwdDelegated, Bool.and_eq_true] at hdel
  obtain ⟨⟨htld, hsld⟩, hsome⟩ := hdel
  simp only [processHostLine]
  split
  · rfl
  split
  · rfl
  split
  · rename_i ip f2 rest heq
    split
    · rfl
    · rename_i htruthy
      split
      · rfl
      · rename_i hfwd
        by_cases hf2 : f2 = f
        · subst hf2
          rw [domainOf] at hsome
          exact absurd hsome hfwd
        · split
          · rfl
          · split <;> exact alGet_alSet_ne st.hosts _ hf2
  · rfl

theorem addHostsFile_hosts_delegated {fwdMap revMap : List (Str × List Str)}
    {f : Str} (hdel : fwdDelegated fwdMap f = true)
    (isMx quiet : Bool) (st : CollectSt) (lines : List Str) :
    alGet (addHostsFile fwdMap revMap isMx quiet st lines).hosts f
      = alGet st.hosts f := by
  unfold addHostsFile
  exact foldl_pres (fun c => alGet c.hosts f) _ lines
    (fun s a _ => processHostLine_hosts_delegated hdel isMx quiet s a) st

theorem collectFileG_hosts_delegated {fwdMap revMap : List (Str × List Str)}
    {f : Str} (hdel : fwdDelegated fwdMap f = true)
    (isMx quiet : Bool) (fl : SourceFile) (st : GenSt) :
    alGet (collectFileG fwdMap revMap isMx quiet fl st).hosts f
      = alGet st.hosts f := by
  simp only [collectFileG]
  split
  · rw [runOp_hosts]
  · show alGet (addHostsFile fwdMap revMap isMx quiet _ fl.lines).hosts f = _
    rw [addHostsFile_hosts_delegated hdel]
    show alGet (runOp (Op.readFile fl.path) st).hosts f = _
    rw [runOp_hosts]

theorem mergeNsEntry_hosts_ne {f : Str} {p : Str × Str} (hne : p.1 ≠ f)
    (quiet : Bool) (st : GenSt) :
    alGet (mergeNsEntry quiet st p).hosts f = alGet st.hosts f := by
  simp only [mergeNsEntry]
  split
  · rfl
  · show alGet (alSet _ p.1 p.2) f = _
    rw [alGet_alSet_ne _ _ hne]
    split
    · split
      · split <;> rfl
      · rfl
    · rfl

theorem mergeNsPhase_hosts {nsDict : List (Str × Str)} {f : Str}
    (hns : ∀ p ∈ nsDict, p.1 ≠ f) (quiet : Bool) (st : GenSt) :
    alGet (mergeNsPhase nsDict quiet st).hosts f = alGet st.hosts f := by
  unfold mergeNsPhase
  exact foldl_pres (fun s : GenSt => alGet s.hosts f) _ nsDict
    (fun s p hp => mergeNsEntry_hosts_ne (hns p hp) quiet s) st

theorem collectionPhase_hosts_delegated {inp : GenInput} {f : Str}
    (hdel : fwdDelegated (fwdDictOf inp) f = true)
    (hns : ∀ p ∈ nsDictOf inp, p.1 ≠ f) (quiet : Bool) (st : GenSt) :
    alGet (collectionPhase inp quiet st).hosts f = alGet st.hosts f := by
  have hfold : ∀ (l : List SourceFile) (st2 : GenSt),
      alGet (l.foldl
        (fun st f2 => collectFileG (fwdDictOf inp) (revDictOf inp) false quiet f2 st)
        st2).hosts f = alGet st2.hosts f :=
    fun l st2 => foldl_pres (fun s : GenSt => alGet s.hosts f) _ l
      (fun s a _ => collectFileG_hosts_delegated hdel false quiet a s) st2
  simp only [collectionPhase]
  rw [mergeNsPhase_hosts hns]
  cases inp.mailFile <;> simp only [] <;>
    [skip; rw [collectFileG_hosts_delegated hdel]] <;>
  · rw [hfold]
    cases inp.customFile <;> simp only [] <;>
      [skip; rw [collectFileG_hosts_delegated hdel]] <;>
    · cases inp.backboneFile <;> simp only [] <;>
        [skip; rw [collectFileG_hosts_delegated hdel]] <;>
      · rw [hfold]

theorem prepPhase_hosts (cfg : DNSConfigModel) (fs : FsState) (inp : GenInput)
    (force : Bool) (budget : Option Nat) :
    (prepPhase cfg fs inp force budget).hosts = [] := by
  rcases hdt : inp.delegationsText with _ | txt <;>
    simp [prepPhase, hdt, runOp_hosts, apply_ite GenSt.hosts]

theorem preEmit_hosts_delegated {cfg : DNSConfigModel} {fs : FsState} {inp : GenInput}
    {f : Str} (hdel : fwdDelegated (fwdDictOf inp) f = true)
    (hns : ∀ p ∈ nsDictOf inp, p.1 ≠ f) (quiet force : Bool) (budget : Option Nat) :
    alGet (collectionPhase inp quiet (prepPhase cfg fs inp force budget)).hosts f
      = none := by
  rw [collectionPhase_hosts_delegated hdel hns, prepPhase_hosts]
  rfl

theorem mem_createForwardZoneG_ops {o : Op} {tld : Str} {st : GenSt}
    (h : o ∈ (createForwardZoneG tld st).ops) :
    o ∈ st.ops ∨ o = .fwdZoneHeader tld ∨ o = .namedConfFwdStanza tld
      ∨ o = .rootZoneNsDelegation tld := by
  simp only [createForwardZoneG, pureG] at h
  have h3 : o ∈ (runOp (Op.rootZoneNsDelegation tld) (runOp (Op.namedConfFwdStanza tld)
      (runOp (Op.fwdZoneHeader tld) st))).ops := by
    split at h <;> exact h
  rcases mem_runOp_ops o h3 with h4 | h4
  · rcases mem_runOp_ops o h4 with h5 | h5
    · rcases mem_runOp_ops o h5 with h6 | h6
      · exact Or.inl h6
      · exact Or.inr (Or.inl h6)
    · exact Or.inr (Or.inr (Or.inl h5))
  · exact Or.inr (Or.inr (Or.inr h4))

theorem mem_createReverseZoneG_ops {o : Op} {oct : Str} {st : GenSt}
    (h : o ∈ (createReverseZoneG oct st).ops) :
    o ∈ st.ops ∨ o = .revZoneHeader oct ∨ o = .namedConfRevStanza oct := by
  simp only [createReverseZoneG, pureG] at h
  have h2 : o ∈ (runOp (Op.namedConfRevStanza oct)
      (runOp (Op.revZoneHeader oct) st)).ops := by
    split at h <;> exact h
  rcases mem_runOp_ops o h2 with h3 | h3
  · rcases mem_runOp_ops o h3 with h4 | h4
    · exact Or.inl h4
    · exact Or.inr (Or.inl h4)
  · exact Or.inr (Or.inr h3)

theorem mem_addPtrRecord_aRecord {t o i f2 i2 : Str} {st : GenSt}
    (h : Op.aRecord t o i ∈ (addPtrRecord st f2 i2).ops) :
    Op.aRecord t o i ∈ st.ops := by
  simp only [addPtrRecord] at h
  split at h
  · rcases mem_runOp_ops _ h with h1 | h1
    · split at h1
      · exact h1
      · rcases mem_createReverseZoneG_ops h1 with h2 | h2 | h2
        · exact h2
        · exact absurd h2 (by simp)
        · exact absurd h2 (by simp)
    · exact absurd h1 (by simp)
  · exact h

theorem mem_addDnsRecords_aRecord {t o i f2 i2 : Str} {st : GenSt}
    (h : Op.aRecord t o i ∈ (addDnsRecords st f2 i2).ops) :
    Op.aRecord t o i ∈ st.ops
      ∨ (getTld f2 = some t ∧ o = stripTldSuffix f2 t ∧ i = i2) := by
  simp only [addDnsRecords] at h
  split at h
  · exact Or.inl h
  · split at h
    · exact Or.inl h
    · rename_i tld hg
      split at h
      · exact Or.inl h
      · rcases mem_runOp_ops _ (mem_addPtrRecord_aRecord h) with h1 | h1
        · split at h1
          · exact Or.inl h1
          · rcases mem_createForwardZoneG_ops h1 with h2 | h2 | h2 | h2
            · exact Or.inl h2
            · exact absurd h2 (by simp)
            · exact absurd h2 (by simp)
            · exact absurd h2 (by simp)
        · simp only [Op.aRecord.injEq] at h1
          obtain ⟨rfl, rfl, rfl⟩ := h1
          exact Or.inr ⟨hg, rfl, rfl⟩

theorem mem_addPtrRecord_ptr {a r fq f2 i2 : Str} {st : GenSt}
    (h : Op.ptrRecord a r fq ∈ (addPtrRecord st f2 i2).ops) :
    Op.ptrRecord a r fq ∈ st.ops
      ∨ (fq = f2 ∧ ∃ q2 q3 q4, splitOnChar '.' i2 = [a, q2, q3, q4]
          ∧ r = q4 ++ '.' :: (q3 ++ '.' :: q2)) := by
  simp only [addPtrRecord] at h
  split at h
  · rename_i q1 q2 q3 q4 heq
    rcases mem_runOp_ops _ h with h1 | h1
    · split at h1
      · exact Or.inl h1
      · rcases mem_createReverseZoneG_ops h1 with h2 | h2 | h2
        · exact Or.inl h2
        · exact absurd h2 (by simp)
        · exact absurd h2 (by simp)
    · simp only [Op.ptrRecord.injEq] at h1
      obtain ⟨rfl, rfl, rfl⟩ := h1
      exact Or.inr ⟨rfl, q2, q3, q4, heq, rfl⟩
  · exact Or.inl h

theorem mem_addDnsRecords_ptr {a r fq f2 i2 : Str} {st : GenSt}
    (h : Op.ptrRecord a r fq ∈ (addDnsRecords st f2 i2).ops) :
    Op.ptrRecord a r fq ∈ st.ops
      ∨ (fq = f2 ∧ ∃ q2 q3 q4, splitOnChar '.' i2 = [a, q2, q3, q4]
          ∧ r = q4 ++ '.' :: (q3 ++ '.' :: q2)) := by
  simp only [addDnsRecords] at h
  split at h
  · exact Or.inl h
  · split at h
    · exact Or.inl h
    · split at h
      · exact Or.inl h
      · rcases mem_addPtrRecord_ptr h with h1 | h1
        · rcases mem_runOp_ops _ h1 with h2 | h2
          · split at h2
            · exact Or.inl h2
            · rcases mem_createForwardZoneG_ops h2 with h3 | h3 | h3 | h3
              · exact Or.inl h3
              · exact absurd h3 (by simp)
              · exact absurd h3 (by simp)
              · exact absurd h3 (by simp)
          · exact absurd h2 (by simp)
        · exact Or.inr h1

theorem mem_emitHostRecords_aRecord {t o i : Str} :
    ∀ (entries : List (Str × Str)) (st : GenSt),
      Op.aRecord t o i ∈ (emitHostRecords st entries).ops →
      Op.aRecord t o i ∈ st.ops
        ∨ ∃ g, (g, i) ∈ entries ∧ getTld g = some t ∧ o = stripTldSuffix g t := by
  intro entries
  induction entries with
  | nil => intro st h; exact Or.inl h
  | cons p rest ih =>
    intro st h
    obtain ⟨f2, i2⟩ := p
    rcases ih (addDnsRecords st f2 i2) h with h1 | ⟨g, hm, hg, hs⟩
    · rcases mem_addDnsRecords_aRecord h1 with h2 | ⟨hg, hs, rfl⟩
      · exact Or.inl h2
      · exact Or.inr ⟨f2, List.mem_cons_self _ _, hg, hs⟩
    · exact Or.inr ⟨g, List.mem_cons_of_mem _ hm, hg, hs⟩

theorem mem_emitHostRecords_ptr {a r fq : Str} :
    ∀ (entries : List (Str × Str)) (st : GenSt),
      Op.ptrRecord a r fq ∈ (emitHostRecords st entries).ops →
      Op.ptrRecord a r fq ∈ st.ops
        ∨ ∃ j, (fq, j) ∈ entries ∧ ∃ q2 q3 q4, splitOnChar '.' j = [a, q2, q3, q4]
            ∧ r = q4 ++ '.' :: (q3 ++ '.' :: q2) := by
  intro entries
  induction entries with
  | nil => intro st h; exact Or.inl h
  | cons p rest ih =>
    intro st h
    obtain ⟨f2, i2⟩ := p
    rcases ih (addDnsRecords st f2 i2) h with h1 | ⟨j, hm, hsh⟩
    · rcases mem_addDnsRecords_ptr h1 with h2 | ⟨rfl, hsh⟩
      · exact Or.inl h2
      · exact Or.inr ⟨i2, List.mem_cons_self _ _, hsh⟩
    · exact Or.inr ⟨j, List.mem_cons_of_mem _ hm, hsh⟩

theorem mem_foldl_runOp {α : Type} (g : α → Op) (l : List α) :
    ∀ (st : GenSt) (o : Op),
      o ∈ (l.foldl (fun st x => runOp (g x) st) st).ops →
      o ∈ st.ops ∨ ∃ x ∈ l, o = g x := by
  induction l with
  | nil => intro st o h; exact Or.inl h
  | cons a t ih =>
    intro st o h
    rcases ih (runOp (g a) st) o h with h1 | ⟨x, hx, hxe⟩
    · rcases mem_runOp_ops o h1 with h2 | h2
      · exact Or.inl h2
      · exact Or.inr ⟨a, List.mem_cons_self _ _, h2⟩
    · exact Or.inr ⟨x, List.mem_cons_of_mem _ hx, hxe⟩

theorem mem_foldl_ops {α : Type} (step : GenSt → α → GenSt) (P : Op → Prop)
    (hstep : ∀ (st : GenSt) (a : α) (o : Op), o ∈ (step st a).ops → o ∈ st.ops ∨ P o) :
    ∀ (l : List α) (st : GenSt) (o : Op),
      o ∈ (l.foldl step st).ops → o ∈ st.ops ∨ P o := by
  intro l
  induction l with
  | nil => intro st o h; exact Or.inl h
  | cons a t ih =>
    intro st o h
    rcases ih (step st a) o h with h1 | h1
    · exact hstep st a o h1
    · exact Or.inr h1

theorem mem_addFwdNsRecords_ops {L : List (Str × List Str)} {st : GenSt} {o : Op}
    (h : o ∈ (addFwdNsRecords L st).ops) :
    o ∈ st.ops ∨ ∃ t n ns, o = Op.nsRecordFwd t n ns := by
  refine mem_foldl_ops _ (fun o => ∃ t n ns, o = Op.nsRecordFwd t n ns) ?_ L st o h
  intro st2 p o2 h2
  split at h2
  · exact Or.inl h2
  · split at h2
    · exact Or.inl h2
    · rename_i tld hg
      split at h2
      · exact Or.inl h2
      · split at h2
        · rcases mem_foldl_runOp _ p.2 st2 o2 h2 with h3 | ⟨ns, _, hns⟩
          · exact Or.inl h3
          · exact Or.inr ⟨tld, stripTldSuffix p.1 tld, ns, hns⟩
        · exact Or.inl h2

theorem mem_addRevNsRecords_ops {L : List (Str × List Str)} {st : GenSt} {o : Op}
    (h : o ∈ (addRevNsRecords L st).ops) :
    o ∈ st.ops ∨ ∃ t n ns, o = Op.nsRecordRev t n ns := by
  refine mem_foldl_ops _ (fun o => ∃ t n ns, o = Op.nsRecordRev t n ns) ?_ L st o h
  intro st2 p o2 h2
  split at h2
  · exact Or.inl h2
  · split at h2
    · rename_i p1 p2 p3 tail heq
      split at h2
      · rcases mem_foldl_runOp _ p.2 st2 o2 h2 with h3 | ⟨ns, _, hns⟩
        · exact Or.inl h3
        · exact Or.inr ⟨p1, p3 ++ '.' :: p2, ns, hns⟩
      · exact Or.inl h2
    · exact Or.inl h2

theorem mem_addMxRecords_ops {L : List (Str × List Str)} {st : GenSt} {o : Op}
    (h : o ∈ (addMxRecords L st).ops) :
    o ∈ st.ops ∨ ∃ t n s, o = Op.mxRecord t n s := by
  refine mem_foldl_ops _ (fun o => ∃ t n s, o = Op.mxRecord t n s) ?_ L st o h
  intro st2 p o2 h2
  split at h2
  · exact Or.inl h2
  · split at h2
    · exact Or.inl h2
    · rename_i tld hg
      split at h2
      · exact Or.inl h2
      · split at h2
        · rcases mem_foldl_runOp _ p.2 st2 o2 h2 with h3 | ⟨mx, _, hmx⟩
          · exact Or.inl h3
          · exact Or.inr ⟨tld, stripTldSuffix p.1 tld, mx, hmx⟩
        · exact Or.inl h2

theorem runOp_ops_subset {P : Op → Prop} (o2 : Op) (st : GenSt)
    (hst : ∀ o ∈ st.ops, P o) (ho2 : P o2) : ∀ o ∈ (runOp o2 st).ops, P o :=
  fun o ho => (mem_runOp_ops o ho).elim (hst o) (fun he => he ▸ ho2)

/-- The operations recorded before the emission phase: file removals, tree
removals, directory creations and file reads only. -/
def PrepOp (o : Op) : Prop :=
  (∃ p, o = Op.removeFile p) ∨ (∃ p, o = Op.rmtree p)
    ∨ (∃ p, o = Op.makedirs p) ∨ (∃ p, o = Op.readFile p)

theorem mem_prepPhase_ops (cfg : DNSConfigModel) (fs : FsState) (inp : GenInput)
    (force : Bool) (budget : Option Nat) :
    ∀ o ∈ (prepPhase cfg fs inp force budget).ops, PrepOp o := by
  have hIf : ∀ (b : Bool) (op : Op) (st : GenSt), (∀ o ∈ st.ops, PrepOp o) → PrepOp op →
      ∀ o ∈ (if b = true then runOp op st else st).ops, PrepOp o := by
    intro b op st hst hop o ho
    split at ho
    · exact runOp_ops_subset op st hst hop o ho
    · exact hst o ho
  have h0 : ∀ o ∈ (⟨budget, false, [], [], 0, 0, [], [], []⟩ : GenSt).ops, PrepOp o := by
    intro o ho
    simp at ho
  rcases hdt : inp.delegationsText with _ | txt <;> rw [prepPhase, hdt]
  · refine runOp_ops_subset _ _ ?_ (Or.inr (Or.inr (Or.inl ⟨_, rfl⟩)))
    refine runOp_ops_subset _ _ ?_ (Or.inr (Or.inr (Or.inl ⟨_, rfl⟩)))
    refine runOp_ops_subset _ _ ?_ (Or.inr (Or.inr (Or.inl ⟨_, rfl⟩)))
    refine runOp_ops_subset _ _ ?_ (Or.inr (Or.inr (Or.inl ⟨_, rfl⟩)))
    intro o ho
    split at ho
    · exact hIf _ _ _ (hIf _ _ _ (hIf _ _ _ (hIf _ _ _ h0 (Or.inl ⟨_, rfl⟩))
        (Or.inl ⟨_, rfl⟩)) (Or.inr (Or.inl ⟨_, rfl⟩))) (Or.inr (Or.inl ⟨_, rfl⟩)) o ho
    · exact h0 o ho
  · refine runOp_ops_subset _ _ ?_ (Or.inr (Or.inr (Or.inr ⟨_, rfl⟩)))
    refine runOp_ops_subset _ _ ?_ (Or.inr (Or.inr (Or.inl ⟨_, rfl⟩)))
    refine runOp_ops_subset _ _ ?_ (Or.inr (Or.inr (Or.inl ⟨_, rfl⟩)))
    refine runOp_ops_subset _ _ ?_ (Or.inr (Or.inr (Or.inl ⟨_, rfl⟩)))
    refine runOp_ops_subset _ _ ?_ (Or.inr (Or.inr (Or.inl ⟨_, rfl⟩)))
    intro o ho
    split at ho
    · exact hIf _ _ _ (hIf _ _ _ (hIf _ _ _ (hIf _ _ _ h0 (Or.inl ⟨_, rfl⟩))
        (Or.inl ⟨_, rfl⟩)) (Or.inr (Or.inl ⟨_, rfl⟩))) (Or.inr (Or.inl ⟨_, rfl⟩)) o ho
    · exact h0 o ho

theorem mergeNsEntry_ops (quiet : Bool) (st : GenSt) (p : Str × Str) :
    (mergeNsEntry quiet st p).ops = st.ops := by
  simp only [mergeNsEntry]
  split
  · rfl
  · show (match alGet st.hosts p.1 with
      | some oldIp => _ | none => _ : GenSt).ops = st.ops
    split
    · split
      · split <;> rfl
      · rfl
    · rfl

theorem mem_collectFileG_ops {fwdMap revMap : List (Str × List Str)}
    {isMx quiet : Bool} {fl : SourceFile} {st : GenSt} {o : Op}
    (h : o ∈ (collectFileG fwdMap revMap isMx quiet fl st).ops) :
    o ∈ st.ops ∨ ∃ p, o = Op.readFile p := by
  simp only [collectFileG] at h
  have h1 : o ∈ (runOp (Op.readFile fl.path) st).ops := by
    split at h <;> exact h
  rcases mem_runOp_ops o h1 with h2 | h2
  · exact Or.inl h2
  · exact Or.inr ⟨fl.path, h2⟩

theorem mergeNsPhase_ops (nsDict : List (Str × Str)) (quiet : Bool) (st : GenSt) :
    (mergeNsPhase nsDict quiet st).ops = st.ops := by
  unfold mergeNsPhase
  exact foldl_pres GenSt.ops (mergeNsEntry quiet) nsDict
    (fun s p _ => mergeNsEntry_ops quiet s p) st

theorem mem_collectionPhase_ops {inp : GenInput} {quiet : Bool} {st : GenSt} {o : Op}
    (h : o ∈ (collectionPhase inp quiet st).ops) :
    o ∈ st.ops ∨ ∃ p, o = Op.readFile p := by
  have hfold : ∀ (l : List SourceFile) (st2 : GenSt),
      o ∈ (List.foldl
        (fun st f2 => collectFileG (fwdDictOf inp) (revDictOf inp) false quiet f2 st)
        st2 l).ops → o ∈ st2.ops ∨ ∃ p, o = Op.readFile p :=
    fun l st2 h2 => mem_foldl_ops _ (fun o => ∃ p, o = Op.readFile p)
      (fun s a o2 ho2 => mem_collectFileG_ops ho2) l st2 o h2
  have hopt : ∀ (mf : Option SourceFile) (mx : Bool) (st2 : GenSt),
      o ∈ ((match mf with
            | some f => collectFileG (fwdDictOf inp) (revDictOf inp) mx quiet f st2
            | none => st2) : GenSt).ops → o ∈ st2.ops ∨ ∃ p, o = Op.readFile p := by
    intro mf mx st2 h2
    cases mf
    · exact Or.inl h2
    · exact mem_collectFileG_ops h2
  simp only [collectionPhase] at h
  rw [mergeNsPhase_ops] at h
  rcases hopt _ _ _ h with h | h1
  · rcases hfold _ _ h with h | h1
    · rcases hopt _ _ _ h with h | h1
      · rcases hopt _ _ _ h with h | h1
        · exact hfold _ _ h
        · exact Or.inr h1
      · exact Or.inr h1
    · exact Or.inr h1
  · exact Or.inr h1

theorem mem_infraHostnames_of_pairs {g j : Str}
    (hm : (g, j) ∈ infraPairs cachingNs ∨ (g, j) ∈ infraPairs toplevelNs
      ∨ (g, j) ∈ infraPairs rootNs) : g ∈ infraHostnames := by
  simp only [infraHostnames, List.map_append, List.mem_append]
  rcases hm with hm | hm | hm
  · exact Or.inl (Or.inl (mem_infraPairs hm))
  · exact Or.inl (Or.inr (mem_infraPairs hm))
  · exact Or.inr (mem_infraPairs hm)

theorem pipeline_aRecord_origin {cfg : DNSConfigModel} {fs : FsState} {inp : GenInput}
    {opts : DNSGenerationOptions} {budget : Option Nat} {t o i : Str}
    (h : Op.aRecord t o i ∈ (generatePipeline cfg fs inp opts budget).ops) :
    ∃ g, getTld g = some t ∧ o = stripTldSuffix g t ∧
      ((g, i) ∈ (collectionPhase inp opts.quietMode
          (prepPhase cfg fs inp opts.forceOverwrite budget)).hosts
        ∨ (g, i) ∈ infraPairs cachingNs ∨ (g, i) ∈ infraPairs toplevelNs
        ∨ (g, i) ∈ infraPairs rootNs) := by
  simp only [generatePipeline, emitPhase] at h
  rcases mem_runOp_ops _ h with h | h1
  swap
  · exact absurd h1 (by simp)
  rcases mem_addMxRecords_ops h with h | ⟨a, b, c, h1⟩
  swap
  · exact absurd h1 (by simp)
  rcases mem_addRevNsRecords_ops h with h | ⟨a, b, c, h1⟩
  swap
  · exact absurd h1 (by simp)
  rcases mem_addFwdNsRecords_ops h with h | ⟨a, b, c, h1⟩
  swap
  · exact absurd h1 (by simp)
  rcases mem_emitHostRecords_aRecord _ _ h with h | ⟨g, hm, hg, hs⟩
  swap
  · exact ⟨g, hg, hs, Or.inr (Or.inr (Or.inr hm))⟩
  rcases mem_emitHostRecords_aRecord _ _ h with h | ⟨g, hm, hg, hs⟩
  swap
  · exact ⟨g, hg, hs, Or.inr (Or.inr (Or.inl hm))⟩
  rcases mem_emitHostRecords_aRecord _ _ h with h | ⟨g, hm, hg, hs⟩
  swap
  · exact ⟨g, hg, hs, Or.inr (Or.inl hm)⟩
  rcases mem_emitHostRecords_aRecord _ _ h with h | ⟨g, hm, hg, hs⟩
  swap
  · rw [runOp_hosts, runOp_hosts, runOp_hosts, countHostsPhase_hosts] at hm
    exact ⟨g, hg, hs, Or.inl hm⟩
  rcases mem_runOp_ops _ h with h | h1
  swap
  · exact absurd h1 (by simp)
  rcases mem_runOp_ops _ h with h | h1
  swap
  · exact absurd h1 (by simp)
  rcases mem_runOp_ops _ h with h | h1
  swap
  · exact absurd h1 (by simp)
  rw [countHostsPhase_ops] at h
  rcases mem_collectionPhase_ops h with h | ⟨p, h1⟩
  swap
  · exact absurd h1 (by simp)
  rcases mem_prepPhase_ops cfg fs inp opts.forceOverwrite budget _ h with
    ⟨p, h1⟩ | ⟨p, h1⟩ | ⟨p, h1⟩ | ⟨p, h1⟩ <;> exact absurd h1 (by simp)

theorem pipeline_ptr_origin {cfg : DNSConfigModel} {fs : FsState} {inp : GenInput}
    {opts : DNSGenerationOptions} {budget : Option Nat} {a r fq : Str}
    (h : Op.ptrRecord a r fq ∈ (generatePipeline cfg fs inp opts budget).ops) :
    ∃ j, ((fq, j) ∈ (collectionPhase inp opts.quietMode
          (prepPhase cfg fs inp opts.forceOverwrite budget)).hosts
        ∨ (fq, j) ∈ infraPairs cachingNs ∨ (fq, j) ∈ infraPairs toplevelNs
        ∨ (fq, j) ∈ infraPairs rootNs)
      ∧ ∃ q2 q3 q4, splitOnChar '.' j = [a, q2, q3, q4]
          ∧ r = q4 ++ '.' :: (q3 ++ '.' :: q2) := by
  simp only [generatePipeline, emitPhase] at h
  rcases mem_runOp_ops _ h with h | h1
  swap
  · exact absurd h1 (by simp)
  rcases mem_addMxRecords_ops h with h | ⟨x, y, z, h1⟩
  swap
  · exact absurd h1 (by simp)
  rcases mem_addRevNsRecords_ops h with h | ⟨x, y, z, h1⟩
  swap
  · exact absurd h1 (by simp)
  rcases mem_addFwdNsRecords_ops h with h | ⟨x, y, z, h1⟩
  swap
  · exact absurd h1 (by simp)
  rcases mem_emitHostRecords_ptr _ _ h with h | ⟨j, hm, hsh⟩
  swap
  · exact ⟨j, Or.inr (Or.inr (Or.inr hm)), hsh⟩
  rcases mem_emitHostRecords_ptr _ _ h with h | ⟨j, hm, hsh⟩
  swap
  · exact ⟨j, Or.inr (Or.inr (Or.inl hm)), hsh⟩
  rcases mem_emitHostRecords_ptr _ _ h with h | ⟨j, hm, hsh⟩
  swap
  · exact ⟨j, Or.inr (Or.inl hm), hsh⟩
  rcases mem_emitHostRecords_ptr _ _ h with h | ⟨j, hm, hsh⟩
  swap
  · rw [runOp_hosts, runOp_hosts, runOp_hosts, countHostsPhase_hosts] at hm
    exact ⟨j, Or.inl hm, hsh⟩
  rcases mem_runOp_ops _ h with h | h1
  swap
  · exact absurd h1 (by simp)
  rcases mem_runOp_ops _ h with h | h1
  swap
  · exact absurd h1 (by simp)
  rcases mem_runOp_ops _ h with h | h1
  swap
  · exact absurd h1 (by simp)
  rw [countHostsPhase_ops] at h
  rcases mem_collectionPhase_ops h with h | ⟨p, h1⟩
  swap
  · exact absurd h1 (by simp)
  rcases mem_prepPhase_ops cfg fs inp opts.forceOverwrite budget _ h with
    ⟨p, h1⟩ | ⟨p, h1⟩ | ⟨p, h1⟩ | ⟨p, h1⟩ <;> exact absurd h1 (by simp)

theorem foldl_runOp_clean {α : Type} (g : α → Op) (l : List α) :
    ∀ {st : GenSt}, Clean st →
      Clean (l.foldl (fun st x => runOp (g x) st) st)
        ∧ (l.foldl (fun st x => runOp (g x) st) st).zones = st.zones
        ∧ (l.foldl (fun st x => runOp (g x) st) st).ops = st.ops ++ l.map g := by
  induction l with
  | nil => intro st hc; exact ⟨hc, rfl, by simp⟩
  | cons a tl ih =>
    intro st hc
    have h1 : Clean (runOp (g a) st) := by
      rw [runOp_clean (g a) hc.1 hc.2]
      exact ⟨hc.1, hc.2⟩
    obtain ⟨c2, z2, o2⟩ := ih h1
    refine ⟨c2, ?_, ?_⟩
    · show (tl.foldl _ (runOp (g a) st)).zones = st.zones
      rw [z2, runOp_zones_eq]
    · show (tl.foldl _ (runOp (g a) st)).ops = st.ops ++ (a :: tl).map g
      rw [o2, runOp_clean (g a) hc.1 hc.2]
      simp

theorem filterMap_nsFwdTarget_map_self (t n : Str) (l : List Str) :
    List.filterMap (nsFwdTarget t n) (l.map (fun ns => Op.nsRecordFwd t n ns)) = l := by
  induction l with
  | nil => rfl
  | cons a tl ih => simp [nsFwdTarget, ih]

theorem filterMap_nsFwdTarget_map_other {t n t2 n2 : Str} (hne : ¬(t2 = t ∧ n2 = n))
    (l : List Str) :
    List.filterMap (nsFwdTarget t n) (l.map (fun ns => Op.nsRecordFwd t2 n2 ns)) = [] := by
  induction l with
  | nil => rfl
  | cons a tl ih => simp [nsFwdTarget, hne, ih]

theorem stepFwdNs_self {st : GenSt} (hc : Clean st) {d : Str} {nss : List Str} {t : Str}
    (hg : getTld d = some t) (hte : t.isEmpty = false) (hz : t ∈ st.zones) :
    Clean (stepFwdNs st (d, nss)) ∧ (stepFwdNs st (d, nss)).zones = st.zones ∧
    (stepFwdNs st (d, nss)).ops
      = st.ops ++ nss.map (fun ns => Op.nsRecordFwd t (stripTldSuffix d t) ns) := by
  unfold stepFwdNs
  rw [if_neg (by simp [hc.2])]
  simp only [hg, hte, Bool.false_eq_true, if_false, hz, if_true]
  exact foldl_runOp_clean _ nss hc

theorem stepFwdNs_other {st : GenSt} (hc : Clean st) {d t : Str} (p : Str × List Str)
    (hne : p.1 ≠ d) (hg : getTld d = some t) :
    Clean (stepFwdNs st p) ∧ (stepFwdNs st p).zones = st.zones ∧
    List.filterMap (nsFwdTarget t (stripTldSuffix d t)) (stepFwdNs st p).ops
      = List.filterMap (nsFwdTarget t (stripTldSuffix d t)) st.ops := by
  unfold stepFwdNs
  rw [if_neg (by simp [hc.2])]
  cases hg2 : getTld p.1 with
  | none => exact ⟨hc, rfl, rfl⟩
  | some t2 =>
    by_cases hte2 : t2.isEmpty
    · simp only [if_pos hte2]
      exact ⟨hc, by simp, by simp⟩
    · simp only [if_neg hte2]
      by_cases hz2 : t2 ∈ st.zones
      · simp only [if_pos hz2]
        obtain ⟨c2, z2, o2⟩ :=
          foldl_runOp_clean (fun ns => Op.nsRecordFwd t2 (stripTldSuffix p.1 t2) ns) p.2 hc
        refine ⟨c2, z2, ?_⟩
        rw [o2, List.filterMap_append]
        have hvan : List.filterMap (nsFwdTarget t (stripTldSuffix d t))
            (p.2.map (fun ns => Op.nsRecordFwd t2 (stripTldSuffix p.1 t2) ns)) = [] := by
          apply filterMap_nsFwdTarget_map_other
          rintro ⟨rfl, hn⟩
          have e1 := getTld_reconstruct hg2
          have e2 := getTld_reconstruct hg
          exact hne (by rw [e1, hn, ← e2])
        rw [hvan, List.append_nil]
      · simp only [if_neg hz2]
        exact ⟨hc, by simp, by simp⟩

theorem addFwdNsRecords_eq (L : List (Str × List Str)) (st : GenSt) :
    addFwdNsRecords L st = L.foldl stepFwdNs st := rfl

theorem addFwdNsRecords_absent :
    ∀ (L : List (Str × List Str)) (st : GenSt) (d t : Str),
      Clean st → (∀ q ∈ L, q.1 ≠ d) → getTld d = some t →
      Clean (addFwdNsRecords L st) ∧
      List.filterMap (nsFwdTarget t (stripTldSuffix d t)) (addFwdNsRecords L st).ops
        = List.filterMap (nsFwdTarget t (stripTldSuffix d t)) st.ops := by
  intro L
  induction L with
  | nil => intro st d t hc _ _; exact ⟨hc, rfl⟩
  | cons p L2 ih =>
    intro st d t hc habs hg
    rw [addFwdNsRecords_eq, List.foldl_cons, ← addFwdNsRecords_eq]
    obtain ⟨c1, _, o1⟩ := stepFwdNs_other hc p (habs p (List.mem_cons_self _ _)) hg
    obtain ⟨c2, o2⟩ := ih (stepFwdNs st p) d t c1
      (fun q hq => habs q (List.mem_cons_of_mem _ hq)) hg
    exact ⟨c2, by rw [o2, o1]⟩

theorem addFwdNsRecords_exact :
    ∀ (L : List (Str × List Str)) (st : GenSt) (d : Str) (nss : List Str) (t : Str),
      Clean st → (L.map Prod.fst).Nodup → alGet L d = some nss →
      getTld d = some t → t.isEmpty = false → t ∈ st.zones →
      List.filterMap (nsFwdTarget t (stripTldSuffix d t)) (addFwdNsRecords L st).ops
        = List.filterMap (nsFwdTarget t (stripTldSuffix d t)) st.ops ++ nss := by
  intro L
  induction L with
  | nil =>
    intro st d nss t _ _ hget
    simp [alGet] at hget
  | cons p L2 ih =>
    intro st d nss t hc hnd hget hg hte hz
    rw [addFwdNsRecords_eq, List.foldl_cons, ← addFwdNsRecords_eq]
    obtain ⟨k, v⟩ := p
    rw [List.map_cons] at hnd
    obtain ⟨hknot, hndtail⟩ := List.nodup_cons.mp hnd
    by_cases hk : k = d
    · subst hk
      have hv : v = nss := by
        simp [alGet] at hget
        exact hget
      subst hv
      obtain ⟨c1, _, o1⟩ := stepFwdNs_self hc hg hte hz
      have habs : ∀ q ∈ L2, q.1 ≠ k :=
        fun q hq he => hknot (he ▸ List.mem_map.mpr ⟨q, hq, rfl⟩)
      rw [(addFwdNsRecords_absent L2 _ k t c1 habs hg).2, o1,
        List.filterMap_append, filterMap_nsFwdTarget_map_self]
    · obtain ⟨c1, z1, o1⟩ := stepFwdNs_other hc (k, v) hk hg
      have hget2 : alGet L2 d = some nss := by
        simpa [alGet, hk] using hget
      rw [ih _ d nss t c1 hndtail hget2 hg hte (z1 ▸ hz), o1]

theorem alSet_keys {α : Type} (m : List (Str × α)) (k : Str) (v : α) :
    (alSet m k v).map Prod.fst
      = if k ∈ m.map Prod.fst then m.map Prod.fst else m.map Prod.fst ++ [k] := by
  induction m with
  | nil =>
    show [k] = if k ∈ ([] : List Str) then _ else [] ++ [k]
    rw [if_neg (List.not_mem_nil k), List.nil_append]
  | cons p rest ih =>
    obtain ⟨k0, v0⟩ := p
    by_cases hk : k0 = k
    · subst hk
      simp only [alSet]
      rw [if_pos trivial]
      dsimp only [List.map_cons]
      rw [if_pos (List.mem_cons_self k0 (List.map Prod.fst rest))]
    · simp only [alSet]
      rw [if_neg hk]
      dsimp only [List.map_cons]
      rw [ih]
      by_cases hmem : k ∈ List.map Prod.fst rest
      · rw [if_pos hmem, if_pos (List.mem_cons_of_mem k0 hmem)]
      · rw [if_neg hmem,
          if_neg (by simp only [List.mem_cons, not_or]; exact ⟨Ne.symm hk, hmem⟩)]
        rfl

theorem alOfList_keys_nodup {α : Type} (es : List (Str × α)) :
    ((alOfList es).map Prod.fst).Nodup := by
  suffices h : ∀ m : List (Str × α), (m.map Prod.fst).Nodup →
      (((es.foldl (fun m p => alSet m p.1 p.2) m)).map Prod.fst).Nodup by
    exact h [] (by simp)
  induction es with
  | nil => intro m hm; exact hm
  | cons p rest ih =>
    intro m hm
    rw [List.foldl_cons]
    apply ih
    rw [alSet_keys]
    split
    · exact hm
    · rename_i hmem
      refine List.Nodup.append hm (List.nodup_singleton _) ?_
      intro x hx hx2
      rw [List.mem_singleton] at hx2
      subst hx2
      exact hmem hx

theorem splitOnCharGo_pieces {sep : Char} :
    ∀ (s acc : Str), sep ∉ acc →
      ∀ piece ∈ splitOnCharGo sep acc s, sep ∉ piece := by
  intro s
  induction s with
  | nil =>
    intro acc hacc piece hp
    simp only [splitOnCharGo, List.mem_singleton] at hp
    subst hp
    simp only [List.mem_reverse]
    exact hacc
  | cons c cs ih =>
    intro acc hacc piece hp
    rw [splitOnCharGo] at hp
    split at hp
    · rcases List.mem_cons.mp hp with rfl | hp2
      · simp only [List.mem_reverse]
        exact hacc
      · exact ih [] (by simp) piece hp2
    · rename_i hc
      refine ih (c :: acc) ?_ piece hp
      intro hmem
      rcases List.mem_cons.mp hmem with h2 | h2
      · exact hc h2.symm
      · exact hacc h2

theorem splitOnChar_pieces {sep : Char} {s piece : Str}
    (h : piece ∈ splitOnChar sep s) : sep ∉ piece :=
  splitOnCharGo_pieces s [] (by simp) piece h

theorem append_sep_inj {sep : Char} :
    ∀ {a c b d : Str}, sep ∉ a → sep ∉ c →
      a ++ sep :: b = c ++ sep :: d → a = c ∧ b = d := by
  intro a
  induction a with
  | nil =>
    intro c b d _ hc h
    cases c with
    | nil => simpa using h
    | cons x c2 =>
      simp only [List.nil_append, List.cons_append, List.cons.injEq] at h
      exact absurd (List.mem_cons.mpr (Or.inl h.1)) hc
  | cons y a2 ih =>
    intro c b d ha hc h
    cases c with
    | nil =>
      simp only [List.cons_append, List.nil_append, List.cons.injEq] at h
      exact absurd (List.mem_cons.mpr (Or.inl h.1.symm)) ha
    | cons x c2 =>
      simp only [List.cons_append, List.cons.injEq] at h
      obtain ⟨rfl, h2⟩ := h
      obtain ⟨h3, h4⟩ := ih (fun hm => ha (List.mem_cons_of_mem _ hm))
        (fun hm => hc (List.mem_cons_of_mem _ hm)) h2
      exact ⟨by rw [h3], h4⟩

theorem mem_alSet {α : Type} {m : List (Str × α)} {k g : Str} {v w : α}
    (h : (g, w) ∈ alSet m k v) : (g, w) ∈ m ∨ (g = k ∧ w = v) := by
  induction m with
  | nil =>
    simp only [alSet, List.mem_singleton, Prod.mk.injEq] at h
    exact Or.inr h
  | cons p rest ih =>
    obtain ⟨k0, v0⟩ := p
    simp only [alSet] at h
    split at h
    · rename_i hk
      rcases List.mem_cons.mp h with h2 | h2
      · simp only [Prod.mk.injEq] at h2
        exact Or.inr ⟨h2.1.trans hk, h2.2⟩
      · exact Or.inl (List.mem_cons_of_mem _ h2)
    · rcases List.mem_cons.mp h with h2 | h2
      · exact Or.inl (List.mem_cons.mpr (Or.inl h2))
      · rcases ih h2 with h3 | h3
        · exact Or.inl (List.mem_cons_of_mem _ h3)
        · exact Or.inr h3

theorem foldl_pred {σ α : Type} (P : σ → Prop) (step : σ → α → σ) (l : List α)
    (h : ∀ s a, a ∈ l → P s → P (step s a)) : ∀ s, P s → P (l.foldl step s) := by
  induction l with
  | nil => intro s hs; exact hs
  | cons a t ih =>
    intro s hs
    exact ih (fun s2 b hb => h s2 b (List.mem_cons_of_mem a hb)) _
      (h s a (List.mem_cons_self a t) hs)

theorem mem_infraAddresses_of_pairs {g j : Str}
    (hm : (g, j) ∈ infraPairs cachingNs ∨ (g, j) ∈ infraPairs toplevelNs
      ∨ (g, j) ∈ infraPairs rootNs) : j ∈ infraAddresses := by
  have key : ∀ m : List (Str × List Str), (g, j) ∈ infraPairs m →
      j ∈ (m.map Prod.snd).flatten := by
    intro m hmem
    unfold infraPairs at hmem
    rw [List.mem_flatten] at hmem
    obtain ⟨l, hl, hp⟩ := hmem
    rw [List.mem_map] at hl
    obtain ⟨q, hq, rfl⟩ := hl
    rw [List.mem_map] at hp
    obtain ⟨ip, hip, hpe⟩ := hp
    rw [List.mem_flatten]
    refine ⟨q.2, List.mem_map.mpr ⟨q, hq, rfl⟩, ?_⟩
    have : j = ip := by
      have := congrArg Prod.snd hpe
      simpa using this.symm
    exact this ▸ hip
  simp only [infraAddresses, List.map_append, List.flatten_append, List.mem_append]
  rcases hm with hm | hm | hm
  · exact Or.inl (Or.inl (key _ hm))
  · exact Or.inl (Or.inr (key _ hm))
  · exact Or.inr (key _ hm)

theorem processHostLine_value_absent {fwdMap revMap : List (Str × List Str)} {ip : Str}
    (hrev : (alGet revMap (joinChar '.' ((splitOnChar '.' ip).take 3))).isSome = true)
    (isMx quiet : Bool) (st : CollectSt) (rawLine : Str)
    (habs : ∀ g, (g, ip) ∉ st.hosts) :
    ∀ g, (g, ip) ∉ (processHostLine fwdMap revMap isMx quiet st rawLine).hosts := by
  simp only [processHostLine]
  split
  · exact habs
  split
  · exact habs
  split
  · rename_i ip2 f2 rest heq
    split
    · exact habs
    split
    · exact habs
    · split
      · exact habs
      · rename_i hrev2
        intro g hmem
        split at hmem <;>
        · rcases mem_alSet hmem with h2 | ⟨-, hip⟩
          · exact habs g h2
          · subst hip
            exact hrev2 hrev
  · exact habs

theorem addHostsFile_value_absent {fwdMap revMap : List (Str × List Str)} {ip : Str}
    (hrev : (alGet revMap (joinChar '.' ((splitOnChar '.' ip).take 3))).isSome = true)
    (isMx quiet : Bool) (st : CollectSt) (lines : List Str)
    (habs : ∀ g, (g, ip) ∉ st.hosts) :
    ∀ g, (g, ip) ∉ (addHostsFile fwdMap revMap isMx quiet st lines).hosts := by
  unfold addHostsFile
  exact foldl_pred (fun c : CollectSt => ∀ g, (g, ip) ∉ c.hosts) _ lines
    (fun s a _ hs => processHostLine_value_absent hrev isMx quiet s a hs) st habs

theorem collectFileG_value_absent {fwdMap revMap : List (Str × List Str)} {ip : Str}
    (hrev : (alGet revMap (joinChar '.' ((splitOnChar '.' ip).take 3))).isSome = true)
    (isMx quiet : Bool) (fl : SourceFile) (st : GenSt)
    (habs : ∀ g, (g, ip) ∉ st.hosts) :
    ∀ g, (g, ip) ∉ (collectFileG fwdMap revMap isMx quiet fl st).hosts := by
  simp only [collectFileG]
  have habs2 : ∀ g, (g, ip) ∉ (runOp (Op.readFile fl.path) st).hosts := by
    rw [runOp_hosts]
    exact habs
  split
  · exact habs2
  · show ∀ g, (g, ip) ∉ (addHostsFile fwdMap revMap isMx quiet _ fl.lines).hosts
    exact addHostsFile_value_absent hrev isMx quiet _ fl.lines habs2

theorem mergeNsEntry_value_absent {ip : Str} {p : Str × Str} (hp2 : p.2 ≠ ip)
    (quiet : Bool) (st : GenSt) (habs : ∀ g, (g, ip) ∉ st.hosts) :
    ∀ g, (g, ip) ∉ (mergeNsEntry quiet st p).hosts := by
  simp only [mergeNsEntry]
  split
  · exact habs
  · intro g hmem
    rcases mem_alSet hmem with h2 | ⟨-, hip⟩
    · revert h2
      split
      · split
        · split <;> (intro h2; exact habs g h2)
        · intro h2; exact habs g h2
      · intro h2; exact habs g h2
    · exact hp2 hip.symm

theorem mergeNsPhase_value_absent {nsDict : List (Str × Str)} {ip : Str}
    (hns : ∀ p ∈ nsDict, p.2 ≠ ip) (quiet : Bool) (st : GenSt)
    (habs : ∀ g, (g, ip) ∉ st.hosts) :
    ∀ g, (g, ip) ∉ (mergeNsPhase nsDict quiet st).hosts := by
  unfold mergeNsPhase
  exact foldl_pred (fun s : GenSt => ∀ g, (g, ip) ∉ s.hosts) _ nsDict
    (fun s p hp hs => mergeNsEntry_value_absent (hns p hp) quiet s hs) st habs

theorem collectionPhase_value_absent {inp : GenInput} {ip : Str}
    (hrev : (alGet (revDictOf inp)
      (joinChar '.' ((splitOnChar '.' ip).take 3))).isSome = true)
    (hns : ∀ p ∈ nsDictOf inp, p.2 ≠ ip) (quiet : Bool) (st : GenSt)
    (habs : ∀ g, (g, ip) ∉ st.hosts) :
    ∀ g, (g, ip) ∉ (collectionPhase inp quiet st).hosts := by
  have hfold : ∀ (l : List SourceFile) (st2 : GenSt),
      (∀ g, (g, ip) ∉ st2.hosts) →
      ∀ g, (g, ip) ∉ (l.foldl
        (fun st f2 => collectFileG (fwdDictOf inp) (revDictOf inp) false quiet f2 st)
        st2).hosts :=
    fun l st2 h2 => foldl_pred (fun s : GenSt => ∀ g, (g, ip) ∉ s.hosts) _ l
      (fun s a _ hs => collectFileG_value_absent hrev false quiet a s hs) st2 h2
  simp only [collectionPhase]
  refine mergeNsPhase_value_absent hns quiet _ ?_
  cases inp.mailFile <;> simp only [] <;>
    [skip; refine collectFileG_value_absent hrev true quiet _ _ ?_] <;>
  · refine hfold _ _ ?_
    cases inp.customFile <;> simp only [] <;>
      [skip; refine collectFileG_value_absent hrev false quiet _ _ ?_] <;>
    · cases inp.backboneFile <;> simp only [] <;>
        [skip; refine collectFileG_value_absent hrev false quiet _ _ ?_] <;>
      · exact hfold _ _ habs

theorem preEmit_value_absent {cfg : DNSConfigModel} {fs : FsState} {inp : GenInput}
    {ip : Str}
    (hrev : (alGet (revDictOf inp)
      (joinChar '.' ((splitOnChar '.' ip).take 3))).isSome = true)
    (hns : ∀ p ∈ nsDictOf inp, p.2 ≠ ip) (quiet force : Bool) (budget : Option Nat) :
    ∀ g, (g, ip) ∉ (collectionPhase inp quiet (prepPhase cfg fs inp force budget)).hosts := by
  refine collectionPhase_value_absent hrev hns quiet _ ?_
  rw [prepPhase_hosts]
  intro g hmem
  exact absurd hmem (List.not_mem_nil _)

theorem filterMap_nsRevTarget_map_self (oc n : Str) (l : List Str) :
    List.filterMap (nsRevTarget oc n) (l.map (fun ns => Op.nsRecordRev oc n ns)) = l := by
  induction l with
  | nil => rfl
  | cons a tl ih => simp [nsRevTarget, ih]

theorem filterMap_nsRevTarget_map_other {oc n oc2 n2 : Str} (hne : ¬(oc2 = oc ∧ n2 = n))
    (l : List Str) :
    List.filterMap (nsRevTarget oc n) (l.map (fun ns => Op.nsRecordRev oc2 n2 ns)) = [] := by
  induction l with
  | nil => rfl
  | cons a tl ih => simp [nsRevTarget, hne, ih]

theorem stepRevNs_self {st : GenSt} (hc : Clean st) {d : Str} {nss : List Str}
    {p1 p2 p3 : Str} (hsp : splitOnChar '.' d = [p1, p2, p3]) (hz : p1 ∈ st.zones) :
    Clean (stepRevNs st (d, nss)) ∧ (stepRevNs st (d, nss)).zones = st.zones ∧
    (stepRevNs st (d, nss)).ops
      = st.ops ++ nss.map (fun ns => Op.nsRecordRev p1 (p3 ++ '.' :: p2) ns) := by
  unfold stepRevNs
  rw [if_neg (by simp [hc.2])]
  simp only [hsp, hz, if_true]
  exact foldl_runOp_clean _ nss hc

theorem stepRevNs_other {st : GenSt} (hc : Clean st) {d p1 p2 p3 : Str}
    (p : Str × List Str) (hne : p.1 ≠ d) (hlen : (splitOnChar '.' p.1).length = 3)
    (hsp : splitOnChar '.' d = [p1, p2, p3]) :
    Clean (stepRevNs st p) ∧ (stepRevNs st p).zones = st.zones ∧
    List.filterMap (nsRevTarget p1 (p3 ++ '.' :: p2)) (stepRevNs st p).ops
      = List.filterMap (nsRevTarget p1 (p3 ++ '.' :: p2)) st.ops := by
  unfold stepRevNs
  rw [if_neg (by simp [hc.2])]
  cases hsp2 : splitOnChar '.' p.1 with
  | nil => exact ⟨hc, rfl, rfl⟩
  | cons q1 qrest =>
    cases qrest with
    | nil => exact ⟨hc, rfl, rfl⟩
    | cons q2 qrest2 =>
      cases qrest2 with
      | nil => exact ⟨hc, rfl, rfl⟩
      | cons q3 qrest3 =>
        have hq3nil : qrest3 = [] := by
          rw [hsp2] at hlen
          simpa using hlen
        subst hq3nil
        by_cases hz2 : q1 ∈ st.zones
        · simp only [if_pos hz2]
          obtain ⟨c2, z2, o2⟩ :=
            foldl_runOp_clean (fun ns => Op.nsRecordRev q1 (q3 ++ '.' :: q2) ns) p.2 hc
          refine ⟨c2, z2, ?_⟩
          rw [o2, List.filterMap_append]
          have hvan : List.filterMap (nsRevTarget p1 (p3 ++ '.' :: p2))
              (p.2.map (fun ns => Op.nsRecordRev q1 (q3 ++ '.' :: q2) ns)) = [] := by
            apply filterMap_nsRevTarget_map_other
            rintro ⟨rfl, hn⟩
            have hq3f : ('.' : Char) ∉ q3 :=
              splitOnChar_pieces (s := p.1) (by rw [hsp2]; simp)
            have hp3f : ('.' : Char) ∉ p3 :=
              splitOnChar_pieces (s := d) (by rw [hsp]; simp)
            obtain ⟨h33, h22⟩ := append_sep_inj hq3f hp3f hn
            apply hne
            have e1 := joinChar_splitOnChar '.' p.1
            have e2 := joinChar_splitOnChar '.' d
            rw [hsp2] at e1
            rw [hsp] at e2
            rw [← e1, ← e2, h33, h22]
          rw [hvan, List.append_nil]
        · simp only [if_neg hz2]
          exact ⟨hc, by simp, by simp⟩

theorem addRevNsRecords_eq (L : List (Str × List Str)) (st : GenSt) :
    addRevNsRecords L st = L.foldl stepRevNs st := rfl

theorem addRevNsRecords_absent :
    ∀ (L : List (Str × List Str)) (st : GenSt) (d p1 p2 p3 : Str),
      Clean st → (∀ q ∈ L, q.1 ≠ d) → (∀ q ∈ L, (splitOnChar '.' q.1).length = 3) →
      splitOnChar '.' d = [p1, p2, p3] →
      Clean (addRevNsRecords L st) ∧
      List.filterMap (nsRevTarget p1 (p3 ++ '.' :: p2)) (addRevNsRecords L st).ops
        = List.filterMap (nsRevTarget p1 (p3 ++ '.' :: p2)) st.ops := by
  intro L
  induction L with
  | nil => intro st d p1 p2 p3 hc _ _ _; exact ⟨hc, rfl⟩
  | cons p L2 ih =>
    intro st d p1 p2 p3 hc habs hlen hsp
    rw [addRevNsRecords_eq, List.foldl_cons, ← addRevNsRecords_eq]
    obtain ⟨c1, _, o1⟩ := stepRevNs_other hc p (habs p (List.mem_cons_self _ _))
      (hlen p (List.mem_cons_self _ _)) hsp
    obtain ⟨c2, o2⟩ := ih (stepRevNs st p) d p1 p2 p3 c1
      (fun q hq => habs q (List.mem_cons_of_mem _ hq))
      (fun q hq => hlen q (List.mem_cons_of_mem _ hq)) hsp
    exact ⟨c2, by rw [o2, o1]⟩

theorem addRevNsRecords_exact :
    ∀ (L : List (Str × List Str)) (st : GenSt) (d : Str) (nss : List Str)
      (p1 p2 p3 : Str),
      Clean st → (L.map Prod.fst).Nodup →
      (∀ q ∈ L, (splitOnChar '.' q.1).length = 3) →
      alGet L d = some nss → splitOnChar '.' d = [p1, p2, p3] → p1 ∈ st.zones →
      List.filterMap (nsRevTarget p1 (p3 ++ '.' :: p2)) (addRevNsRecords L st).ops
        = List.filterMap (nsRevTarget p1 (p3 ++ '.' :: p2)) st.ops ++ nss := by
  intro L
  induction L with
  | nil =>
    intro st d nss p1 p2 p3 _ _ _ hget
    simp [alGet] at hget
  | cons p L2 ih =>
    intro st d nss p1 p2 p3 hc hnd hlen hget hsp hz
    rw [addRevNsRecords_eq, List.foldl_cons, ← addRevNsRecords_eq]
    obtain ⟨k, v⟩ := p
    rw [List.map_cons] at hnd
    obtain ⟨hknot, hndtail⟩ := List.nodup_cons.mp hnd
    by_cases hk : k = d
    · subst hk
      have hv : v = nss := by
        simp [alGet] at hget
        exact hget
      subst hv
      obtain ⟨c1, _, o1⟩ := stepRevNs_self hc hsp hz
      have habs : ∀ q ∈ L2, q.1 ≠ k :=
        fun q hq he => hknot (he ▸ List.mem_map.mpr ⟨q, hq, rfl⟩)
      rw [(addRevNsRecords_absent L2 _ k p1 p2 p3 c1 habs
          (fun q hq => hlen q (List.mem_cons_of_mem _ hq)) hsp).2, o1,
        List.filterMap_append, filterMap_nsRevTarget_map_self]
    · obtain ⟨c1, z1, o1⟩ := stepRevNs_other hc (k, v) hk
        (hlen (k, v) (List.mem_cons_self _ _)) hsp
      have hget2 : alGet L2 d = some nss := by
        simpa [alGet, hk] using hget
      rw [ih _ d nss p1 p2 p3 c1 hndtail
        (fun q hq => hlen q (List.mem_cons_of_mem _ hq)) hget2 hsp (z1 ▸ hz), o1]

/-- C2 counterexample: the claim's record-exclusion half fails.  A host whose
domain matches a forward delegation is skipped by the collector (counted in
`hosts_skipped`), but when the same fqdn also appears as a delegation
nameserver, the `DELEGATIONS_NS` merge reinstates it into the host table and
an A record for it is emitted after all. -/
theorem claim_C2_counterexample :
    (generateDnsConfig ⟨"d".toList, "h".toList, "n".toList, "z".toList⟩
        ⟨false, false, false, false⟩
        ⟨[], none, some ⟨"c".toList, ["1.2.3.4 ns1.ex.com".toList]⟩, [], none,
          some (updateDelegationsContent
            ⟨[⟨"ex.com".toList, ["ns1.ex.com".toList]⟩], [],
             [⟨"ns1.ex.com".toList, "1.2.3.4".toList⟩]⟩)⟩
        ⟨false, false⟩ none).1.hostsSkipped = 1 ∧
    (generateDnsConfig ⟨"d".toList, "h".toList, "n".toList, "z".toList⟩
        ⟨false, false, false, false⟩
        ⟨[], none, some ⟨"c".toList, ["1.2.3.4 ns1.ex.com".toList]⟩, [], none,
          some (updateDelegationsContent
            ⟨[⟨"ex.com".toList, ["ns1.ex.com".toList]⟩], [],
             [⟨"ns1.ex.com".toList, "1.2.3.4".toList⟩]⟩)⟩
        ⟨false, false⟩ none).2.count
      (Op.aRecord "com".toList "ns1.ex".toList "1.2.3.4".toList) = 1 := by
  set_option maxRecDepth 60000 in decide

/-- C2 (amended): (A) every parsed inventory line whose two-label domain
matches a forward-delegation key, or whose first three IP octets match a
reverse-delegation key, is excluded by the collector: the host table is left
untouched, `hosts_skipped` is incremented, and the warning is recorded unless
quiet mode is set (quiet suppresses the warning but not the count);
(B) a forward-delegated name that is neither a delegation nameserver (the
`DELEGATIONS_NS` merge would reinstate it) nor a fixed infrastructure
hostname gets no A record and no PTR record anywhere in the generated output;
(C) an address whose first three octets match a reverse-delegation key, that
is not a delegation-nameserver address nor a fixed infrastructure address,
gets no A record and no PTR record anywhere in the generated output;
(D) a forward-delegated zone, if created, receives NS records at the
delegation's owner name exactly matching the delegation's nameserver list;
(E) a reverse-delegated zone, if created, receives NS records at the
delegation's reversed /24 owner name exactly matching the delegation's
nameserver list (reverse keys being three-octet /24 prefixes). -/
theorem claim_C2_amended :
    (∀ (fwdMap revMap : List (Str × List Str)) (isMx quiet : Bool) (st : CollectSt)
        (rawLine ip f msg : Str) (rest : List Str),
      (pyStrip rawLine).isEmpty = false →
      (pyStrip rawLine).head? ≠ some '#' →
      splitWs (pyStrip rawLine) = ip :: f :: rest →
      pyTruthy (getTld f) = true → pyTruthy (getSld f) = true →
      skipDecision fwdMap revMap ip f = some msg →
      processHostLine fwdMap revMap isMx quiet st rawLine
        = { st with
            warnings := if quiet then st.warnings else st.warnings ++ [msg],
            skipped := st.skipped + 1 }) ∧
    (∀ (cfg : DNSConfigModel) (fs : FsState) (inp : GenInput)
        (opts : DNSGenerationOptions) (budget : Option Nat) (f : Str),
      fwdDelegated (fwdDictOf inp) f = true →
      (∀ p ∈ nsDictOf inp, p.1 ≠ f) →
      f ∉ infraHostnames →
      (∀ t o i, Op.aRecord t o i ∈ (generateDnsConfig cfg fs inp opts budget).2 →
        o ++ '.' :: t ≠ f) ∧
      (∀ a r, Op.ptrRecord a r f ∉ (generateDnsConfig cfg fs inp opts budget).2)) ∧
    (∀ (cfg : DNSConfigModel) (fs : FsState) (inp : GenInput)
        (opts : DNSGenerationOptions) (budget : Option Nat) (ip p1 p2 p3 p4 : Str),
      splitOnChar '.' ip = [p1, p2, p3, p4] →
      (alGet (revDictOf inp) (joinChar '.' ((splitOnChar '.' ip).take 3))).isSome = true →
      (∀ p ∈ nsDictOf inp, p.2 ≠ ip) →
      ip ∉ infraAddresses →
      (∀ t o, Op.aRecord t o ip ∉ (generateDnsConfig cfg fs inp opts budget).2) ∧
      (∀ f2, Op.ptrRecord p1 (p4 ++ '.' :: (p3 ++ '.' :: p2)) f2
          ∉ (generateDnsConfig cfg fs inp opts budget).2)) ∧
    (∀ (inp : GenInput) (st : GenSt) (d : Str) (nss : List Str) (t : Str),
      Clean st → alGet (fwdDictOf inp) d = some nss →
      getTld d = some t → t.isEmpty = false → t ∈ st.zones →
      List.filterMap (nsFwdTarget t (stripTldSuffix d t))
          (addFwdNsRecords (fwdDictOf inp) st).ops
        = List.filterMap (nsFwdTarget t (stripTldSuffix d t)) st.ops ++ nss) ∧
    (∀ (inp : GenInput) (st : GenSt) (d : Str) (nss : List Str) (p1 p2 p3 : Str),
      Clean st →
      (∀ q ∈ revDictOf inp, (splitOnChar '.' q.1).length = 3) →
      alGet (revDictOf inp) d = some nss →
      splitOnChar '.' d = [p1, p2, p3] → p1 ∈ st.zones →
      List.filterMap (nsRevTarget p1 (p3 ++ '.' :: p2))
          (addRevNsRecords (revDictOf inp) st).ops
        = List.filterMap (nsRevTarget p1 (p3 ++ '.' :: p2)) st.ops ++ nss) := by
  refine ⟨?_, ?_, ?_, ?_, ?_⟩
  · intro fwdMap revMap isMx quiet st rawLine ip f msg rest hne hcm hsplit htld hsld hskip
    simp only [processHostLine, hsplit]
    rw [if_neg (by simp [hne]), if_neg hcm, if_neg (by simp [htld, hsld])]
    simp only [skipDecision, domainOf] at hskip
    set D := (getSld f).getD [] ++ '.' :: (getTld f).getD [] with hD
    set N := joinChar '.' ((splitOnChar '.' ip).take 3) with hN
    by_cases hfwd : (alGet fwdMap D).isSome = true
    · rw [if_pos hfwd]
      rw [if_pos hfwd] at hskip
      simp only [Option.some.injEq] at hskip
      rw [hskip]
    · rw [if_neg hfwd]
      rw [if_neg hfwd] at hskip
      by_cases hrev : (alGet revMap N).isSome = true
      · rw [if_pos hrev]
        rw [if_pos hrev] at hskip
        simp only [Option.some.injEq] at hskip
        rw [hskip]
      · rw [if_neg hrev] at hskip
        exact absurd hskip (by simp)
  · intro cfg fs inp opts budget f hdel hns hinfra
    have habs : alGet (collectionPhase inp opts.quietMode
        (prepPhase cfg fs inp opts.forceOverwrite budget)).hosts f = none :=
      preEmit_hosts_delegated hdel hns _ _ _
    constructor
    · intro t o i hmem heq
      have hmem2 : Op.aRecord t o i ∈ (generatePipeline cfg fs inp opts budget).ops := by
        simp only [generateDnsConfig] at hmem
        split at hmem
        · simp at hmem
        · split at hmem <;> exact hmem
      obtain ⟨g, hg, hs, hor⟩ := pipeline_aRecord_origin hmem2
      have hgf : g = f := by
        rw [getTld_reconstruct hg, ← hs, heq]
      subst hgf
      rcases hor with hor | hor | hor | hor
      · exact absurd (alGet_isSome_of_mem hor) (by simp [habs])
      · exact hinfra (mem_infraHostnames_of_pairs (Or.inl hor))
      · exact hinfra (mem_infraHostnames_of_pairs (Or.inr (Or.inl hor)))
      · exact hinfra (mem_infraHostnames_of_pairs (Or.inr (Or.inr hor)))
    · intro a r hmem
      have hmem2 : Op.ptrRecord a r f ∈ (generatePipeline cfg fs inp opts budget).ops := by
        simp only [generateDnsConfig] at hmem
        split at hmem
        · simp at hmem
        · split at hmem <;> exact hmem
      obtain ⟨j, hmor, -⟩ := pipeline_ptr_origin hmem2
      rcases hmor with hm | hm | hm | hm
      · exact absurd (alGet_isSome_of_mem hm) (by simp [habs])
      · exact hinfra (mem_infraHostnames_of_pairs (Or.inl hm))
      · exact hinfra (mem_infraHostnames_of_pairs (Or.inr (Or.inl hm)))
      · exact hinfra (mem_infraHostnames_of_pairs (Or.inr (Or.inr hm)))
  · intro cfg fs inp opts budget ip p1 p2 p3 p4 hsp hrev hns hinfra
    have habs : ∀ g, (g, ip) ∉ (collectionPhase inp opts.quietMode
        (prepPhase cfg fs inp opts.forceOverwrite budget)).hosts :=
      preEmit_value_absent hrev hns opts.quietMode opts.forceOverwrite budget
    constructor
    · intro t o hmem
      have hmem2 : Op.aRecord t o ip ∈ (generatePipeline cfg fs inp opts budget).ops := by
        simp only [generateDnsConfig] at hmem
        split at hmem
        · simp at hmem
        · split at hmem <;> exact hmem
      obtain ⟨g, -, -, hor⟩ := pipeline_aRecord_origin hmem2
      rcases hor with hor | hor | hor | hor
      · exact habs g hor
      · exact hinfra (mem_infraAddresses_of_pairs (Or.inl hor))
      · exact hinfra (mem_infraAddresses_of_pairs (Or.inr (Or.inl hor)))
      · exact hinfra (mem_infraAddresses_of_pairs (Or.inr (Or.inr hor)))
    · intro f2 hmem
      have hmem2 : Op.ptrRecord p1 (p4 ++ '.' :: (p3 ++ '.' :: p2)) f2
          ∈ (generatePipeline cfg fs inp opts budget).ops := by
        simp only [generateDnsConfig] at hmem
        split at hmem
        · simp at hmem
        · split at hmem <;> exact hmem
      obtain ⟨j, hmor, q2, q3, q4, hspj, hreq⟩ := pipeline_ptr_origin hmem2
      have hp4f : ('.' : Char) ∉ p4 := splitOnChar_pieces (s := ip) (by rw [hsp]; simp)
      have hq4f : ('.' : Char) ∉ q4 := splitOnChar_pieces (s := j) (by rw [hspj]; simp)
      obtain ⟨h44, hrest⟩ := append_sep_inj hp4f hq4f hreq
      have hp3f : ('.' : Char) ∉ p3 := splitOnChar_pieces (s := ip) (by rw [hsp]; simp)
      have hq3f : ('.' : Char) ∉ q3 := splitOnChar_pieces (s := j) (by rw [hspj]; simp)
      obtain ⟨h33, h22⟩ := append_sep_inj hp3f hq3f hrest
      have hj : j = ip := by
        have e1 := joinChar_splitOnChar '.' j
        have e2 := joinChar_splitOnChar '.' ip
        rw [hspj] at e1
        rw [hsp] at e2
        rw [← e1, ← e2, h44, h33, h22]
      subst hj
      rcases hmor with hm | hm | hm | hm
      · exact habs f2 hm
      · exact hinfra (mem_infraAddresses_of_pairs (Or.inl hm))
      · exact hinfra (mem_infraAddresses_of_pairs (Or.inr (Or.inl hm)))
      · exact hinfra (mem_infraAddresses_of_pairs (Or.inr (Or.inr hm)))
  · intro inp st d nss t hc hget hg hte hz
    exact addFwdNsRecords_exact (fwdDictOf inp) st d nss t hc
      (alOfList_keys_nodup _) hget hg hte hz
  · intro inp st d nss p1 p2 p3 hc hlen hget hsp hz
    exact addRevNsRecords_exact (revDictOf inp) st d nss p1 p2 p3 hc
      (alOfList_keys_nodup _) hlen hget hsp hz

/-- C2 witness: the five parts of the amended claim at concrete inputs: a
line under the delegated domain `a.b` is skipped with the warning; a host
under the delegated domain `ex.com` that is not a delegation nameserver gets
no A or PTR record; an address under the reverse-delegated /24 `9.8.7` that
is not a nameserver address gets no A or PTR record; the created `com` zone
receives exactly the forward delegation's nameserver list; the created `9`
reverse zone receives exactly the reverse delegation's nameserver list. -/
theorem claim_C2_witness :
    (processHostLine [("a.b".toList, ["ns1".toList])] [] false false ⟨[], [], [], 0⟩
        "1.2.3.4 x.a.b".toList
      = { (⟨[], [], [], 0⟩ : CollectSt) with
          warnings := if false then ([] : List Str)
            else [] ++ [skipFwdMsg "x.a.b".toList "a.b".toList],
          skipped := 0 + 1 }) ∧
    ((∀ t o i, Op.aRecord t o i ∈ (generateDnsConfig
          ⟨"d".toList, "h".toList, "n".toList, "z".toList⟩
          ⟨false, false, false, false⟩
          ⟨[], none, none, [], none,
            some (updateDelegationsContent
              ⟨[⟨"ex.com".toList, ["ns1.ex.com".toList]⟩], [], []⟩)⟩
          ⟨false, false⟩ none).2 →
        o ++ '.' :: t ≠ "h.ex.com".toList) ∧
      (∀ a r, Op.ptrRecord a r "h.ex.com".toList ∉ (generateDnsConfig
          ⟨"d".toList, "h".toList, "n".toList, "z".toList⟩
          ⟨false, false, false, false⟩
          ⟨[], none, none, [], none,
            some (updateDelegationsContent
              ⟨[⟨"ex.com".toList, ["ns1.ex.com".toList]⟩], [], []⟩)⟩
          ⟨false, false⟩ none).2)) ∧
    ((∀ t o, Op.aRecord t o "9.8.7.6".toList ∉ (generateDnsConfig
          ⟨"d".toList, "h".toList, "n".toList, "z".toList⟩
          ⟨false, false, false, false⟩
          ⟨[], none, none, [], none,
            some (updateDelegationsContent
              ⟨[], [⟨"9.8.7".toList, ["ns1.ex.com".toList]⟩], []⟩)⟩
          ⟨false, false⟩ none).2) ∧
      (∀ f2, Op.ptrRecord "9".toList
            ("6".toList ++ '.' :: ("7".toList ++ '.' :: "8".toList)) f2
          ∉ (generateDnsConfig
          ⟨"d".toList, "h".toList, "n".toList, "z".toList⟩
          ⟨false, false, false, false⟩
          ⟨[], none, none, [], none,
            some (updateDelegationsContent
              ⟨[], [⟨"9.8.7".toList, ["ns1.ex.com".toList]⟩], []⟩)⟩
          ⟨false, false⟩ none).2)) ∧
    (List.filterMap (nsFwdTarget "com".toList (stripTldSuffix "ex.com".toList "com".toList))
        (addFwdNsRecords (fwdDictOf
          ⟨[], none, none, [], none,
            some (updateDelegationsContent
              ⟨[⟨"ex.com".toList, ["ns1.ex.com".toList]⟩], [], []⟩)⟩)
          ⟨none, false, [], [], 0, 0, [], [], ["com".toList]⟩).ops
      = List.filterMap (nsFwdTarget "com".toList (stripTldSuffix "ex.com".toList "com".toList))
          (⟨none, false, [], [], 0, 0, [], [], ["com".toList]⟩ : GenSt).ops
        ++ ["ns1.ex.com".toList]) ∧
    (List.filterMap (nsRevTarget "9".toList ("7".toList ++ '.' :: "8".toList))
        (addRevNsRecords (revDictOf
          ⟨[], none, none, [], none,
            some (updateDelegationsContent
              ⟨[], [⟨"9.8.7".toList, ["ns1.ex.com".toList]⟩], []⟩)⟩)
          ⟨none, false, [], [], 0, 0, [], [], ["9".toList]⟩).ops
      = List.filterMap (nsRevTarget "9".toList ("7".toList ++ '.' :: "8".toList))
          (⟨none, false, [], [], 0, 0, [], [], ["9".toList]⟩ : GenSt).ops
        ++ ["ns1.ex.com".toList]) :=
  ⟨claim_C2_amended.1 [("a.b".toList, ["ns1".toList])] [] false false ⟨[], [], [], 0⟩
      "1.2.3.4 x.a.b".toList "1.2.3.4".toList "x.a.b".toList
      (skipFwdMsg "x.a.b".toList "a.b".toList) []
      (by decide) (by decide) (by decide) (by decide) (by decide) (by decide),
   claim_C2_amended.2.1 ⟨"d".toList, "h".toList, "n".toList, "z".toList⟩
      ⟨false, false, false, false⟩
      ⟨[], none, none, [], none,
        some (updateDelegationsContent
          ⟨[⟨"ex.com".toList, ["ns1.ex.com".toList]⟩], [], []⟩)⟩
      ⟨false, false⟩ none "h.ex.com".toList
      (by set_option maxRecDepth 20000 in decide)
      (by set_option maxRecDepth 20000 in decide)
      (by decide),
   claim_C2_amended.2.2.1 ⟨"d".toList, "h".toList, "n".toList, "z".toList⟩
      ⟨false, false, false, false⟩
      ⟨[], none, none, [], none,
        some (updateDelegationsContent
          ⟨[], [⟨"9.8.7".toList, ["ns1.ex.com".toList]⟩], []⟩)⟩
      ⟨false, false⟩ none "9.8.7.6".toList
      "9".toList "8".toList "7".toList "6".toList
      (by decide)
      (by set_option maxRecDepth 20000 in decide)
      (by set_option maxRecDepth 20000 in decide)
      (by set_option maxRecDepth 20000 in decide),
   claim_C2_amended.2.2.2.1
      ⟨[], none, none, [], none,
        some (updateDelegationsContent
          ⟨[⟨"ex.com".toList, ["ns1.ex.com".toList]⟩], [], []⟩)⟩
      ⟨none, false, [], [], 0, 0, [], [], ["com".toList]⟩
      "ex.com".toList ["ns1.ex.com".toList] "com".toList
      ⟨rfl, rfl⟩
      (by set_option maxRecDepth 20000 in decide)
      (by decide) (by decide) (by decide),
   claim_C2_amended.2.2.2.2
      ⟨[], none, none, [], none,
        some (updateDelegationsContent
          ⟨[], [⟨"9.8.7".toList, ["ns1.ex.com".toList]⟩], []⟩)⟩
      ⟨none, false, [], [], 0, 0, [], [], ["9".toList]⟩
      "9.8.7".toList ["ns1.ex.com".toList] "9".toList "8".toList "7".toList
      ⟨rfl, rfl⟩
      (by set_option maxRecDepth 20000 in decide)
      (by set_option maxRecDepth 20000 in decide)
      (by decide) (by decide)⟩

/-! ## Machinery for the delegations round-trip claim -/

theorem isPreB_iff (l s : Str) : isPreB l s = true ↔ ∃ t, s = l ++ t := by
  induction l generalizing s with
  | nil => simp [isPreB]
  | cons a as ih =>
    cases s with
    | nil => simp [isPreB]
    | cons b bs =>
      simp only [isPreB, Bool.and_eq_true, beq_iff_eq, ih, List.cons_append,
        List.cons.injEq]
      constructor
      · rintro ⟨rfl, t, rfl⟩
        exact ⟨t, rfl, rfl⟩
      · rintro ⟨t, rfl, rfl⟩
        exact ⟨rfl, t, rfl⟩

theorem mismatchB_isPreB_false : ∀ {lit C : Str}, mismatchB lit C = true →
    ∀ (B : Str), isPreB lit (C ++ B) = false := by
  intro lit
  induction lit with
  | nil => intro C h; simp [mismatchB] at h
  | cons a as ih =>
    intro C h B
    cases C with
    | nil => simp [mismatchB] at h
    | cons b bs =>
      simp only [mismatchB, Bool.or_eq_true, decide_eq_true_eq] at h
      rcases h with h | h
      · simp [isPreB, List.cons_append, h]
      · simp [isPreB, List.cons_append, ih h B]

theorem noSpan_noStart : ∀ {lit A : Str}, noSpan lit A = true →
    ∀ i, i < A.length → ∀ (B : Str), isPreB lit (A.drop i ++ B) = false := by
  intro lit A
  induction A with
  | nil => intro _ i hi; simp at hi
  | cons c tl ih =>
    intro h i hi B
    simp only [noSpan, Bool.and_eq_true] at h
    cases i with
    | zero => exact mismatchB_isPreB_false h.1 B
    | succ j =>
      rw [List.drop_succ_cons]
      exact ih h.2 j (by simpa using hi) B

theorem noStart_append {lit A1 A2 B : Str}
    (h1 : ∀ i, i < A1.length → isPreB lit (A1.drop i ++ (A2 ++ B)) = false)
    (h2 : ∀ i, i < A2.length → isPreB lit (A2.drop i ++ B) = false) :
    ∀ i, i < (A1 ++ A2).length → isPreB lit ((A1 ++ A2).drop i ++ B) = false := by
  intro i hi
  rw [List.drop_append_eq_append_drop]
  by_cases hlt : i < A1.length
  · have hz : i - A1.length = 0 := by omega
    rw [hz, List.drop_zero, List.append_assoc]
    exact h1 i hlt
  · have hA1 : A1.drop i = [] := List.drop_eq_nil_of_le (by omega)
    rw [hA1, List.nil_append]
    exact h2 (i - A1.length) (by simp at hi; omega)

theorem noStart_span {lit A B : Str} (hnil : lit ≠ []) (hnb : noBorderB lit = true)
    (hch : ∃ ch, ch ∈ lit ∧ ch ∉ A) (hhead : B.head? = lit.head?) :
    ∀ i, i < A.length → isPreB lit (A.drop i ++ B) = false := by
  intro i hi
  cases htrue : isPreB lit (A.drop i ++ B) with
  | false => rfl
  | true =>
    exfalso
    obtain ⟨t, ht⟩ := (isPreB_iff _ _).mp htrue
    have hClen : (A.drop i).length ≠ 0 := by
      simp only [List.length_drop]
      omega
    by_cases hlen : lit.length ≤ (A.drop i).length
    · obtain ⟨ch, hchlit, hchA⟩ := hch
      have htake : (A.drop i).take lit.length = lit := by
        have h2 := congrArg (List.take lit.length) ht
        rw [List.take_append_eq_append_take, List.take_left,
          Nat.sub_eq_zero_of_le hlen, List.take_zero, List.append_nil] at h2
        exact h2
      apply hchA
      rw [← htake] at hchlit
      exact List.drop_subset i A (List.take_subset _ _ hchlit)
    · push_neg at hlen
      have hdrop := congrArg (List.drop (A.drop i).length) ht
      rw [List.drop_append_eq_append_drop, List.drop_length, Nat.sub_self,
        List.drop_zero, List.nil_append, List.drop_append_eq_append_drop,
        Nat.sub_eq_zero_of_le (le_of_lt hlen), List.drop_zero] at hdrop
      -- hdrop : B = lit.drop (A.drop i).length ++ t
      cases hlit : lit with
      | nil => exact hnil hlit
      | cons c0 cs =>
        have hm : 1 ≤ (A.drop i).length := by omega
        have hdrop2 : lit.drop (A.drop i).length = cs.drop ((A.drop i).length - 1) := by
          rw [hlit]
          cases hAi : (A.drop i).length with
          | zero => omega
          | succ m => simp
        have hne2 : cs.drop ((A.drop i).length - 1) ≠ [] := by
          intro hn
          have := congrArg List.length hn
          rw [List.length_drop] at this
          rw [hlit] at hlen
          simp at this
          simp at hlen
          omega
        cases hcd : cs.drop ((A.drop i).length - 1) with
        | nil => exact hne2 hcd
        | cons x xs =>
          have hx : x ∈ cs := List.mem_of_mem_drop (hcd ▸ List.mem_cons_self x xs)
          have hBhead : B.head? = some x := by
            rw [hdrop, hdrop2, hcd]
            rfl
          rw [hhead, hlit] at hBhead
          simp only [List.head?_cons, Option.some.injEq] at hBhead
          rw [hlit] at hnb
          simp only [noBorderB, List.all_eq_true, decide_eq_true_eq] at hnb
          exact hnb x hx hBhead.symm

theorem findLit_append_of {lit A B : Str}
    (h : ∀ i, i < A.length → isPreB lit (A.drop i ++ B) = false) :
    findLit lit (A ++ B) = (findLit lit B).map (fun p => (A ++ p.1, p.2)) := by
  induction A with
  | nil =>
    rw [List.nil_append]
    cases hf : findLit lit B with
    | none => rfl
    | some p => simp
  | cons a tl ih =>
    rw [List.cons_append]
    have h0 := h 0 (by simp)
    simp only [List.drop_zero, List.cons_append] at h0
    rw [findLit, if_neg (by simp [h0])]
    rw [ih (fun i hi => by
      have h2 := h (i + 1) (by simp only [List.length_cons]; omega)
      simpa using h2)]
    cases hf : findLit lit B with
    | none => rfl
    | some p => simp

theorem findLit_self {lit : Str} (hnil : lit ≠ []) (tail : Str) :
    findLit lit (lit ++ tail) = some ([], tail) := by
  cases lit with
  | nil => exact absurd rfl hnil
  | cons c cs =>
    rw [List.cons_append, findLit,
      if_pos ((isPreB_iff _ _).mpr ⟨tail, by simp⟩)]
    rw [show c :: (cs ++ tail) = (c :: cs) ++ tail from rfl, List.drop_left]

theorem takeToParen_no_paren {C : Str} (h : ')' ∉ C) (D : Str) :
    takeToParen (C ++ ')' :: D) = some (C, D) := by
  induction C with
  | nil => simp [takeToParen]
  | cons c cs ih =>
    rw [List.cons_append, takeToParen,
      if_neg (show ¬(c = ')') from
        fun hc => h (List.mem_cons.mpr (Or.inl hc.symm))),
      ih (fun hm => h (List.mem_cons_of_mem c hm))]
    rfl

theorem takeToQuote_no_quote {C : Str} (h : sq ∉ C) (D : Str) :
    takeToQuote (C ++ sq :: D) = some (C, D) := by
  induction C with
  | nil => simp [takeToQuote]
  | cons c cs ih =>
    rw [List.cons_append, takeToQuote,
      if_neg (show ¬(c = sq) from
        fun hc => h (List.mem_cons.mpr (Or.inl hc.symm))),
      ih (fun hm => h (List.mem_cons_of_mem c hm))]
    rfl

theorem tryEntry_some_of {k v r : Str} (hk : k ≠ []) (hkq : sq ∉ k)
    (hv : v ≠ []) (hvq : sq ∉ v) :
    tryEntry ('[' :: sq :: (k ++ sq :: ']' :: '=' :: sq :: (v ++ sq :: r)))
      = some (k, v, r) := by
  show (if sq = sq then _ else none) = _
  rw [if_pos rfl, takeToQuote_no_quote hkq]
  show (if k.isEmpty then none else tryEntryTail k _) = _
  rw [if_neg (by simp [hk])]
  show (if sq = sq then _ else none) = _
  rw [if_pos rfl, takeToQuote_no_quote hvq]
  show (if v.isEmpty then none else _) = _
  rw [if_neg (by simp [hv])]

theorem tryEntry_none_of {c : Char} (cs : Str) (h : c ≠ '[') :
    tryEntry (c :: cs) = none := by
  unfold tryEntry
  split
  · rename_i c2 t heq
    injection heq with h1 h2
    exact absurd h1 h
  · rfl

theorem parseEntries_entries :
    ∀ (es : List (Str × Str)),
      (∀ p ∈ es, p.1 ≠ [] ∧ sq ∉ p.1 ∧ p.2 ≠ [] ∧ sq ∉ p.2) →
      parseEntries ((es.map (fun p => entryLine p.1 p.2)).flatten) = es := by
  intro es
  induction es with
  | nil => intro _; rfl
  | cons p rest ih =>
    intro hwf
    obtain ⟨k, v⟩ := p
    obtain ⟨hk, hkq, hv, hvq⟩ := hwf (k, v) (List.mem_cons_self _ _)
    rw [List.map_cons, List.flatten_cons]
    have hshape : entryLine k v ++ (rest.map (fun p => entryLine p.1 p.2)).flatten
        = ' ' :: ' ' :: '[' :: sq :: (k ++ sq :: ']' :: '=' :: sq :: (v ++ sq :: '\n' ::
            (rest.map (fun p => entryLine p.1 p.2)).flatten)) := by
      simp [entryLine]
    rw [hshape,
      parseEntries_cons_none (tryEntry_none_of _ (by decide)),
      parseEntries_cons_none (tryEntry_none_of _ (by decide)),
      parseEntries_cons_some (tryEntry_some_of hk hkq hv hvq),
      parseEntries_cons_none (tryEntry_none_of _ (by decide)),
      ih (fun q hq => hwf q (List.mem_cons_of_mem _ hq))]

theorem mem_joinChar {c sep : Char} {l : List Str} (h : c ∈ joinChar sep l) :
    c = sep ∨ ∃ w ∈ l, c ∈ w := by
  induction l with
  | nil => simp [joinChar, List.intercalate] at h
  | cons a tl ih =>
    cases tl with
    | nil =>
      rw [joinChar_single] at h
      exact Or.inr ⟨a, List.mem_cons_self _ _, h⟩
    | cons b t2 =>
      rw [joinChar_cons_cons] at h
      rcases List.mem_append.mp h with h | h
      · exact Or.inr ⟨a, List.mem_cons_self _ _, h⟩
      · rcases List.mem_cons.mp h with h | h
        · exact Or.inl h
        · rcases ih h with h | ⟨w, hw, hcw⟩
          · exact Or.inl h
          · exact Or.inr ⟨w, List.mem_cons_of_mem _ hw, hcw⟩

theorem not_mem_entryLine {c : Char} {k v : Str} (h1 : c ≠ ' ') (h2 : c ≠ '[')
    (h3 : c ≠ sq) (h4 : c ≠ ']') (h5 : c ≠ '=') (h6 : c ≠ '\n')
    (hk : c ∉ k) (hv : c ∉ v) : c ∉ entryLine k v := by
  simp [entryLine, h1, h2, h3, h4, h5, h6, hk, hv]

theorem not_mem_body {c : Char} (h1 : c ≠ ' ') (h2 : c ≠ '[')
    (h3 : c ≠ sq) (h4 : c ≠ ']') (h5 : c ≠ '=') (h6 : c ≠ '\n')
    {es : List (Str × Str)} (hes : ∀ p ∈ es, c ∉ p.1 ∧ c ∉ p.2) :
    c ∉ (es.map (fun p => entryLine p.1 p.2)).flatten := by
  intro hmem
  rw [List.mem_flatten] at hmem
  obtain ⟨l, hl, hcl⟩ := hmem
  rw [List.mem_map] at hl
  obtain ⟨p, hp, rfl⟩ := hl
  exact not_mem_entryLine h1 h2 h3 h4 h5 h6 (hes p hp).1 (hes p hp).2 hcl

theorem joinChar_ne_nil {sep : Char} {l : List Str} (hne : l ≠ [])
    (hw : ∀ w ∈ l, w ≠ []) : joinChar sep l ≠ [] := by
  cases l with
  | nil => exact absurd rfl hne
  | cons a tl =>
    cases tl with
    | nil =>
      rw [joinChar_single]
      exact hw a (List.mem_cons_self _ _)
    | cons b t2 =>
      rw [joinChar_cons_cons]
      intro h
      rcases List.append_eq_nil.mp h with ⟨-, h2⟩
      exact List.cons_ne_nil _ _ h2

theorem splitWsGo_word : ∀ (w : Str), (∀ c ∈ w, isPyWs c = false) →
    ∀ (acc rest : Str), splitWsGo acc (w ++ rest) = splitWsGo (w.reverse ++ acc) rest := by
  intro w
  induction w with
  | nil => intro _ acc rest; simp
  | cons c cs ih =>
    intro hw acc rest
    rw [List.cons_append, splitWsGo]
    rw [if_neg (by simp [hw c (List.mem_cons_self _ _)])]
    rw [ih (fun x hx => hw x (List.mem_cons_of_mem _ hx)) (c :: acc) rest]
    congr 1
    simp

theorem splitWs_join : ∀ (ws : List Str), ws ≠ [] →
    (∀ w ∈ ws, w ≠ [] ∧ ∀ c ∈ w, isPyWs c = false) →
    splitWs (joinChar ' ' ws) = ws := by
  intro ws
  induction ws with
  | nil => intro h; exact absurd rfl h
  | cons a tl ih =>
    intro _ hw
    obtain ⟨ha, haw⟩ := hw a (List.mem_cons_self _ _)
    cases tl with
    | nil =>
      rw [joinChar_single]
      show splitWsGo [] a = [a]
      have h2 := splitWsGo_word a haw [] []
      rw [List.append_nil] at h2
      rw [h2, splitWsGo]
      rw [if_neg (by simp [ha])]
      simp
    | cons b t2 =>
      rw [joinChar_cons_cons]
      show splitWsGo [] (a ++ ' ' :: joinChar ' ' (b :: t2)) = a :: b :: t2
      rw [splitWsGo_word a haw [] _, List.append_nil, splitWsGo]
      rw [if_pos (by simp [isPyWs])]
      rw [if_neg (by simp [ha])]
      rw [List.reverse_reverse]
      show a :: splitWs (joinChar ' ' (b :: t2)) = a :: b :: t2
      rw [ih (by simp) (fun w hw2 => hw w (List.mem_cons_of_mem _ hw2))]

theorem parseSection_extract {lit A content : Str} (body rest2 : Str)
    (hcontent : content = A ++ (lit ++ (('\n' :: body) ++ ')' :: rest2)))
    (hns : ∀ i, i < A.length →
      isPreB lit (A.drop i ++ (lit ++ (('\n' :: body) ++ ')' :: rest2))) = false)
    (hlit : lit ≠ [])
    (hpar : ')' ∉ '\n' :: body) :
    parseSection lit content = parseEntries ('\n' :: body) := by
  have hextract : extractArray lit content = some ('\n' :: body) := by
    unfold extractArray
    rw [hcontent, findLit_append_of hns, findLit_self hlit]
    simp only [Option.map_some']
    rw [takeToParen_no_paren hpar]
  unfold parseSection
  rw [hextract]

theorem map_eq_self {α : Type} {l : List α} {f : α → α} (h : ∀ a ∈ l, f a = a) :
    l.map f = l := by
  induction l with
  | nil => rfl
  | cons a tl ih =>
    rw [List.map_cons, h a (List.mem_cons_self _ _),
      ih (fun b hb => h b (List.mem_cons_of_mem _ hb))]

theorem entryPairs_cond {l : List DNSDelegationEntry}
    (h : ∀ e ∈ l, goodKey e.domainOrNetwork ∧ e.nameservers ≠ [] ∧
      ∀ ns ∈ e.nameservers, goodWord ns) :
    ∀ p ∈ l.map (fun e => (e.domainOrNetwork, joinChar ' ' e.nameservers)),
      p.1 ≠ [] ∧ sq ∉ p.1 ∧ p.2 ≠ [] ∧ sq ∉ p.2 := by
  intro p hp
  rw [List.mem_map] at hp
  obtain ⟨e, he, rfl⟩ := hp
  obtain ⟨hk, hnss, hws⟩ := h e he
  refine ⟨hk.1, hk.2.1, ?_, ?_⟩
  · exact joinChar_ne_nil hnss (fun w hw => (hws w hw).1.1)
  · intro hsq
    rcases mem_joinChar hsq with hq | ⟨w, hw, hcw⟩
    · exact absurd hq (by decide)
    · exact (hws w hw).1.2.1 hcw

theorem entryPairs_paren {l : List DNSDelegationEntry}
    (h : ∀ e ∈ l, goodKey e.domainOrNetwork ∧ e.nameservers ≠ [] ∧
      ∀ ns ∈ e.nameservers, goodWord ns) :
    ∀ p ∈ l.map (fun e => (e.domainOrNetwork, joinChar ' ' e.nameservers)),
      (')' ∉ p.1 ∧ ')' ∉ p.2) ∧ ('(' ∉ p.1 ∧ '(' ∉ p.2) := by
  intro p hp
  rw [List.mem_map] at hp
  obtain ⟨e, he, rfl⟩ := hp
  obtain ⟨hk, -, hws⟩ := h e he
  refine ⟨⟨hk.2.2.2, ?_⟩, hk.2.2.1, ?_⟩
  · intro hq
    rcases mem_joinChar hq with hq | ⟨w, hw, hcw⟩
    · exact absurd hq (by decide)
    · exact (hws w hw).1.2.2.2 hcw
  · intro hq
    rcases mem_joinChar hq with hq | ⟨w, hw, hcw⟩
    · exact absurd hq (by decide)
    · exact (hws w hw).1.2.2.1 hcw

theorem nsPairs_cond {l : List DNSNameserverEntry}
    (h : ∀ e ∈ l, goodKey e.hostname ∧ goodKey e.ipAddress) :
    ∀ p ∈ l.map (fun e => (e.hostname, e.ipAddress)),
      p.1 ≠ [] ∧ sq ∉ p.1 ∧ p.2 ≠ [] ∧ sq ∉ p.2 := by
  intro p hp
  rw [List.mem_map] at hp
  obtain ⟨e, he, rfl⟩ := hp
  exact ⟨(h e he).1.1, (h e he).1.2.1, (h e he).2.1, (h e he).2.2.1⟩

theorem nsPairs_paren {l : List DNSNameserverEntry}
    (h : ∀ e ∈ l, goodKey e.hostname ∧ goodKey e.ipAddress) :
    ∀ p ∈ l.map (fun e => (e.hostname, e.ipAddress)),
      (')' ∉ p.1 ∧ ')' ∉ p.2) ∧ ('(' ∉ p.1 ∧ '(' ∉ p.2) := by
  intro p hp
  rw [List.mem_map] at hp
  obtain ⟨e, he, rfl⟩ := hp
  exact ⟨⟨(h e he).1.2.2.2, (h e he).2.2.2.2⟩, (h e he).1.2.2.1, (h e he).2.2.2.1⟩

theorem serializer_body_eq (l : List DNSDelegationEntry) :
    ((l.map (fun e => (e.domainOrNetwork, joinChar ' ' e.nameservers))).map
        (fun p => entryLine p.1 p.2)).flatten
      = (l.map (fun e => entryLine e.domainOrNetwork (joinChar ' ' e.nameservers))).flatten := by
  rw [List.map_map]
  rfl

theorem serializer_nsbody_eq (l : List DNSNameserverEntry) :
    ((l.map (fun e => (e.hostname, e.ipAddress))).map
        (fun p => entryLine p.1 p.2)).flatten
      = (l.map (fun e => entryLine e.hostname e.ipAddress)).flatten := by
  rw [List.map_map]
  rfl

theorem roundTrip_delegations (cfg : DNSDelegationsConfig)
    (hwf : wfDelegations cfg) :
    parseDelegationsContent (updateDelegationsContent cfg) = cfg := by
  obtain ⟨hwff, hwfr, hwfn⟩ := hwf
  have hbF : '(' ∉ (cfg.forward.map
        (fun e => entryLine e.domainOrNetwork (joinChar ' ' e.nameservers))).flatten
      ∧ ')' ∉ (cfg.forward.map
        (fun e => entryLine e.domainOrNetwork (joinChar ' ' e.nameservers))).flatten := by
    constructor <;> rw [← serializer_body_eq]
    · exact not_mem_body (by decide) (by decide) (by decide) (by decide) (by decide)
        (by decide) (fun p hp => (entryPairs_paren hwff p hp).2)
    · exact not_mem_body (by decide) (by decide) (by decide) (by decide) (by decide)
        (by decide) (fun p hp => (entryPairs_paren hwff p hp).1)
  have hbR : '(' ∉ (cfg.reverse.map
        (fun e => entryLine e.domainOrNetwork (joinChar ' ' e.nameservers))).flatten
      ∧ ')' ∉ (cfg.reverse.map
        (fun e => entryLine e.domainOrNetwork (joinChar ' ' e.nameservers))).flatten := by
    constructor <;> rw [← serializer_body_eq]
    · exact not_mem_body (by decide) (by decide) (by decide) (by decide) (by decide)
        (by decide) (fun p hp => (entryPairs_paren hwfr p hp).2)
    · exact not_mem_body (by decide) (by decide) (by decide) (by decide) (by decide)
        (by decide) (fun p hp => (entryPairs_paren hwfr p hp).1)
  have hbN : ')' ∉ (cfg.nameservers.map
        (fun e => entryLine e.hostname e.ipAddress)).flatten := by
    rw [← serializer_nsbody_eq]
    exact not_mem_body (by decide) (by decide) (by decide) (by decide) (by decide)
      (by decide) (fun p hp => (nsPairs_paren hwfn p hp).1)
  -- section extraction: forward
  have hsecF : parseSection litFwd (updateDelegationsContent cfg)
      = parseEntries ('\n' :: (cfg.forward.map
          (fun e => entryLine e.domainOrNetwork (joinChar ' ' e.nameservers))).flatten) := by
    refine parseSection_extract (A := serializeHeader) _
      ('\n' :: '\n' :: (litRev ++ ('\n' ::
        ((cfg.reverse.map
          (fun e => entryLine e.domainOrNetwork (joinChar ' ' e.nameservers))).flatten
          ++ ([')', '\n', '\n'] ++ (litNs ++ ('\n' ::
        ((cfg.nameservers.map
          (fun e => entryLine e.hostname e.ipAddress)).flatten ++ [')', '\n']))))))))
      ?_ (fun i hi => noSpan_noStart (by decide) i hi _) (by decide) ?_
    · simp only [updateDelegationsContent,
        show (")\n\n".toList : Str) = [')', '\n', '\n'] from rfl,
        show (")\n".toList : Str) = [')', '\n'] from rfl,
        List.cons_append, List.append_assoc, List.nil_append]
    · intro hmem
      rcases List.mem_cons.mp hmem with hq | hq
      · exact absurd hq (by decide)
      · exact hbF.2 hq
  -- section extraction: reverse
  have hsecR : parseSection litRev (updateDelegationsContent cfg)
      = parseEntries ('\n' :: (cfg.reverse.map
          (fun e => entryLine e.domainOrNetwork (joinChar ' ' e.nameservers))).flatten) := by
    refine parseSection_extract
      (A := (serializeHeader ++ (litFwd ++ ['\n'])) ++
        ((cfg.forward.map
          (fun e => entryLine e.domainOrNetwork (joinChar ' ' e.nameservers))).flatten
          ++ [')', '\n', '\n'])) _
      ('\n' :: '\n' :: (litNs ++ ('\n' ::
        ((cfg.nameservers.map
          (fun e => entryLine e.hostname e.ipAddress)).flatten ++ [')', '\n']))))
      ?_ ?_ (by decide) ?_
    · simp only [updateDelegationsContent,
        show (")\n\n".toList : Str) = [')', '\n', '\n'] from rfl,
        show (")\n".toList : Str) = [')', '\n'] from rfl,
        List.cons_append, List.append_assoc, List.nil_append]
    · refine noStart_append (fun i hi => noSpan_noStart (by decide) i hi _) ?_
      refine noStart_span (by decide) (by decide)
        ⟨'(', by decide, ?_⟩ rfl
      intro hmem
      rcases List.mem_append.mp hmem with hq | hq
      · exact hbF.1 hq
      · exact absurd hq (by decide)
    · intro hmem
      rcases List.mem_cons.mp hmem with hq | hq
      · exact absurd hq (by decide)
      · exact hbR.2 hq
  -- section extraction: nameservers
  have hsecN : parseSection litNs (updateDelegationsContent cfg)
      = parseEntries ('\n' :: (cfg.nameservers.map
          (fun e => entryLine e.hostname e.ipAddress)).flatten) := by
    refine parseSection_extract
      (A := (serializeHeader ++ (litFwd ++ ['\n'])) ++
        (((cfg.forward.map
            (fun e => entryLine e.domainOrNetwork (joinChar ' ' e.nameservers))).flatten
            ++ [')', '\n', '\n']) ++
          ((litRev ++ ['\n']) ++
            ((cfg.reverse.map
              (fun e => entryLine e.domainOrNetwork (joinChar ' ' e.nameservers))).flatten
              ++ [')', '\n', '\n'])))) _
      ['\n']
      ?_ ?_ (by decide) ?_
    · simp only [updateDelegationsContent,
        show (")\n\n".toList : Str) = [')', '\n', '\n'] from rfl,
        show (")\n".toList : Str) = [')', '\n'] from rfl,
        List.cons_append, List.append_assoc, List.nil_append]
    · refine noStart_append (fun i hi => noSpan_noStart (by decide) i hi _) ?_
      refine noStart_append ?_ ?_
      · refine noStart_span (by decide) (by decide)
          ⟨'(', by decide, ?_⟩ rfl
        intro hmem
        rcases List.mem_append.mp hmem with hq | hq
        · exact hbF.1 hq
        · exact absurd hq (by decide)
      · refine noStart_append (fun i hi => noSpan_noStart (by decide) i hi _) ?_
        refine noStart_span (by decide) (by decide)
          ⟨'(', by decide, ?_⟩ rfl
        intro hmem
        rcases List.mem_append.mp hmem with hq | hq
        · exact hbR.1 hq
        · exact absurd hq (by decide)
    · intro hmem
      rcases List.mem_cons.mp hmem with hq | hq
      · exact absurd hq (by decide)
      · exact hbN hq
  -- parse the bodies back
  have hpF : parseSection litFwd (updateDelegationsContent cfg)
      = cfg.forward.map (fun e => (e.domainOrNetwork, joinChar ' ' e.nameservers)) := by
    rw [hsecF, parseEntries_cons_none (tryEntry_none_of _ (by decide)),
      ← serializer_body_eq, parseEntries_entries _ (entryPairs_cond hwff)]
  have hpR : parseSection litRev (updateDelegationsContent cfg)
      = cfg.reverse.map (fun e => (e.domainOrNetwork, joinChar ' ' e.nameservers)) := by
    rw [hsecR, parseEntries_cons_none (tryEntry_none_of _ (by decide)),
      ← serializer_body_eq, parseEntries_entries _ (entryPairs_cond hwfr)]
  have hpN : parseSection litNs (updateDelegationsContent cfg)
      = cfg.nameservers.map (fun e => (e.hostname, e.ipAddress)) := by
    rw [hsecN, parseEntries_cons_none (tryEntry_none_of _ (by decide)),
      ← serializer_nsbody_eq, parseEntries_entries _ (nsPairs_cond hwfn)]
  -- reassemble the three maps
  unfold parseDelegationsContent
  rw [hpF, hpR, hpN, List.map_map, List.map_map, List.map_map]
  rw [map_eq_self (f := (fun p : Str × Str => DNSDelegationEntry.mk p.1 (splitWs p.2))
      ∘ (fun e => (e.domainOrNetwork, joinChar ' ' e.nameservers)))
    (fun e he => by
      obtain ⟨hk, hnss, hws⟩ := hwff e he
      show DNSDelegationEntry.mk e.domainOrNetwork
        (splitWs (joinChar ' ' e.nameservers)) = e
      rw [splitWs_join e.nameservers hnss
        (fun w hw => ⟨(hws w hw).1.1, (hws w hw).2⟩)])]
  rw [map_eq_self (f := (fun p : Str × Str => DNSDelegationEntry.mk p.1 (splitWs p.2))
      ∘ (fun e => (e.domainOrNetwork, joinChar ' ' e.nameservers)))
    (fun e he => by
      obtain ⟨hk, hnss, hws⟩ := hwfr e he
      show DNSDelegationEntry.mk e.domainOrNetwork
        (splitWs (joinChar ' ' e.nameservers)) = e
      rw [splitWs_join e.nameservers hnss
        (fun w hw => ⟨(hws w hw).1.1, (hws w hw).2⟩)])]
  rw [map_eq_self (f := (fun p : Str × Str => DNSNameserverEntry.mk p.1 p.2)
      ∘ (fun e => (e.hostname, e.ipAddress)))
    (fun e he => rfl)]

/-- C8 counterexample: the round trip fails on a delegation entry with an
empty nameserver list.  The serializer writes `['ex.com']=''`, but the entry
regex requires a non-empty quoted value, so parsing the serialized file drops
the entry entirely. -/
theorem claim_C8_counterexample :
    parseDelegationsContent (updateDelegationsContent
        ⟨[⟨"ex.com".toList, []⟩], [], []⟩)
      ≠ ⟨[⟨"ex.com".toList, []⟩], [], []⟩ := by
  set_option maxRecDepth 20000 in decide

/-- C8 (amended): on delegations configurations that the declarative-array
syntax can faithfully carry — every key non-empty and free of quotes and
parentheses, every nameserver list a non-empty list of non-empty
whitespace-free words of the same kind — serializing and parsing back yields
the same three maps, and a second serialization is byte-identical to the
first.  (Outside this class the entry regex drops or truncates entries, as
the counterexample shows.) -/
theorem claim_C8_amended (cfg : DNSDelegationsConfig) (hwf : wfDelegations cfg) :
    parseDelegationsContent (updateDelegationsContent cfg) = cfg ∧
    updateDelegationsContent (parseDelegationsContent (updateDelegationsContent cfg))
      = updateDelegationsContent cfg := by
  have h := roundTrip_delegations cfg hwf
  exact ⟨h, by rw [h]⟩

/-- C8 witness: the round trip at a concrete well-formed configuration with
all three sections populated. -/
theorem claim_C8_witness :
    parseDelegationsContent (updateDelegationsContent
        ⟨[⟨"ex.com".toList, ["ns1.ex.com".toList, "ns2.ex.com".toList]⟩],
         [⟨"1.2.3".toList, ["ns1.ex.com".toList]⟩],
         [⟨"ns1.ex.com".toList, "1.2.3.4".toList⟩]⟩)
      = ⟨[⟨"ex.com".toList, ["ns1.ex.com".toList, "ns2.ex.com".toList]⟩],
         [⟨"1.2.3".toList, ["ns1.ex.com".toList]⟩],
         [⟨"ns1.ex.com".toList, "1.2.3.4".toList⟩]⟩ ∧
    updateDelegationsContent (parseDelegationsContent (updateDelegationsContent
        ⟨[⟨"ex.com".toList, ["ns1.ex.com".toList, "ns2.ex.com".toList]⟩],
         [⟨"1.2.3".toList, ["ns1.ex.com".toList]⟩],
         [⟨"ns1.ex.com".toList, "1.2.3.4".toList⟩]⟩))
      = updateDelegationsContent
        ⟨[⟨"ex.com".toList, ["ns1.ex.com".toList, "ns2.ex.com".toList]⟩],
         [⟨"1.2.3".toList, ["ns1.ex.com".toList]⟩],
         [⟨"ns1.ex.com".toList, "1.2.3.4".toList⟩]⟩ :=
  claim_C8_amended
    ⟨[⟨"ex.com".toList, ["ns1.ex.com".toList, "ns2.ex.com".toList]⟩],
     [⟨"1.2.3".toList, ["ns1.ex.com".toList]⟩],
     [⟨"ns1.ex.com".toList, "1.2.3.4".toList⟩]⟩
    (by
      refine ⟨?_, ?_, ?_⟩
      · intro e he
        simp only [List.mem_cons, List.not_mem_nil, or_false] at he
        subst he
        refine ⟨by unfold goodKey; decide, by decide, ?_⟩
        intro ns hns
        simp only [List.mem_cons, List.not_mem_nil, or_false] at hns
        rcases hns with rfl | rfl <;>
          exact ⟨by unfold goodKey; decide, by decide⟩
      · intro e he
        simp only [List.mem_cons, List.not_mem_nil, or_false] at he
        subst he
        refine ⟨by unfold goodKey; decide, by decide, ?_⟩
        intro ns hns
        simp only [List.mem_cons, List.not_mem_nil, or_false] at hns
        subst hns
        exact ⟨by unfold goodKey; decide, by decide⟩
      · intro e he
        simp only [List.mem_cons, List.not_mem_nil, or_false] at he
        subst he
        exact ⟨by unfold goodKey; decide, by unfold goodKey; decide⟩)

end Fauxnet
